import Mathlib

set_option maxHeartbeats 1000000
set_option maxRecDepth 10000

/-!
Shallow embedding of `bible-reference-rs` (`src/lib.rs`).

The crate extracts scripture citations from text using two `regex` patterns
(`BIBLE_REFERENCE_PATTERN`, `VERSES_LOCATION_PATTERN`), iterating over
non-overlapping matches (`captures_iter`) and expanding chapter/verse range
notation into explicit lists.

The embedding models the `regex` crate's behavior on these patterns with a
small backtracking matcher over an explicit pattern AST: ordered alternation,
greedy repetition (leftmost-first preference semantics, which is what the
`regex` crate provides for these patterns), and named capture groups whose
slots are overwritten on repeated participation.  Character classes model
`\d` `\s` as their ASCII parts and `\pL` as ASCII letters plus the Cyrillic
block (the scripts this crate's inputs exercise).
-/

namespace BibleRef

/-- Model of the `\pL` letter class: ASCII letters plus the Cyrillic block. -/
def isPL (c : Char) : Bool := c.isAlpha || (0x400 ≤ c.toNat && c.toNat ≤ 0x4FF)

/-- Model of the `\s` whitespace class. -/
def isWS (c : Char) : Bool := c == ' ' || c == '\t' || c == '\n' || c == '\r'

/-- Numeric value of a decimal digit character. -/
def digitVal (c : Char) : Nat := c.toNat - '0'.toNat

/-- Value of a decimal digit string. -/
def digitsVal (cs : List Char) : Nat := cs.foldl (fun a c => 10 * a + digitVal c) 0

/-- Model of Rust `str::parse::<u8>` on the digit-only strings the patterns
capture: fails on the empty string, on a non-digit, and on overflow past 255. -/
def parseU8 (cs : List Char) : Option Nat :=
  if cs ≠ [] ∧ cs.all Char.isDigit ∧ digitsVal cs ≤ 255 then some (digitsVal cs) else none

/-- Model of Rust `(a..=b).collect()` on `u8`: inclusive ascending range,
empty when `b < a`. -/
def rangeIncl (a b : Nat) : List Nat := List.range' a (b + 1 - a)

/-- `VerseLocation` from `src/lib.rs` (u8 values modelled as `Nat`, always ≤ 255). -/
structure VerseLocation where
  chapters : List Nat
  verses : Option (List Nat)
deriving DecidableEq

/-- `BibleReference` from `src/lib.rs`; the book label is kept as the matched
character span. -/
structure BibleReference where
  book : List Char
  locations : List VerseLocation
deriving DecidableEq

/-- The named capture groups appearing in the two patterns. -/
inductive GroupName where
  | gBook | gLocations
  | gChapter | gChapterEnd | gChapterNext
  | gVerse | gVerseEnd | gVerseNext
deriving DecidableEq

/-- Capture slots of a match, one per named group, `none` when the group did
not participate in the match. -/
structure Captures where
  book : Option (List Char)
  locations : Option (List Char)
  chapter : Option (List Char)
  chapterEnd : Option (List Char)
  chapterNext : Option (List Char)
  verse : Option (List Char)
  verseEnd : Option (List Char)
  verseNext : Option (List Char)
deriving DecidableEq

def Captures.empty : Captures := ⟨none, none, none, none, none, none, none, none⟩

def Captures.get (cp : Captures) : GroupName → Option (List Char)
  | .gBook => cp.book
  | .gLocations => cp.locations
  | .gChapter => cp.chapter
  | .gChapterEnd => cp.chapterEnd
  | .gChapterNext => cp.chapterNext
  | .gVerse => cp.verse
  | .gVerseEnd => cp.verseEnd
  | .gVerseNext => cp.verseNext

def Captures.set (cp : Captures) (g : GroupName) (w : List Char) : Captures :=
  match g with
  | .gBook => { cp with book := some w }
  | .gLocations => { cp with locations := some w }
  | .gChapter => { cp with chapter := some w }
  | .gChapterEnd => { cp with chapterEnd := some w }
  | .gChapterNext => { cp with chapterNext := some w }
  | .gVerse => { cp with verse := some w }
  | .gVerseEnd => { cp with verseEnd := some w }
  | .gVerseNext => { cp with verseNext := some w }

/-- Character classes of the patterns. -/
inductive CC where
  | digit
  | letter
  | space
  | one (c : Char)
  | among (cs : List Char)
deriving DecidableEq

def CC.test : CC → Char → Bool
  | .digit, c => c.isDigit
  | .letter, c => isPL c
  | .space, c => isWS c
  | .one d, c => c == d
  | .among ds, c => ds.contains c

/-- Pattern AST: epsilon, a character class, concatenation, ordered
alternation, greedy star, and a named capture group. -/
inductive RE where
  | eps
  | cls (cc : CC)
  | cat (a b : RE)
  | alt (a b : RE)
  | star (a : RE)
  | grp (g : GroupName) (a : RE)
deriving DecidableEq

/-- Greedy `?`: try the body first, then skip. -/
def REopt (a : RE) : RE := .alt a .eps

/-- `+`: one occurrence then a greedy star. -/
def REplus (a : RE) : RE := .cat a (.star a)

def ccD : RE := .cls .digit
def ccL : RE := .cls .letter
def ccS : RE := .cls .space

/-- `1?[0-9]?[0-9]`, the first chapter token of a location. -/
def chapterToken : RE := .cat (REopt (.cls (.one '1'))) (.cat (REopt ccD) ccD)

/-- `(-(?P<end>\d+)|,\s*(?P<next>\d+))*`, the range/sequence suffix loop
shared by the chapter and the verse positions. -/
def sufPattern (g1 g2 : GroupName) : RE :=
  .star (.alt (.cat (.cls (.one '-')) (.grp g1 (REplus ccD)))
              (.cat (.cls (.one ',')) (.cat (.star ccS) (.grp g2 (REplus ccD)))))

/-- `(-(?P<ChapterEnd>\d+)|,\s*(?P<ChapterNext>\d+))*`. -/
def chSuffix : RE := sufPattern .gChapterEnd .gChapterNext

/-- `(:\s*(?P<Verse>\d+))?`. -/
def vGroup : RE := REopt (.cat (.cls (.one ':')) (.cat (.star ccS) (.grp .gVerse (REplus ccD))))

/-- `(-(?P<VerseEnd>\d+)|,\s*(?P<VerseNext>\d+))*`. -/
def vSuffix : RE := sufPattern .gVerseEnd .gVerseNext

/-- The body of one chapter/verse location. -/
def locCore : RE := .cat (.grp .gChapter chapterToken) (.cat chSuffix (.cat vGroup vSuffix))

/-- `VERSES_LOCATION_PATTERN` from `src/lib.rs`. -/
def VERSES_LOCATION_PATTERN : RE := locCore

/-- `(([1234]|I{1,4})\s*)?\pL+\.?`, the body of the `Book` group. -/
def i14 : RE :=
  .cat (.cls (.one 'I'))
       (REopt (.cat (.cls (.one 'I')) (REopt (.cat (.cls (.one 'I')) (REopt (.cls (.one 'I')))))))

def bookBody : RE :=
  .cat (REopt (.cat (.alt (.cls (.among ['1', '2', '3', '4'])) i14) (.star ccS)))
       (.cat (REplus ccL) (REopt (.cls (.one '.'))))

/-- `((?P<Chapter>…)…\s?)+`, the body of the `Locations` group. -/
def locBody : RE := REplus (.cat locCore (REopt ccS))

/-- `BIBLE_REFERENCE_PATTERN` from `src/lib.rs`. -/
def BIBLE_REFERENCE_PATTERN : RE :=
  .cat (.grp .gBook bookBody)
       (.cat (.star ccS) (.grp .gLocations locBody))

/-- Continuation type of the matcher. -/
abbrev MK := Captures → List Char → Option (Captures × List Char)

/-- The matcher at star-fuel zero: a star matches zero further repetitions. -/
def matZ : RE → List Char → Captures → MK → Option (Captures × List Char)
  | .eps, cs, cp, k => k cp cs
  | .cls _, [], _, _ => none
  | .cls cc, c :: rest, cp, k => if cc.test c then k cp rest else none
  | .cat a b, cs, cp, k => matZ a cs cp (fun cp1 cs1 => matZ b cs1 cp1 k)
  | .alt a b, cs, cp, k =>
      match matZ a cs cp k with
      | some r => some r
      | none => matZ b cs cp k
  | .star _, cs, cp, k => k cp cs
  | .grp g a, cs, cp, k =>
      matZ a cs cp (fun cp1 cs1 => k (cp1.set g (cs.take (cs.length - cs1.length))) cs1)

/-- One star-fuel layer of the matcher: a star runs its body and the
continuation star at the previous layer `prev`. -/
def matS (prev : RE → List Char → Captures → MK → Option (Captures × List Char)) :
    RE → List Char → Captures → MK → Option (Captures × List Char)
  | .eps, cs, cp, k => k cp cs
  | .cls _, [], _, _ => none
  | .cls cc, c :: rest, cp, k => if cc.test c then k cp rest else none
  | .cat a b, cs, cp, k => matS prev a cs cp (fun cp1 cs1 => matS prev b cs1 cp1 k)
  | .alt a b, cs, cp, k =>
      match matS prev a cs cp k with
      | some r => some r
      | none => matS prev b cs cp k
  | .star a, cs, cp, k =>
      match prev a cs cp (fun cp1 cs1 => prev (.star a) cs1 cp1 k) with
      | some r => some r
      | none => k cp cs
  | .grp g a, cs, cp, k =>
      matS prev a cs cp (fun cp1 cs1 => k (cp1.set g (cs.take (cs.length - cs1.length))) cs1)

/-- Backtracking matcher in continuation-passing style.  `mat f re cs cp k`
tries to match `re` against a prefix of `cs`, threading the capture slots
`cp`, and calls `k` on the updated slots and the remaining input; ordered
alternation and the greedy star reproduce the regex crate's leftmost-first
preference order.  `f` is repetition fuel for the star (ample fuel is
supplied at the call sites below). -/
def mat : Nat → RE → List Char → Captures → MK → Option (Captures × List Char)
  | 0 => matZ
  | f + 1 => matS (mat f)

theorem mat_eps {f : Nat} {cs : List Char} {cp : Captures} {k : MK} :
    mat f .eps cs cp k = k cp cs := by
  cases f <;> rfl

theorem mat_cls_nil {f : Nat} {cc : CC} {cp : Captures} {k : MK} :
    mat f (.cls cc) [] cp k = none := by
  cases f <;> rfl

theorem mat_cls_cons {f : Nat} {cc : CC} {c : Char} {rest : List Char} {cp : Captures} {k : MK} :
    mat f (.cls cc) (c :: rest) cp k = if cc.test c then k cp rest else none := by
  cases f <;> rfl

theorem mat_cat {f : Nat} {a b : RE} {cs : List Char} {cp : Captures} {k : MK} :
    mat f (.cat a b) cs cp k = mat f a cs cp (fun cp1 cs1 => mat f b cs1 cp1 k) := by
  cases f <;> rfl

theorem mat_alt {f : Nat} {a b : RE} {cs : List Char} {cp : Captures} {k : MK} :
    mat f (.alt a b) cs cp k =
      match mat f a cs cp k with
      | some r => some r
      | none => mat f b cs cp k := by
  cases f <;> rfl

theorem mat_star_zero {a : RE} {cs : List Char} {cp : Captures} {k : MK} :
    mat 0 (.star a) cs cp k = k cp cs := rfl

theorem mat_star_succ {f : Nat} {a : RE} {cs : List Char} {cp : Captures} {k : MK} :
    mat (f + 1) (.star a) cs cp k =
      match mat f a cs cp (fun cp1 cs1 => mat f (.star a) cs1 cp1 k) with
      | some r => some r
      | none => k cp cs := rfl

theorem mat_grp {f : Nat} {g : GroupName} {a : RE} {cs : List Char} {cp : Captures} {k : MK} :
    mat f (.grp g a) cs cp k =
      mat f a cs cp (fun cp1 cs1 => k (cp1.set g (cs.take (cs.length - cs1.length))) cs1) := by
  cases f <;> rfl

/-- Fuel that amply covers every repetition the patterns can perform on `cs`. -/
def fuelFor (cs : List Char) : Nat := 4 * cs.length + 16

/-- Try a whole-pattern match at the current position. -/
def tryMatch (re : RE) (cs : List Char) : Option (Captures × List Char) :=
  mat (fuelFor cs) re cs Captures.empty (fun cp rest => some (cp, rest))

/-- Model of `Regex::captures_iter`: successive non-overlapping leftmost
matches; on failure advance one character, on an empty match advance one
character past it.  Each element records the start position, the end
position and the capture slots of one match. -/
def scanFrom (re : RE) : Nat → Nat → List Char → List (Nat × Nat × Captures)
  | 0, _, _ => []
  | f + 1, pos, cs =>
      match tryMatch re cs with
      | some (cp, rest) =>
          let len := cs.length - rest.length
          if len = 0 then
            match cs with
            | [] => [(pos, pos, cp)]
            | _ :: t => (pos, pos, cp) :: scanFrom re f (pos + 1) t
          else
            (pos, pos + len, cp) :: scanFrom re f (pos + len) rest
      | none =>
          match cs with
          | [] => []
          | _ :: t => scanFrom re f (pos + 1) t

/-- All matches of `re` in `cs`. -/
def scanAll (re : RE) (cs : List Char) : List (Nat × Nat × Captures) :=
  scanFrom re (cs.length + 1) 0 cs

/-- The per-match body of `parse_locations` in `src/lib.rs`: numeric parsing
of the captured groups and range expansion.  Mirrors the Rust control flow:
a missing or unparseable `Chapter` group aborts the entry; the other groups
fall back to "absent" when their numeric parse fails. -/
def locationOfCaptures (m : Captures) : Option VerseLocation :=
  match m.get .gChapter with
  | none => none
  | some g =>
    match parseU8 g with
    | none => none
    | some chapter =>
      let chapterEnd := (m.get .gChapterEnd).bind parseU8
      let chapterNext := (m.get .gChapterNext).bind parseU8
      let chaptersRange :=
        match chapter, chapterNext, chapterEnd with
        | ch, none, none => [ch]
        | ch, some next, none => [ch, next]
        | ch, none, some e => rangeIncl ch e
        | ch, some next, some e => rangeIncl ch e ++ [next]
      let verse := (m.get .gVerse).bind parseU8
      let verseNext := (m.get .gVerseNext).bind parseU8
      let verseEnd := (m.get .gVerseEnd).bind parseU8
      let versesRange :=
        match verse, verseNext, verseEnd with
        | some v, none, none => some [v]
        | some v, some next, none => some [v, next]
        | some v, none, some e => some (rangeIncl v e)
        | some v, some next, some e => some (rangeIncl v e ++ [next])
        | _, _, _ => none
      some { chapters := chaptersRange, verses := versesRange }

/-- `parse_locations` from `src/lib.rs`. -/
def parse_locations (cs : List Char) : List VerseLocation :=
  (scanAll VERSES_LOCATION_PATTERN cs).filterMap (fun t => locationOfCaptures t.2.2)

/-- The per-match body of `parse`: require the `Book` and `Locations` groups,
then expand the locations substring. -/
def mkRef (cp : Captures) : Option BibleReference :=
  match cp.get .gBook, cp.get .gLocations with
  | some b, some l => some { book := b, locations := parse_locations l }
  | _, _ => none

/-- `parse` from `src/lib.rs`, on character lists. -/
def parseL (cs : List Char) : List BibleReference :=
  (scanAll BIBLE_REFERENCE_PATTERN cs).filterMap (fun t => mkRef t.2.2)

/-- `parse` from `src/lib.rs`. -/
def parse (s : String) : List BibleReference := parseL s.data

/-! ## Declarative match semantics and engine soundness -/

/-- Declarative (nondeterministic) membership of a word in a pattern. -/
inductive Matches : RE → List Char → Prop where
  | eps : Matches .eps []
  | cls {cc c} : cc.test c = true → Matches (.cls cc) [c]
  | cat {a b u v} : Matches a u → Matches b v → Matches (.cat a b) (u ++ v)
  | altL {a b u} : Matches a u → Matches (.alt a b) u
  | altR {a b u} : Matches b u → Matches (.alt a b) u
  | starNil {a} : Matches (.star a) []
  | starCons {a u v} : Matches a u → Matches (.star a) v → Matches (.star a) (u ++ v)
  | grp {g a u} : Matches a u → Matches (.grp g a) u

/-- The named groups occurring in a pattern, with their bodies. -/
def groupsOf : RE → List (GroupName × RE)
  | .eps => []
  | .cls _ => []
  | .cat a b => groupsOf a ++ groupsOf b
  | .alt a b => groupsOf a ++ groupsOf b
  | .star a => groupsOf a
  | .grp g a => (g, a) :: groupsOf a

/-- Each capture slot is either untouched or holds a word matched by the body
of a correspondingly named group from the list `G`. -/
def capG (G : List (GroupName × RE)) (cp cp' : Captures) : Prop :=
  ∀ g, cp'.get g = cp.get g ∨ ∃ a u, (g, a) ∈ G ∧ Matches a u ∧ cp'.get g = some u

theorem capG_refl (G : List (GroupName × RE)) (cp : Captures) : capG G cp cp :=
  fun _ => Or.inl rfl

theorem capG_mono {G G' : List (GroupName × RE)} (h : ∀ x ∈ G, x ∈ G') {cp cp' : Captures}
    (hc : capG G cp cp') : capG G' cp cp' := by
  intro g
  rcases hc g with h1 | ⟨a, u, hm, hu, hg⟩
  · exact Or.inl h1
  · exact Or.inr ⟨a, u, h _ hm, hu, hg⟩

theorem capG_trans {G : List (GroupName × RE)} {cp cp1 cp2 : Captures}
    (h1 : capG G cp cp1) (h2 : capG G cp1 cp2) : capG G cp cp2 := by
  intro g
  rcases h2 g with he | ⟨a, u, hm, hu, hg⟩
  · rcases h1 g with he' | ⟨a, u, hm, hu, hg⟩
    · exact Or.inl (he.trans he')
    · exact Or.inr ⟨a, u, hm, hu, he.trans hg⟩
  · exact Or.inr ⟨a, u, hm, hu, hg⟩

theorem Captures.get_set_same (cp : Captures) (g : GroupName) (w : List Char) :
    (cp.set g w).get g = some w := by
  cases g <;> rfl

theorem Captures.get_set_ne (cp : Captures) {g g' : GroupName} (h : g ≠ g') (w : List Char) :
    (cp.set g w).get g' = cp.get g' := by
  cases g <;> cases g' <;> first | rfl | exact absurd rfl h

theorem capG_set {G : List (GroupName × RE)} {cp cp' : Captures} {g₀ : GroupName} {a₀ : RE}
    {u : List Char} (hc : capG G cp cp') (hm : (g₀, a₀) ∈ G) (hu : Matches a₀ u) :
    capG G cp (cp'.set g₀ u) := by
  intro g
  by_cases hg : g₀ = g
  · subst hg
    exact Or.inr ⟨a₀, u, hm, hu, cp'.get_set_same g₀ u⟩
  · rw [cp'.get_set_ne hg u]
    exact hc g

theorem take_append_length {α : Type} (w rest : List α) :
    (w ++ rest).take ((w ++ rest).length - rest.length) = w := by
  simp

/-- Soundness of the matcher: a successful run splits the input into a word
matched by the pattern and a remainder passed to the continuation, and every
capture slot is either untouched or filled by a word matched by the body of
one of the pattern's groups. -/
theorem mat_sound :
    ∀ (f : Nat) (re : RE) (cs : List Char) (cp : Captures)
      (k : Captures → List Char → Option (Captures × List Char)) (r : Captures × List Char),
      mat f re cs cp k = some r →
      ∃ w rest cp', cs = w ++ rest ∧ Matches re w ∧ capG (groupsOf re) cp cp' ∧
        k cp' rest = some r := by
  intro f
  induction f using Nat.strong_induction_on with
  | _ f ihf =>
    intro re
    induction re with
    | eps =>
      intro cs cp k r h
      exact ⟨[], cs, cp, rfl, .eps, capG_refl _ _, by simpa [mat_eps] using h⟩
    | cls cc =>
      intro cs cp k r h
      match cs with
      | [] => simp [mat_cls_nil] at h
      | c :: rest =>
        by_cases hc : cc.test c = true
        · refine ⟨[c], rest, cp, rfl, .cls hc, capG_refl _ _, ?_⟩
          simpa [mat_cls_cons, hc] using h
        · simp [mat_cls_cons, hc] at h
    | cat a b iha ihb =>
      intro cs cp k r h
      simp only [mat_cat] at h
      obtain ⟨w1, rest1, cp1, hcs, hm1, hrel1, hk1⟩ := iha _ _ _ _ h
      obtain ⟨w2, rest2, cp2, hcs2, hm2, hrel2, hk2⟩ := ihb _ _ _ _ hk1
      refine ⟨w1 ++ w2, rest2, cp2, by simp [hcs, hcs2], .cat hm1 hm2, ?_, hk2⟩
      exact capG_trans
        (capG_mono (fun x hx => by simp [groupsOf, hx]) hrel1)
        (capG_mono (fun x hx => by simp [groupsOf, hx]) hrel2)
    | alt a b iha ihb =>
      intro cs cp k r h
      simp only [mat_alt] at h
      cases hma : mat f a cs cp k with
      | some r' =>
        rw [hma] at h
        obtain ⟨w, rest, cp', hcs, hm, hrel, hk⟩ := iha _ _ _ _ (hma.trans h)
        exact ⟨w, rest, cp', hcs, .altL hm,
          capG_mono (fun x hx => by simp [groupsOf, hx]) hrel, hk⟩
      | none =>
        rw [hma] at h
        obtain ⟨w, rest, cp', hcs, hm, hrel, hk⟩ := ihb _ _ _ _ h
        exact ⟨w, rest, cp', hcs, .altR hm,
          capG_mono (fun x hx => by simp [groupsOf, hx]) hrel, hk⟩
    | star a iha =>
      intro cs cp k r h
      match f, ihf with
      | 0, _ =>
        exact ⟨[], cs, cp, rfl, .starNil, capG_refl _ _, by simpa [mat_star_zero] using h⟩
      | f' + 1, ihf =>
        simp only [mat_star_succ] at h
        cases hma : mat f' a cs cp (fun cp1 cs1 => mat f' (.star a) cs1 cp1 k) with
        | some r' =>
          rw [hma] at h
          have h' := hma.trans h
          obtain ⟨w1, rest1, cp1, hcs, hm1, hrel1, hk1⟩ :=
            ihf f' (Nat.lt_succ_self f') a _ _ _ _ h'
          obtain ⟨w2, rest2, cp2, hcs2, hm2, hrel2, hk2⟩ :=
            ihf f' (Nat.lt_succ_self f') (.star a) _ _ _ _ hk1
          refine ⟨w1 ++ w2, rest2, cp2, by simp [hcs, hcs2], .starCons hm1 hm2, ?_, hk2⟩
          exact capG_trans hrel1 (by simpa [groupsOf] using hrel2)
        | none =>
          rw [hma] at h
          exact ⟨[], cs, cp, rfl, .starNil, capG_refl _ _, h⟩
    | grp g a iha =>
      intro cs cp k r h
      simp only [mat_grp] at h
      obtain ⟨w, rest, cp', hcs, hm, hrel, hk⟩ := iha _ _ _ _ h
      refine ⟨w, rest, cp'.set g (cs.take (cs.length - rest.length)), hcs, .grp hm, ?_, ?_⟩
      · have hcap : cs.take (cs.length - rest.length) = w := by
          rw [hcs]; exact take_append_length w rest
        rw [hcap]
        refine capG_set (capG_mono (fun x hx => ?_) hrel) ?_ hm
        · simp [groupsOf, hx]
        · simp [groupsOf]
      · rw [hcs] at hk ⊢
        simpa [take_append_length] using hk

/-! ## Inversion lemmas for the declarative semantics -/

theorem Matches.eps_inv {u : List Char} (h : Matches .eps u) : u = [] := by
  cases h; rfl

theorem Matches.cls_inv {cc : CC} {u : List Char} (h : Matches (.cls cc) u) :
    ∃ c, u = [c] ∧ cc.test c = true := by
  cases h with
  | cls hc => exact ⟨_, rfl, hc⟩

theorem Matches.cat_inv {a b : RE} {u : List Char} (h : Matches (.cat a b) u) :
    ∃ x y, u = x ++ y ∧ Matches a x ∧ Matches b y := by
  cases h with
  | cat hx hy => exact ⟨_, _, rfl, hx, hy⟩

theorem Matches.alt_inv {a b : RE} {u : List Char} (h : Matches (.alt a b) u) :
    Matches a u ∨ Matches b u := by
  cases h with
  | altL hx => exact Or.inl hx
  | altR hx => exact Or.inr hx

theorem Matches.grp_inv {g : GroupName} {a : RE} {u : List Char} (h : Matches (.grp g a) u) :
    Matches a u := by
  cases h with
  | grp hx => exact hx

theorem Matches.star_inv_aux {re : RE} {u : List Char} (h : Matches re u) :
    ∀ cc : CC, re = .star (.cls cc) → ∀ c ∈ u, cc.test c = true := by
  induction h with
  | starNil => intro cc _ c hc; simp at hc
  | starCons hx _ ihx ihy =>
    intro cc he c hc
    cases he
    rcases hx.cls_inv with ⟨d, hd, hdt⟩
    subst hd
    rcases List.mem_append.1 hc with h1 | h1
    · simpa [List.mem_singleton.1 h1] using hdt
    · exact ihy _ rfl _ h1
  | eps => intro _ h; cases h
  | cls _ => intro _ h; cases h
  | cat _ _ _ _ => intro _ h; cases h
  | altL _ _ => intro _ h; cases h
  | altR _ _ => intro _ h; cases h
  | grp _ _ => intro _ h; cases h

theorem Matches.star_cls_inv {cc : CC} {u : List Char} (h : Matches (.star (.cls cc)) u) :
    ∀ c ∈ u, cc.test c = true :=
  h.star_inv_aux cc rfl

/-! ## The citation pattern demands a letter (groundwork for C2) -/

/-- A syntactic check: every word the pattern matches must contain a letter. -/
def needsLetter : RE → Bool
  | .eps => false
  | .cls cc => cc == .letter
  | .cat a b => needsLetter a || needsLetter b
  | .alt a b => needsLetter a && needsLetter b
  | .star _ => false
  | .grp _ a => needsLetter a

theorem matches_needsLetter {re : RE} {u : List Char} (hre : needsLetter re = true)
    (h : Matches re u) : ∃ c ∈ u, isPL c = true := by
  induction h with
  | eps => simp [needsLetter] at hre
  | cls hc =>
    rename_i cc c
    have : cc = .letter := by
      cases cc <;> first | rfl | simp [needsLetter] at hre
    subst this
    exact ⟨c, List.mem_singleton_self c, hc⟩
  | cat _ _ iha ihb =>
    simp only [needsLetter, Bool.or_eq_true] at hre
    rcases hre with hre | hre
    · rcases iha hre with ⟨c, hc, hl⟩
      exact ⟨c, List.mem_append_left _ hc, hl⟩
    · rcases ihb hre with ⟨c, hc, hl⟩
      exact ⟨c, List.mem_append_right _ hc, hl⟩
  | altL _ iha =>
    simp only [needsLetter, Bool.and_eq_true] at hre
    exact iha hre.1
  | altR _ ihb =>
    simp only [needsLetter, Bool.and_eq_true] at hre
    exact ihb hre.2
  | starNil => simp [needsLetter] at hre
  | starCons _ _ _ _ => simp [needsLetter] at hre
  | grp _ iha => exact iha hre

theorem needsLetter_ref : needsLetter BIBLE_REFERENCE_PATTERN = true := by decide

/-- On a letter-free input the citation pattern never matches, so the scan
finds nothing. -/
theorem scanFrom_eq_nil {re : RE} (hre : needsLetter re = true) :
    ∀ (f pos : Nat) (cs : List Char), (∀ c ∈ cs, isPL c = false) →
      scanFrom re f pos cs = [] := by
  intro f
  induction f with
  | zero => intro pos cs _; rfl
  | succ f ih =>
    intro pos cs hcs
    have hnone : tryMatch re cs = none := by
      cases htm : tryMatch re cs with
      | none => rfl
      | some r =>
        obtain ⟨w, rest, cp', hsplit, hm, _, _⟩ := mat_sound _ _ _ _ _ _ htm
        obtain ⟨c, hc, hl⟩ := matches_needsLetter hre hm
        have : isPL c = false := hcs c (by rw [hsplit]; exact List.mem_append_left _ hc)
        rw [hl] at this
        cases this
    cases cs with
    | nil => simp [scanFrom, hnone]
    | cons c t =>
      simp only [scanFrom, hnone]
      exact ih (pos + 1) t (fun d hd => hcs d (List.mem_cons_of_mem c hd))

/-! ## Scan ordering (groundwork for C4) -/

/-- Match `a` comes strictly before match `b` and does not overlap it. -/
def spanBefore (a b : Nat × Nat × Captures) : Prop := a.1 < b.1 ∧ a.2.1 ≤ b.1

theorem scanFrom_start_le {re : RE} :
    ∀ (f pos : Nat) (cs : List Char), ∀ t ∈ scanFrom re f pos cs, pos ≤ t.1 := by
  intro f
  induction f with
  | zero => intro pos cs t ht; simp [scanFrom] at ht
  | succ f ih =>
    intro pos cs t ht
    simp only [scanFrom] at ht
    cases htm : tryMatch re cs with
    | some r =>
      rw [htm] at ht
      by_cases hl : cs.length - r.2.length = 0
      · simp only [hl, if_pos rfl] at ht
        cases cs with
        | nil =>
          simp at ht
          simp [ht]
        | cons c tl =>
          rcases List.mem_cons.1 ht with h1 | h1
          · simp [h1]
          · exact le_trans (Nat.le_succ pos) (ih (pos + 1) tl t h1)
      · simp only [if_neg hl] at ht
        rcases List.mem_cons.1 ht with h1 | h1
        · simp [h1]
        · exact le_trans (Nat.le_add_right pos _) (ih _ _ t h1)
    | none =>
      rw [htm] at ht
      cases cs with
      | nil => simp at ht
      | cons c tl => exact le_trans (Nat.le_succ pos) (ih (pos + 1) tl t ht)

theorem scanFrom_pairwise {re : RE} :
    ∀ (f pos : Nat) (cs : List Char), List.Pairwise spanBefore (scanFrom re f pos cs) := by
  intro f
  induction f with
  | zero => intro pos cs; exact List.Pairwise.nil
  | succ f ih =>
    intro pos cs
    simp only [scanFrom]
    cases htm : tryMatch re cs with
    | some r =>
      by_cases hl : cs.length - r.2.length = 0
      · simp only [hl, if_pos rfl]
        cases cs with
        | nil => exact List.pairwise_singleton _ _
        | cons c tl =>
          refine List.Pairwise.cons ?_ (ih (pos + 1) tl)
          intro t ht
          have := @scanFrom_start_le re f (pos + 1) tl t ht
          exact ⟨lt_of_lt_of_le (Nat.lt_succ_self pos) this, le_trans (Nat.le_succ pos) this⟩
      · simp only [if_neg hl]
        refine List.Pairwise.cons ?_ (ih _ _)
        intro t ht
        have hps := @scanFrom_start_le re f _ _ t ht
        have h1 : 0 < cs.length - r.2.length := Nat.pos_of_ne_zero hl
        exact ⟨lt_of_lt_of_le (Nat.lt_add_of_pos_right h1) hps, hps⟩
    | none =>
      cases cs with
      | nil => exact List.Pairwise.nil
      | cons c tl => exact ih (pos + 1) tl

theorem scanAll_pairwise (re : RE) (cs : List Char) :
    List.Pairwise spanBefore (scanAll re cs) :=
  scanFrom_pairwise _ 0 cs

/-! ## Structure of successful matches of the two patterns -/

theorem capG_nil {cp cp' : Captures} (h : capG [] cp cp') : ∀ g, cp'.get g = cp.get g := by
  intro g
  rcases h g with h1 | ⟨a, u, hm, _, _⟩
  · exact h1
  · simp at hm

/-- A group whose name does not occur in `G` is untouched. -/
theorem capG_not_mem {G : List (GroupName × RE)} {cp cp' : Captures}
    (h : capG G cp cp') {g : GroupName} (hg : G.all (fun p => !(p.1 == g)) = true) :
    cp'.get g = cp.get g := by
  rcases h g with h1 | ⟨a, u, hm, _, _⟩
  · exact h1
  · have := List.all_eq_true.1 hg _ hm
    simp at this

/-- Every successful match of the citation pattern splits into a book span, a
whitespace run and a locations span; the `Book` and `Locations` slots hold
exactly those spans, and the spans are in the languages of the corresponding
sub-patterns. -/
theorem tryMatch_ref_struct {cs rest : List Char} {cp : Captures}
    (h : tryMatch BIBLE_REFERENCE_PATTERN cs = some (cp, rest)) :
    ∃ b ws locs, cs = b ++ ws ++ locs ++ rest ∧
      Matches bookBody b ∧ (∀ c ∈ ws, isWS c = true) ∧ Matches locBody locs ∧
      cp.get .gBook = some b ∧ cp.get .gLocations = some locs := by
  unfold tryMatch at h
  simp only [BIBLE_REFERENCE_PATTERN, mat_cat, mat_grp] at h
  obtain ⟨b, rest1, cp1, hcs, hb, _, hk1⟩ := mat_sound _ _ _ _ _ _ h
  have hcap1 : cs.take (cs.length - rest1.length) = b := by
    rw [hcs]; exact take_append_length b rest1
  rw [hcap1] at hk1
  obtain ⟨ws, rest2, cp2, hcs2, hws, hrel2, hk2⟩ := mat_sound _ _ _ _ _ _ hk1
  obtain ⟨locs, rest3, cp3, hcs3, hlocs, hrel3, hk3⟩ := mat_sound _ _ _ _ _ _ hk2
  have hcap3 : rest2.take (rest2.length - rest3.length) = locs := by
    rw [hcs3]; exact take_append_length locs rest3
  rw [hcap3] at hk3
  have hpair := Option.some.inj hk3
  have hcp : cp = cp3.set .gLocations locs := (congrArg Prod.fst hpair).symm
  have hrest : rest = rest3 := (congrArg Prod.snd hpair).symm
  refine ⟨b, ws, locs, ?_, hb, hws.star_cls_inv, hlocs, ?_, ?_⟩
  · rw [hcs, hcs2, hcs3, hrest]; simp
  · rw [hcp, Captures.get_set_ne _ (by simp) locs]
    have h3 : cp3.get .gBook = cp2.get .gBook := by
      refine capG_not_mem hrel3 ?_
      decide
    have h2 : cp2.get .gBook = (cp1.set .gBook b).get .gBook :=
      capG_nil (by simpa [groupsOf] using hrel2) .gBook
    rw [h3, h2, Captures.get_set_same]
  · rw [hcp, Captures.get_set_same]

/-- Every successful match of the location pattern captures a `Chapter` span
in the language of the `1?[0-9]?[0-9]` token. -/
theorem tryMatch_loc_chapter {cs rest : List Char} {cp : Captures}
    (h : tryMatch VERSES_LOCATION_PATTERN cs = some (cp, rest)) :
    ∃ u, cp.get .gChapter = some u ∧ Matches chapterToken u := by
  unfold tryMatch at h
  simp only [VERSES_LOCATION_PATTERN, locCore, mat_cat, mat_grp] at h
  obtain ⟨u, rest1, cp1, hcs, hu, _, hk1⟩ := mat_sound _ _ _ _ _ _ h
  have hcap1 : cs.take (cs.length - rest1.length) = u := by
    rw [hcs]; exact take_append_length u rest1
  rw [hcap1] at hk1
  obtain ⟨v, rest2, cp2, _, _, hrel2, hk2⟩ := mat_sound _ _ _ _ _ _ hk1
  obtain ⟨v3, rest3, cp3, _, _, hrel3, hk3⟩ := mat_sound _ _ _ _ _ _ hk2
  obtain ⟨v4, rest4, cp4, _, _, hrel4, hk4⟩ := mat_sound _ _ _ _ _ _ hk3
  have hpair := Option.some.inj hk4
  have hcp : cp = cp4 := (congrArg Prod.fst hpair).symm
  have h4 : cp4.get .gChapter = cp3.get .gChapter := capG_not_mem hrel4 (by decide)
  have h3 : cp3.get .gChapter = cp2.get .gChapter := capG_not_mem hrel3 (by decide)
  have h2 : cp2.get .gChapter = (cp1.set .gChapter u).get .gChapter :=
    capG_not_mem hrel2 (by decide)
  refine ⟨u, ?_, hu⟩
  rw [hcp, h4, h3, h2, Captures.get_set_same]

/-! ## Digit arithmetic for captured tokens -/

theorem digitVal_lt_10 {c : Char} (h : c.isDigit = true) : digitVal c < 10 := by
  simp only [Char.isDigit, Bool.and_eq_true, decide_eq_true_eq, ge_iff_le] at h
  obtain ⟨h1, h2⟩ := h
  rw [UInt32.le_def, BitVec.le_def] at h1 h2
  have e1 : c.val.toBitVec.toNat = c.toNat := rfl
  have e2 : (UInt32.toBitVec 48).toNat = 48 := rfl
  have e3 : (UInt32.toBitVec 57).toNat = 57 := rfl
  simp only [digitVal]
  have e4 : '0'.toNat = 48 := rfl
  omega

theorem parseU8_of_digits {u : List Char} (hne : u ≠ []) (hd : u.all Char.isDigit = true)
    (hle : digitsVal u ≤ 255) : parseU8 u = some (digitsVal u) := by
  simp [parseU8, hne, hd, hle]

/-- Words matched by the `1?[0-9]?[0-9]` token: at most three characters,
and their value parses as a `u8` not exceeding 199. -/
theorem matches_chapterToken {u : List Char} (h : Matches chapterToken u) :
    u.length ≤ 3 ∧ ∃ n, parseU8 u = some n ∧ n ≤ 199 := by
  simp only [chapterToken] at h
  obtain ⟨u1, u23, he, h1, h23⟩ := h.cat_inv
  obtain ⟨u2, u3, he23, h2, h3⟩ := h23.cat_inv
  obtain ⟨c3, he3, hc3⟩ := h3.cls_inv
  have hone : ∀ {d : Char} {w : List Char}, Matches (REopt (.cls (.one d))) w →
      w = [] ∨ w = [d] := by
    intro d w hw
    rcases hw.alt_inv with hw | hw
    · obtain ⟨c, hc, hcd⟩ := hw.cls_inv
      right
      simp only [CC.test, beq_iff_eq] at hcd
      rw [hc, hcd]
    · exact Or.inl hw.eps_inv
  have hdig : ∀ {w : List Char}, Matches (REopt ccD) w →
      w = [] ∨ ∃ c, w = [c] ∧ c.isDigit = true := by
    intro w hw
    rcases hw.alt_inv with hw | hw
    · obtain ⟨c, hc, hcd⟩ := hw.cls_inv
      exact Or.inr ⟨c, hc, hcd⟩
    · exact Or.inl hw.eps_inv
  have hc3d : c3.isDigit = true := hc3
  have hv3 := digitVal_lt_10 hc3d
  have h1d : ('1').isDigit = true := by decide
  have h1v : digitVal '1' = 1 := rfl
  subst he he23 he3
  rcases hone h1 with h1e | h1e <;> rcases hdig h2 with h2e | ⟨c2, h2e, hc2d⟩ <;> subst h1e h2e
  · have hval : digitsVal [c3] = digitVal c3 := by simp [digitsVal]
    have hb : digitsVal [c3] ≤ 199 := by omega
    exact ⟨by simp, digitsVal [c3],
      parseU8_of_digits (by simp) (by simp [hc3d])
        (by show digitsVal [c3] ≤ 255; omega), hb⟩
  · have hv2 := digitVal_lt_10 hc2d
    have hval : digitsVal [c2, c3] = 10 * digitVal c2 + digitVal c3 := by simp [digitsVal]
    have hb : digitsVal [c2, c3] ≤ 199 := by omega
    exact ⟨by simp, digitsVal [c2, c3],
      parseU8_of_digits (by simp) (by simp [hc2d, hc3d])
        (by show digitsVal [c2, c3] ≤ 255; omega), hb⟩
  · have hval : digitsVal ['1', c3] = 10 * digitVal '1' + digitVal c3 := by simp [digitsVal]
    have hb : digitsVal ['1', c3] ≤ 199 := by omega
    exact ⟨by simp, digitsVal ['1', c3],
      parseU8_of_digits (by simp) (by simp [h1d, hc3d])
        (by show digitsVal ['1', c3] ≤ 255; omega), hb⟩
  · have hv2 := digitVal_lt_10 hc2d
    have hval : digitsVal ['1', c2, c3] =
        100 * digitVal '1' + 10 * digitVal c2 + digitVal c3 := by
      simp [digitsVal]; ring
    have hb : digitsVal ['1', c2, c3] ≤ 199 := by omega
    exact ⟨by simp, digitsVal ['1', c2, c3],
      parseU8_of_digits (by simp) (by simp [h1d, hc2d, hc3d])
        (by show digitsVal ['1', c2, c3] ≤ 255; omega), hb⟩

/-! ## Numeric bounds of expanded locations -/

theorem parseU8_le {u : List Char} {n : Nat} (h : parseU8 u = some n) : n ≤ 255 := by
  unfold parseU8 at h
  split at h
  · rename_i hcond
    cases h
    exact hcond.2.2
  · cases h

theorem bind_parseU8_le {o : Option (List Char)} {n : Nat} (h : o.bind parseU8 = some n) :
    n ≤ 255 := by
  cases o with
  | none => cases h
  | some w => exact parseU8_le h

theorem rangeIncl_le {a b : Nat} : ∀ c ∈ rangeIncl a b, c ≤ b := by
  intro c hc
  rw [rangeIncl, List.mem_range'] at hc
  obtain ⟨i, hi, he⟩ := hc
  omega

theorem rangeIncl_ne_nil {a b : Nat} (h : a ≤ b) : rangeIncl a b ≠ [] := by
  have hlen : (rangeIncl a b).length = b + 1 - a := List.length_range' _ _ _
  intro hnil
  rw [hnil] at hlen
  simp at hlen
  omega

/-- Every chapter value produced by the per-match expansion fits in `u8`. -/
theorem locationOfCaptures_chapters_le {m : Captures} {l : VerseLocation}
    (h : locationOfCaptures m = some l) : ∀ c ∈ l.chapters, c ≤ 255 := by
  unfold locationOfCaptures at h
  cases hg : m.get .gChapter with
  | none => simp only [hg] at h; exact Option.noConfusion h
  | some g =>
    simp only [hg] at h
    cases hp : parseU8 g with
    | none => simp only [hp] at h; exact Option.noConfusion h
    | some ch =>
      simp only [hp] at h
      have hch := parseU8_le hp
      cases hnx : (m.get .gChapterNext).bind parseU8 with
      | none =>
        cases hed : (m.get .gChapterEnd).bind parseU8 with
        | none =>
          simp only [hnx, hed, Option.some_inj] at h
          rw [← h]
          intro c hc
          simp at hc
          omega
        | some e =>
          simp only [hnx, hed, Option.some_inj] at h
          rw [← h]
          intro c hc
          exact le_trans (rangeIncl_le c hc) (bind_parseU8_le hed)
      | some n =>
        have hn := bind_parseU8_le hnx
        cases hed : (m.get .gChapterEnd).bind parseU8 with
        | none =>
          simp only [hnx, hed, Option.some_inj] at h
          rw [← h]
          intro c hc
          simp at hc
          rcases hc with hc | hc <;> omega
        | some e =>
          simp only [hnx, hed, Option.some_inj] at h
          rw [← h]
          intro c hc
          rcases List.mem_append.1 hc with hc | hc
          · exact le_trans (rangeIncl_le c hc) (bind_parseU8_le hed)
          · simp at hc
            omega

/-! ## Every accepted citation match yields a reference -/

theorem scanFrom_entry_match {re : RE} :
    ∀ (f pos : Nat) (cs : List Char), ∀ t ∈ scanFrom re f pos cs,
      ∃ cs' rest, tryMatch re cs' = some (t.2.2, rest) := by
  intro f
  induction f with
  | zero => intro pos cs t ht; simp [scanFrom] at ht
  | succ f ih =>
    intro pos cs t ht
    simp only [scanFrom] at ht
    cases htm : tryMatch re cs with
    | some r =>
      rw [htm] at ht
      by_cases hl : cs.length - r.2.length = 0
      · simp only [hl, if_pos rfl] at ht
        cases cs with
        | nil =>
          simp at ht
          exact ⟨[], r.2, by rw [ht]; rw [← htm]⟩
        | cons c tl =>
          rcases List.mem_cons.1 ht with h1 | h1
          · exact ⟨c :: tl, r.2, by rw [h1]; exact htm⟩
          · exact ih (pos + 1) tl t h1
      · simp only [if_neg hl] at ht
        rcases List.mem_cons.1 ht with h1 | h1
        · exact ⟨cs, r.2, by rw [h1]; exact htm⟩
        · exact ih _ _ t h1
    | none =>
      rw [htm] at ht
      cases cs with
      | nil => simp at ht
      | cons c tl => exact ih (pos + 1) tl t ht

theorem mkRef_of_refMatch {cs' rest : List Char} {cp : Captures}
    (h : tryMatch BIBLE_REFERENCE_PATTERN cs' = some (cp, rest)) : (mkRef cp).isSome := by
  obtain ⟨b, ws, locs, _, _, _, _, hb, hloc⟩ := tryMatch_ref_struct h
  simp [mkRef, hb, hloc]

theorem length_filterMap_of_isSome {α β : Type} (f : α → Option β) :
    ∀ l : List α, (∀ x ∈ l, (f x).isSome) → (l.filterMap f).length = l.length := by
  intro l
  induction l with
  | nil => intro _; rfl
  | cons x xs ih =>
    intro h
    cases hfx : f x with
    | none =>
      have := h x (List.mem_cons_self x xs)
      rw [hfx] at this
      cases this
    | some y =>
      rw [List.filterMap_cons_some hfx]
      simp only [List.length_cons]
      rw [ih (fun z hz => h z (List.mem_cons_of_mem x hz))]

/-- `parse` produces exactly one reference per accepted match. -/
theorem parseL_length (cs : List Char) :
    (parseL cs).length = (scanAll BIBLE_REFERENCE_PATTERN cs).length := by
  unfold parseL
  apply length_filterMap_of_isSome
  intro t ht
  obtain ⟨cs', rest, htm⟩ := scanFrom_entry_match _ _ _ t ht
  exact mkRef_of_refMatch htm

/-! ## Claim theorems -/

/-- C1 (confirmed): when the `Chapter`, `ChapterNext` and `ChapterEnd` groups
of a matched location parse to `s`, `n` and `e`, the expanded `chapters` is
the inclusive ascending run `[s, s+1, …, e]` with `n` appended as the final
element — not merged or deduplicated into the run; likewise `verses` is
`[v, v+1, …, ev]` with `nv` appended when `Verse`, `VerseNext` and `VerseEnd`
are all present. -/
theorem range_expansion_all_present (m : Captures) (l : VerseLocation)
    (cw nw ew : List Char) (s n e : Nat)
    (hc : m.get .gChapter = some cw) (hcp : parseU8 cw = some s)
    (hn : m.get .gChapterNext = some nw) (hnp : parseU8 nw = some n)
    (he : m.get .gChapterEnd = some ew) (hep : parseU8 ew = some e)
    (hl : locationOfCaptures m = some l) :
    l.chapters = List.range' s (e + 1 - s) ++ [n] ∧
    ∀ vw v nvw nv evw ev,
      m.get .gVerse = some vw → parseU8 vw = some v →
      m.get .gVerseNext = some nvw → parseU8 nvw = some nv →
      m.get .gVerseEnd = some evw → parseU8 evw = some ev →
      l.verses = some (List.range' v (ev + 1 - v) ++ [nv]) := by
  unfold locationOfCaptures at hl
  simp only [hc, hcp, hn, hnp, he, hep, Option.some_bind, Option.some_inj] at hl
  constructor
  · rw [← hl]
    rfl
  · intro vw v nvw nv evw ev hvw hvp hnvw hnvp hevw hevp
    rw [← hl]
    simp only [hvw, hvp, hnvw, hnvp, hevw, hevp, Option.some_bind]
    rfl

def capC1 : Captures :=
  ⟨none, none, some ['1'], some ['3'], some ['4'], some ['2'], some ['6'], some ['5']⟩

theorem range_expansion_all_present_w :
    (VerseLocation.mk [1, 2, 3, 4] (some [2, 3, 4, 5, 6, 5])).chapters =
      List.range' 1 (3 + 1 - 1) ++ [4] ∧
    (VerseLocation.mk [1, 2, 3, 4] (some [2, 3, 4, 5, 6, 5])).verses =
      some (List.range' 2 (6 + 1 - 2) ++ [5]) := by
  have h := range_expansion_all_present capC1 ⟨[1, 2, 3, 4], some [2, 3, 4, 5, 6, 5]⟩
    ['1'] ['4'] ['3'] 1 4 3 rfl (by decide) rfl (by decide) rfl (by decide) (by decide)
  exact ⟨h.1, h.2 ['2'] 2 ['5'] 5 ['6'] 6 rfl (by decide) rfl (by decide) rfl (by decide)⟩

/-- C2 (confirmed): an input without letter characters never produces a
reference: the citation grammar requires at least one letter to start a book
label, so the scan finds no match at any position and `parse` returns the
empty sequence. -/
theorem parse_letter_free_empty (s : String) (h : ∀ c ∈ s.data, isPL c = false) :
    parse s = [] := by
  unfold parse parseL scanAll
  rw [scanFrom_eq_nil needsLetter_ref _ 0 s.data h]
  rfl

theorem parse_letter_free_empty_w : parse "123" = [] ∧ parse "1 234 3:4" = [] :=
  ⟨parse_letter_free_empty "123" (by decide),
   parse_letter_free_empty "1 234 3:4" (by decide)⟩

/-- C3 (confirmed): the book field is the entire matched book span verbatim,
including the roman-numeral prefix and the trailing period:
`parse "II Ki. 3:12-14, 25"` yields one reference with book `"II Ki."`, one
location with chapters `[3]` and verses `[12, 13, 14, 25]`. -/
theorem parse_book_verbatim :
    parse "II Ki. 3:12-14, 25" =
      [{ book := "II Ki.".data,
         locations := [{ chapters := [3], verses := some [12, 13, 14, 25] }] }] := by
  decide

/-- C4 (confirmed): the citation matches found in the input are pairwise
non-overlapping and strictly left-to-right ordered, `parse` emits exactly one
`BibleReference` per accepted match (in that order, since `filterMap`
preserves order), and within a citation the location matches are likewise
non-overlapping and left-to-right ordered. -/
theorem parse_order_preserved (s : String) :
    List.Pairwise spanBefore (scanAll BIBLE_REFERENCE_PATTERN s.data) ∧
    (parse s).length = (scanAll BIBLE_REFERENCE_PATTERN s.data).length ∧
    ∀ w : List Char, List.Pairwise spanBefore (scanAll VERSES_LOCATION_PATTERN w) :=
  ⟨scanAll_pairwise _ _, parseL_length s.data, fun _ => scanAll_pairwise _ _⟩

/-- C5 (confirmed): `parse` is a total function into a list of references —
the embedding has no error outcome — and it returns the empty list exactly
when the matcher accepts no citation in the input. -/
theorem parse_total_empty_iff (s : String) :
    parse s = [] ↔ scanAll BIBLE_REFERENCE_PATTERN s.data = [] := by
  constructor
  · intro h
    have hlen := parseL_length s.data
    rw [show parseL s.data = parse s from rfl, h] at hlen
    exact List.length_eq_zero.1 hlen.symm
  · intro h
    unfold parse parseL
    rw [h]
    rfl

/-- C6 (corrected), counterexample: on `"Gen 5-2"` the code returns a
location whose `chapters` is empty (the inverted range `5..=2` collects to
nothing), and on `"Gen 1:5-2"` a location whose `verses` is `some []` —
refuting the claimed non-emptiness invariant for inputs whose range end is
less than its start. -/
theorem location_invariant_cex :
    (∃ r ∈ parse "Gen 5-2", ∃ loc ∈ r.locations, loc.chapters = []) ∧
    (∃ r ∈ parse "Gen 1:5-2", ∃ loc ∈ r.locations, loc.verses = some []) := by
  decide

/-- C6 (corrected), amended: the invariant holds for every location whose
range notation is not inverted — whenever an end value is present with no
next value, the end is at least the start.  Under that hypothesis `chapters`
is non-empty and `verses`, when present, is non-empty. -/
theorem location_invariant_amended (m : Captures) (l : VerseLocation)
    (hl : locationOfCaptures m = some l)
    (hch : ∀ s e, (m.get .gChapter).bind parseU8 = some s →
      (m.get .gChapterEnd).bind parseU8 = some e →
      (m.get .gChapterNext).bind parseU8 = none → s ≤ e)
    (hv : ∀ v e, (m.get .gVerse).bind parseU8 = some v →
      (m.get .gVerseEnd).bind parseU8 = some e →
      (m.get .gVerseNext).bind parseU8 = none → v ≤ e) :
    l.chapters ≠ [] ∧ ∀ vs, l.verses = some vs → vs ≠ [] := by
  unfold locationOfCaptures at hl
  cases hg : m.get .gChapter with
  | none => simp only [hg] at hl; exact Option.noConfusion hl
  | some g =>
    simp only [hg] at hl
    cases hp : parseU8 g with
    | none => simp only [hp] at hl; exact Option.noConfusion hl
    | some ch =>
      simp only [hp] at hl
      constructor
      · cases hnx : (m.get .gChapterNext).bind parseU8 with
        | some n =>
          cases hed : (m.get .gChapterEnd).bind parseU8 with
          | none => simp only [hnx, hed, Option.some_inj] at hl; rw [← hl]; simp
          | some e => simp only [hnx, hed, Option.some_inj] at hl; rw [← hl]; simp
        | none =>
          cases hed : (m.get .gChapterEnd).bind parseU8 with
          | none => simp only [hnx, hed, Option.some_inj] at hl; rw [← hl]; simp
          | some e =>
            simp only [hnx, hed, Option.some_inj] at hl
            rw [← hl]
            have hle : ch ≤ e := hch ch e (by rw [hg]; simpa using hp) hed hnx
            exact rangeIncl_ne_nil hle
      · intro vs hvs
        cases hvx : (m.get .gVerse).bind parseU8 with
        | none =>
          simp only [hvx, Option.some_inj] at hl
          rw [← hl] at hvs
          simp at hvs
        | some v =>
          cases hnv : (m.get .gVerseNext).bind parseU8 with
          | some nv =>
            cases hev : (m.get .gVerseEnd).bind parseU8 with
            | none =>
              simp only [hvx, hnv, hev, Option.some_inj] at hl
              rw [← hl] at hvs
              have hv2 := Option.some.inj hvs
              rw [← hv2]
              simp
            | some e =>
              simp only [hvx, hnv, hev, Option.some_inj] at hl
              rw [← hl] at hvs
              have hv2 := Option.some.inj hvs
              rw [← hv2]
              simp
          | none =>
            cases hev : (m.get .gVerseEnd).bind parseU8 with
            | none =>
              simp only [hvx, hnv, hev, Option.some_inj] at hl
              rw [← hl] at hvs
              have hv2 := Option.some.inj hvs
              rw [← hv2]
              simp
            | some e =>
              simp only [hvx, hnv, hev, Option.some_inj] at hl
              rw [← hl] at hvs
              have hv2 := Option.some.inj hvs
              rw [← hv2]
              exact rangeIncl_ne_nil (hv v e hvx hev hnv)

def capC6 : Captures := ⟨none, none, some ['5'], some ['7'], none, none, none, none⟩

theorem location_invariant_amended_w :
    (VerseLocation.mk [5, 6, 7] none).chapters ≠ [] ∧
      ∀ vs, (VerseLocation.mk [5, 6, 7] none).verses = some vs → vs ≠ [] :=
  location_invariant_amended capC6 ⟨[5, 6, 7], none⟩ (by decide)
    (fun s e h1 h2 _ => by
      have hs : 5 = s := Option.some.inj
        ((by decide : (capC6.get .gChapter).bind parseU8 = some 5).symm.trans h1)
      have he : 7 = e := Option.some.inj
        ((by decide : (capC6.get .gChapterEnd).bind parseU8 = some 7).symm.trans h2)
      omega)
    (fun v e h1 _ _ => by
      rw [(by decide : (capC6.get .gVerse).bind parseU8 = none)] at h1
      exact Option.noConfusion h1)

/-- C8 (corrected), counterexample: on `"Gen 5-300"` the `ChapterEnd` group
captures `"300"`, whose `u8` parse fails, yet the location entry is not
skipped: a partial value with `chapters = [5]` is emitted. -/
theorem numeric_parse_failure_cex :
    parse "Gen 5-300" =
      [{ book := "Gen".data, locations := [{ chapters := [5], verses := none }] }] ∧
    (scanAll VERSES_LOCATION_PATTERN "5-300".data).map (fun t => t.2.2.get .gChapterEnd) =
      [some "300".data] ∧
    parseU8 "300".data = none := by
  decide

/-- C8 (corrected), amended: only a missing or unparseable `Chapter` group
skips the whole location entry; a numeric-parse failure on any of the five
other captured groups is treated as if that group were absent, producing a
partial value instead of skipping the entry. -/
theorem numeric_parse_failure_amended (m : Captures) :
    (m.get .gChapter = none → locationOfCaptures m = none) ∧
    (∀ w, m.get .gChapter = some w → parseU8 w = none → locationOfCaptures m = none) ∧
    (∀ w, m.get .gChapterEnd = some w → parseU8 w = none →
      locationOfCaptures m = locationOfCaptures { m with chapterEnd := none }) ∧
    (∀ w, m.get .gChapterNext = some w → parseU8 w = none →
      locationOfCaptures m = locationOfCaptures { m with chapterNext := none }) ∧
    (∀ w, m.get .gVerse = some w → parseU8 w = none →
      locationOfCaptures m = locationOfCaptures { m with verse := none }) ∧
    (∀ w, m.get .gVerseEnd = some w → parseU8 w = none →
      locationOfCaptures m = locationOfCaptures { m with verseEnd := none }) ∧
    (∀ w, m.get .gVerseNext = some w → parseU8 w = none →
      locationOfCaptures m = locationOfCaptures { m with verseNext := none }) := by
  refine ⟨?_, ?_, ?_, ?_, ?_, ?_, ?_⟩
  · intro h
    simp only [locationOfCaptures, h]
  · intro w hw hpw
    simp only [locationOfCaptures, hw, hpw]
  · intro w hw hpw
    simp only [Captures.get] at hw
    simp only [locationOfCaptures, Captures.get, hw, hpw, Option.some_bind, Option.none_bind]
  · intro w hw hpw
    simp only [Captures.get] at hw
    simp only [locationOfCaptures, Captures.get, hw, hpw, Option.some_bind, Option.none_bind]
  · intro w hw hpw
    simp only [Captures.get] at hw
    simp only [locationOfCaptures, Captures.get, hw, hpw, Option.some_bind, Option.none_bind]
  · intro w hw hpw
    simp only [Captures.get] at hw
    simp only [locationOfCaptures, Captures.get, hw, hpw, Option.some_bind, Option.none_bind]
  · intro w hw hpw
    simp only [Captures.get] at hw
    simp only [locationOfCaptures, Captures.get, hw, hpw, Option.some_bind, Option.none_bind]

def capC8 : Captures := ⟨none, none, some ['5'], some ['3', '0', '0'], none, none, none, none⟩

theorem numeric_parse_failure_amended_w :
    locationOfCaptures capC8 = locationOfCaptures { capC8 with chapterEnd := none } :=
  (numeric_parse_failure_amended capC8).2.2.1 ['3', '0', '0'] rfl (by decide)

/-- C9 (corrected), counterexample: on `"Gen 1,250"` a chapter value 250,
greater than 199, appears in a returned `chapters` sequence (the
`ChapterNext` group is `\d+` parsed as `u8`, so values up to 255 occur). -/
theorem chapter_bound_cex :
    ∃ r ∈ parse "Gen 1,250", ∃ loc ∈ r.locations, ∃ c ∈ loc.chapters, 199 < c := by
  decide

/-- C9 (corrected), amended: every integer appearing in any `chapters`
sequence of any `VerseLocation` returned by `parse` lies in the range 0 to
255 inclusive (the `u8` range; only the leading `Chapter` token is limited
to 199). -/
theorem chapter_bound_amended (s : String) (r : BibleReference) (hr : r ∈ parse s)
    (loc : VerseLocation) (hloc : loc ∈ r.locations) (c : Nat) (hc : c ∈ loc.chapters) :
    c ≤ 255 := by
  obtain ⟨t, ht, hmk⟩ := List.mem_filterMap.1 hr
  unfold mkRef at hmk
  cases hb : t.2.2.get .gBook with
  | none => simp only [hb] at hmk; exact Option.noConfusion hmk
  | some b =>
    cases hlw : t.2.2.get .gLocations with
    | none => simp only [hb, hlw] at hmk; exact Option.noConfusion hmk
    | some lw =>
      simp only [hb, hlw, Option.some_inj] at hmk
      rw [← hmk] at hloc
      have hloc' : loc ∈ (scanAll VERSES_LOCATION_PATTERN lw).filterMap
          (fun t => locationOfCaptures t.2.2) := hloc
      obtain ⟨t', ht', hlc⟩ := List.mem_filterMap.1 hloc'
      exact locationOfCaptures_chapters_le hlc c hc

theorem chapter_bound_amended_w : (250 : Nat) ≤ 255 :=
  chapter_bound_amended "Gen 1,250" ⟨"Gen".data, [⟨[1, 250], none⟩]⟩ (by decide)
    ⟨[1, 250], none⟩ (by decide) 250 (by decide)

/-- C10 (confirmed): the `Chapter` token matches at most three digits, so
`parse "Gen 1999"` splits the digit run into two consecutive locations with
chapters `[199]` and `[9]`; every word of the token's language has at most
three characters and parses as a `u8` value of at most 199 — in particular
the start-chapter parse of any accepted location match never fails. -/
theorem chapter_token_digits :
    parse "Gen 1999" =
      [{ book := "Gen".data,
         locations := [{ chapters := [199], verses := none },
                       { chapters := [9], verses := none }] }] ∧
    (∀ u, Matches chapterToken u → u.length ≤ 3 ∧ ∃ n, parseU8 u = some n ∧ n ≤ 199) ∧
    (∀ cs cp rest, tryMatch VERSES_LOCATION_PATTERN cs = some (cp, rest) →
      ∃ u n, cp.get .gChapter = some u ∧ parseU8 u = some n ∧ n ≤ 199) := by
  refine ⟨by decide, fun u h => matches_chapterToken h, ?_⟩
  intro cs cp rest h
  obtain ⟨u, hu, hm⟩ := tryMatch_loc_chapter h
  obtain ⟨_, n, hp, hn⟩ := matches_chapterToken hm
  exact ⟨u, n, hu, hp, hn⟩

theorem chapter_token_digits_w :
    (['9'] : List Char).length ≤ 3 ∧ ∃ n, parseU8 ['9'] = some n ∧ n ≤ 199 := by
  refine (chapter_token_digits).2.1 ['9'] ?_
  have h9 : Matches ccD ['9'] := Matches.cls (by decide)
  have he1 : Matches (REopt (.cls (.one '1'))) [] := Matches.altR Matches.eps
  have he2 : Matches (REopt ccD) [] := Matches.altR Matches.eps
  exact Matches.cat he1 (Matches.cat he2 h9)

/-! ## Evaluation lemmas for the matcher on structured text

These compute the matcher's result along its preferred (greedy,
leftmost-first) path, assuming the continuation succeeds there, and compute
failures at character-class boundaries. -/

theorem mat_cls_of_test {f : Nat} {cc : CC} {c : Char} {rest : List Char} {cp : Captures}
    {k : MK} (h : cc.test c = true) : mat f (.cls cc) (c :: rest) cp k = k cp rest := by
  rw [mat_cls_cons, if_pos h]

theorem mat_cls_of_not {f : Nat} {cc : CC} {c : Char} {rest : List Char} {cp : Captures}
    {k : MK} (h : cc.test c = false) : mat f (.cls cc) (c :: rest) cp k = none := by
  rw [mat_cls_cons, h]
  rfl

theorem mat_cls_fail {f : Nat} {cc : CC} {cs : List Char} {cp : Captures} {k : MK}
    (h : ∀ c t, cs = c :: t → cc.test c = false) : mat f (.cls cc) cs cp k = none := by
  cases cs with
  | nil => exact mat_cls_nil
  | cons c t => exact mat_cls_of_not (h c t rfl)

theorem mat_alt_some {f : Nat} {a b : RE} {cs : List Char} {cp : Captures} {k : MK}
    {r : Captures × List Char} (h : mat f a cs cp k = some r) :
    mat f (.alt a b) cs cp k = some r := by
  rw [mat_alt, h]

theorem mat_alt_none {f : Nat} {a b : RE} {cs : List Char} {cp : Captures} {k : MK}
    (h : mat f a cs cp k = none) :
    mat f (.alt a b) cs cp k = mat f b cs cp k := by
  rw [mat_alt, h]

theorem mat_opt_some {f : Nat} {a : RE} {cs : List Char} {cp : Captures} {k : MK}
    {r : Captures × List Char} (h : mat f a cs cp k = some r) :
    mat f (REopt a) cs cp k = some r := mat_alt_some h

theorem mat_opt_skip {f : Nat} {a : RE} {cs : List Char} {cp : Captures} {k : MK}
    (h : mat f a cs cp k = none) : mat f (REopt a) cs cp k = k cp cs := by
  rw [REopt, mat_alt_none h, mat_eps]

theorem mat_cat_cls_fail {f : Nat} {cc : CC} {b : RE} {cs : List Char} {cp : Captures}
    {k : MK} (h : ∀ c t, cs = c :: t → cc.test c = false) :
    mat f (.cat (.cls cc) b) cs cp k = none := by
  rw [mat_cat]
  exact mat_cls_fail h

/-- Greedy star over a character class consumes exactly the maximal run. -/
theorem mat_star_cls_exact {cc : CC} :
    ∀ (w : List Char) (f : Nat) {rest : List Char} {cp : Captures} {k : MK}
      {r : Captures × List Char},
      (∀ c ∈ w, cc.test c = true) →
      (∀ c t, rest = c :: t → cc.test c = false) →
      w.length ≤ f →
      k cp rest = some r →
      mat f (.star (.cls cc)) (w ++ rest) cp k = some r := by
  intro w
  induction w with
  | nil =>
    intro f rest cp k r _ hrest _ hk
    cases f with
    | zero => rw [mat_star_zero]; exact hk
    | succ f' =>
      rw [List.nil_append, mat_star_succ, mat_cls_fail hrest]
      exact hk
  | cons c w' ih =>
    intro f rest cp k r hw hrest hf hk
    cases f with
    | zero => simp at hf
    | succ f' =>
      rw [List.cons_append, mat_star_succ,
        mat_cls_of_test (hw c (List.mem_cons_self c w'))]
      rw [ih f' (fun d hd => hw d (List.mem_cons_of_mem c hd)) hrest
        (by simp at hf; omega) hk]

/-- A star over a character class fails outright when its continuation fails
at every point it can reach (any class-run prefix removed). -/
theorem mat_star_cls_none {cc : CC} :
    ∀ (f : Nat) (cs : List Char) (cp : Captures) (k : MK),
      (∀ u v, cs = u ++ v → (∀ c ∈ u, cc.test c = true) → k cp v = none) →
      mat f (.star (.cls cc)) cs cp k = none := by
  intro f
  induction f with
  | zero => intro cs cp k h; rw [mat_star_zero]; exact h [] cs rfl (by simp)
  | succ f' ih =>
    intro cs cp k h
    rw [mat_star_succ]
    have hbody : mat f' (.cls cc) cs cp
        (fun cp1 cs1 => mat f' (.star (.cls cc)) cs1 cp1 k) = none := by
      cases cs with
      | nil => exact mat_cls_nil
      | cons c t =>
        by_cases hc : cc.test c = true
        · rw [mat_cls_of_test hc]
          apply ih
          intro u v huv hu
          refine h (c :: u) v (by rw [huv]; rfl) ?_
          intro d hd
          rcases List.mem_cons.1 hd with h1 | h1
          · rw [h1]; exact hc
          · exact hu d h1
        · have hc' : cc.test c = false := by
            cases h' : cc.test c
            · rfl
            · exact absurd h' hc
          exact mat_cls_of_not hc'
    rw [hbody]
    exact h [] cs rfl (by simp)

/-- `+` over a character class consumes exactly a non-empty maximal run. -/
theorem mat_plus_cls_exact {cc : CC} {w rest : List Char} {cp : Captures} {k : MK}
    {r : Captures × List Char} {f : Nat}
    (hw : ∀ c ∈ w, cc.test c = true) (hne : w ≠ [])
    (hrest : ∀ c t, rest = c :: t → cc.test c = false)
    (hf : w.length ≤ f + 1) (hk : k cp rest = some r) :
    mat f (REplus (.cls cc)) (w ++ rest) cp k = some r := by
  match w, hne with
  | c :: w', _ =>
    rw [REplus, List.cons_append, mat_cat,
      mat_cls_of_test (hw c (List.mem_cons_self c w'))]
    exact mat_star_cls_exact w' f (fun d hd => hw d (List.mem_cons_of_mem c hd)) hrest
      (by simp at hf; omega) hk

theorem mat_plus_cls_fail {cc : CC} {f : Nat} {cs : List Char} {cp : Captures} {k : MK}
    (h : ∀ c t, cs = c :: t → cc.test c = false) :
    mat f (REplus (.cls cc)) cs cp k = none := by
  rw [REplus]
  exact mat_cat_cls_fail h

/-- A capture group around a `\d+`-style token records exactly the consumed
run. -/
theorem mat_grp_plus_exact {cc : CC} {g : GroupName} {w rest : List Char} {cp : Captures}
    {k : MK} {r : Captures × List Char} {f : Nat}
    (hw : ∀ c ∈ w, cc.test c = true) (hne : w ≠ [])
    (hrest : ∀ c t, rest = c :: t → cc.test c = false)
    (hf : w.length ≤ f + 1) (hk : k (cp.set g w) rest = some r) :
    mat f (.grp g (REplus (.cls cc))) (w ++ rest) cp k = some r := by
  rw [mat_grp]
  apply mat_plus_cls_exact hw hne hrest hf
  show k (cp.set g ((w ++ rest).take ((w ++ rest).length - rest.length))) rest = some r
  rw [take_append_length]
  exact hk

/-! ## Decimal rendering of the stored numbers -/

/-- Decimal digits of a number, used by the renderer. -/
def natToDigits (n : Nat) : List Char := Nat.toDigits 10 n

theorem natToDigits_parse : ∀ n : Nat, n < 256 → parseU8 (natToDigits n) = some n := by
  decide

theorem natToDigits_shape : ∀ n : Nat, n < 256 → natToDigits n ≠ [] ∧
    ((natToDigits n).all Char.isDigit) = true ∧ (natToDigits n).length ≤ 3 := by
  decide

theorem natToDigits_head3 : ∀ n : Nat, n < 200 → (natToDigits n).length = 3 →
    (natToDigits n).head? = some '1' := by
  decide

theorem natToDigits_all_digit {n : Nat} (h : n < 256) :
    ∀ c ∈ natToDigits n, c.isDigit = true := by
  intro c hc
  exact List.all_eq_true.1 (natToDigits_shape n h).2.1 c hc

theorem natToDigits_all_ccD {n : Nat} (h : n < 256) :
    ∀ c ∈ natToDigits n, CC.test .digit c = true :=
  natToDigits_all_digit h

/-! ## Consuming one rendered location -/

theorem mat_dd_fail {f : Nat} {rest : List Char} {cp : Captures} {k : MK}
    (hrest : ∀ c t, rest = c :: t → c.isDigit = false) :
    mat f (.cat (REopt ccD) ccD) rest cp k = none := by
  simp only [ccD]
  rw [mat_cat, REopt, mat_alt]
  have h1 : mat f (.cls .digit) rest cp (fun cp1 cs1 => mat f (.cls .digit) cs1 cp1 k) = none :=
    mat_cls_fail hrest
  rw [h1, mat_eps]
  exact mat_cls_fail hrest

theorem mat_dd_exact {f : Nat} {w rest : List Char} {cp : Captures} {k : MK}
    {r : Captures × List Char}
    (hw : ∀ c ∈ w, c.isDigit = true)
    (hlen : w.length = 1 ∨ w.length = 2)
    (hrest : ∀ c t, rest = c :: t → c.isDigit = false)
    (hk : k cp rest = some r) :
    mat f (.cat (REopt ccD) ccD) (w ++ rest) cp k = some r := by
  match w, hlen with
  | [b], _ =>
    simp only [ccD]
    rw [List.singleton_append, mat_cat]
    have hb : CC.test .digit b = true := hw b (List.mem_singleton_self b)
    have hpres : mat f (.cls .digit) (b :: rest) cp
        (fun cp1 cs1 => mat f (.cls .digit) cs1 cp1 k) = none := by
      rw [mat_cls_of_test hb]
      exact mat_cls_fail hrest
    rw [mat_opt_skip hpres, mat_cls_of_test hb]
    exact hk
  | [b, c], _ =>
    simp only [ccD]
    rw [List.cons_append, List.cons_append, List.nil_append, mat_cat]
    have hb : CC.test .digit b = true := hw b (by simp)
    have hc : CC.test .digit c = true := hw c (by simp)
    apply mat_opt_some
    rw [mat_cls_of_test hb, mat_cls_of_test hc]
    exact hk

/-- The `1?[0-9]?[0-9]` token consumes exactly a 1–3 digit run whose
three-digit form starts with `'1'`, at a non-digit boundary. -/
theorem mat_chapterToken_exact {f : Nat} {w rest : List Char} {cp : Captures} {k : MK}
    {r : Captures × List Char}
    (hw : ∀ c ∈ w, c.isDigit = true) (hne : w ≠ []) (hlen : w.length ≤ 3)
    (h3 : w.length = 3 → w.head? = some '1')
    (hrest : ∀ c t, rest = c :: t → c.isDigit = false)
    (hk : k cp rest = some r) :
    mat f chapterToken (w ++ rest) cp k = some r := by
  match w, hne, hlen with
  | [a], _, _ =>
    rw [chapterToken, List.singleton_append, mat_cat]
    have ha := hw a (List.mem_singleton_self a)
    have hdd : mat f (.cat (REopt ccD) ccD) ([a] ++ rest) cp k = some r :=
      mat_dd_exact hw (Or.inl rfl) hrest hk
    by_cases h1 : CC.test (.one '1') a = true
    · have hpres : mat f (.cls (.one '1')) (a :: rest) cp
          (fun cp1 cs1 => mat f (.cat (REopt ccD) ccD) cs1 cp1 k) = none := by
        rw [mat_cls_of_test h1]
        exact mat_dd_fail hrest
      rw [mat_opt_skip hpres]
      exact hdd
    · have h1' : CC.test (.one '1') a = false := by
        cases h' : CC.test (.one '1') a
        · rfl
        · exact absurd h' h1
      have hpres : mat f (.cls (.one '1')) (a :: rest) cp
          (fun cp1 cs1 => mat f (.cat (REopt ccD) ccD) cs1 cp1 k) = none :=
        mat_cls_of_not h1'
      rw [mat_opt_skip hpres]
      exact hdd
  | [a, b], _, _ =>
    rw [chapterToken, List.cons_append, List.cons_append, List.nil_append, mat_cat]
    have ha := hw a (by simp)
    have hb : b.isDigit = true := hw b (by simp)
    by_cases h1 : CC.test (.one '1') a = true
    · apply mat_opt_some
      rw [mat_cls_of_test h1]
      have hdd : mat f (.cat (REopt ccD) ccD) ([b] ++ rest) cp k = some r :=
        mat_dd_exact (fun d hd => by rw [List.mem_singleton.1 hd]; exact hb)
          (Or.inl rfl) hrest hk
      exact hdd
    · have h1' : CC.test (.one '1') a = false := by
        cases h' : CC.test (.one '1') a
        · rfl
        · exact absurd h' h1
      have hpres : mat f (.cls (.one '1')) (a :: b :: rest) cp
          (fun cp1 cs1 => mat f (.cat (REopt ccD) ccD) cs1 cp1 k) = none :=
        mat_cls_of_not h1'
      rw [mat_opt_skip hpres]
      have hdd : mat f (.cat (REopt ccD) ccD) ([a, b] ++ rest) cp k = some r :=
        mat_dd_exact hw (Or.inr rfl) hrest hk
      exact hdd
  | [a, b, c], _, _ =>
    have ha : a = '1' := by
      have := h3 rfl
      simpa using this
    subst ha
    have hb : b.isDigit = true := hw b (by simp)
    have hc : c.isDigit = true := hw c (by simp)
    rw [chapterToken, List.cons_append, List.cons_append, List.cons_append,
      List.nil_append, mat_cat]
    apply mat_opt_some
    rw [mat_cls_of_test (by decide : CC.test (.one '1') '1' = true)]
    have hdd : mat f (.cat (REopt ccD) ccD) ([b, c] ++ rest) cp k = some r :=
      mat_dd_exact (fun d hd => by
          rcases List.mem_cons.1 hd with h' | h'
          · rw [h']; exact hb
          · rw [List.mem_singleton.1 h']; exact hc)
        (Or.inr rfl) hrest hk
    exact hdd

/-! ## Class facts about digit characters at boundaries -/

theorem digit_bounds {c : Char} (h : c.isDigit = true) : 48 ≤ c.toNat ∧ c.toNat ≤ 57 := by
  simp only [Char.isDigit, Bool.and_eq_true, decide_eq_true_eq, ge_iff_le] at h
  obtain ⟨h1, h2⟩ := h
  rw [UInt32.le_def, BitVec.le_def] at h1 h2
  have e1 : c.val.toBitVec.toNat = c.toNat := rfl
  have e2 : (UInt32.toBitVec 48).toNat = 48 := rfl
  have e3 : (UInt32.toBitVec 57).toNat = 57 := rfl
  omega

theorem isPL_ge {c : Char} (h : isPL c = true) : 65 ≤ c.toNat := by
  simp only [isPL, Bool.or_eq_true] at h
  rcases h with h | h
  · simp only [Char.isAlpha, Bool.or_eq_true, Char.isUpper, Char.isLower,
      Bool.and_eq_true, decide_eq_true_eq, ge_iff_le] at h
    have e1 : c.val.toBitVec.toNat = c.toNat := rfl
    have e2 : (UInt32.toBitVec 65).toNat = 65 := rfl
    have e3 : (UInt32.toBitVec 97).toNat = 97 := rfl
    rcases h with ⟨h1, _⟩ | ⟨h1, _⟩ <;>
    · rw [UInt32.le_def, BitVec.le_def] at h1
      omega
  · simp only [Bool.and_eq_true, decide_eq_true_eq] at h
    omega

theorem test_space_of_digit {c : Char} (h : c.isDigit = true) : CC.test .space c = false := by
  obtain ⟨h1, h2⟩ := digit_bounds h
  show isWS c = false
  simp only [isWS, Bool.or_eq_false_iff]
  refine ⟨⟨⟨?_, ?_⟩, ?_⟩, ?_⟩ <;>
  · rw [beq_eq_false_iff_ne]
    intro he
    rw [he] at h1 h2
    revert h1 h2
    decide

theorem test_letter_of_digit {c : Char} (h : c.isDigit = true) : CC.test .letter c = false := by
  cases hp : isPL c
  · exact hp
  · have h1 := isPL_ge hp
    have h2 := (digit_bounds h).2
    exact ((by omega : False)).elim

theorem test_one_of_digit {c d : Char} (h : c.isDigit = true)
    (hd : d.toNat < 48 ∨ 57 < d.toNat) : CC.test (.one d) c = false := by
  show (c == d) = false
  rw [beq_eq_false_iff_ne]
  intro he
  obtain ⟨h1, h2⟩ := digit_bounds h
  rw [he] at h1 h2
  omega

/-! ## Consuming the range/sequence suffix loop -/

/-- Boundary at which the suffix loop stops: not a digit, `-` or `,`. -/
def SufStop (cs : List Char) : Prop :=
  ∀ c t, cs = c :: t →
    c.isDigit = false ∧ CC.test (.one '-') c = false ∧ CC.test (.one ',') c = false

theorem mat_suf_zero {g1 g2 : GroupName} {f : Nat} {cs : List Char} {cp : Captures}
    {k : MK} (h : SufStop cs) : mat f (sufPattern g1 g2) cs cp k = k cp cs := by
  cases f with
  | zero => rw [sufPattern, mat_star_zero]
  | succ f' =>
    rw [sufPattern, mat_star_succ,
      mat_alt_none (mat_cat_cls_fail (fun c t hct => (h c t hct).2.1)),
      mat_cat_cls_fail (fun c t hct => (h c t hct).2.2)]

theorem sufStop_digit_test {rest : List Char} (hstop : SufStop rest) :
    ∀ c t, rest = c :: t → CC.test CC.digit c = false :=
  fun c t hct => (hstop c t hct).1

theorem mat_suf_end {g1 g2 : GroupName} {f : Nat} {ew rest : List Char} {cp : Captures}
    {k : MK} {r : Captures × List Char}
    (hew : ∀ c ∈ ew, c.isDigit = true) (hne : ew ≠ [])
    (hstop : SufStop rest) (hf : ew.length + 1 ≤ f)
    (hk : k (cp.set g1 ew) rest = some r) :
    mat f (sufPattern g1 g2) ('-' :: (ew ++ rest)) cp k = some r := by
  match f, hf with
  | f' + 1, hf =>
    rw [sufPattern, mat_star_succ]
    simp only [ccD, ccS]
    have hbody : mat f' (.cat (.cls (.one '-')) (.grp g1 (REplus (.cls .digit))))
        ('-' :: (ew ++ rest)) cp
        (fun cp1 cs1 => mat f' (.star (.alt (.cat (.cls (.one '-')) (.grp g1 (REplus (.cls .digit))))
          (.cat (.cls (.one ',')) (.cat (.star (.cls .space)) (.grp g2 (REplus (.cls .digit))))))) cs1 cp1 k)
        = some r := by
      rw [mat_cat, mat_cls_of_test (by decide : CC.test (.one '-') '-' = true)]
      apply mat_grp_plus_exact hew hne (sufStop_digit_test hstop) (by omega)
      show mat f' (.star _) rest (cp.set g1 ew) k = some r
      have hz : mat f' (sufPattern g1 g2) rest (cp.set g1 ew) k = k (cp.set g1 ew) rest :=
        mat_suf_zero hstop
      rw [sufPattern] at hz
      simp only [ccD, ccS] at hz
      rw [hz]
      exact hk
    rw [mat_alt_some hbody]

theorem mat_suf_next {g1 g2 : GroupName} {f : Nat} {nw rest : List Char} {cp : Captures}
    {k : MK} {r : Captures × List Char}
    (hnw : ∀ c ∈ nw, c.isDigit = true) (hne : nw ≠ [])
    (hstop : SufStop rest) (hf : nw.length + 1 ≤ f)
    (hk : k (cp.set g2 nw) rest = some r) :
    mat f (sufPattern g1 g2) (',' :: (nw ++ rest)) cp k = some r := by
  match f, hf with
  | f' + 1, hf =>
    rw [sufPattern, mat_star_succ]
    simp only [ccD, ccS]
    have hspace : ∀ c t, nw ++ rest = c :: t → CC.test .space c = false := by
      intro c t hct
      match nw, hne with
      | d :: nw', _ =>
        rw [List.cons_append] at hct
        cases hct
        exact test_space_of_digit (hnw c (List.mem_cons_self c nw'))
    have hbody : mat f' (.cat (.cls (.one ',')) (.cat (.star (.cls .space))
        (.grp g2 (REplus (.cls .digit)))))
        (',' :: (nw ++ rest)) cp
        (fun cp1 cs1 => mat f' (.star (.alt (.cat (.cls (.one '-')) (.grp g1 (REplus (.cls .digit))))
          (.cat (.cls (.one ',')) (.cat (.star (.cls .space)) (.grp g2 (REplus (.cls .digit))))))) cs1 cp1 k)
        = some r := by
      rw [mat_cat, mat_cls_of_test (by decide : CC.test (.one ',') ',' = true), mat_cat]
      show mat f' (.star (.cls .space)) ([] ++ (nw ++ rest)) cp _ = some r
      apply mat_star_cls_exact [] f' (by simp) hspace (by simp)
      show mat f' (.grp g2 (REplus (.cls .digit))) (nw ++ rest) cp _ = some r
      apply mat_grp_plus_exact hnw hne (sufStop_digit_test hstop) (by omega)
      show mat f' (.star _) rest (cp.set g2 nw) k = some r
      have hz : mat f' (sufPattern g1 g2) rest (cp.set g2 nw) k = k (cp.set g2 nw) rest :=
        mat_suf_zero hstop
      rw [sufPattern] at hz
      simp only [ccD, ccS] at hz
      rw [hz]
      exact hk
    rw [mat_alt_none (mat_cat_cls_fail (fun c t hct => by
      cases hct
      exact (by decide : CC.test (.one '-') ',' = false))), hbody]

/-- Both an end and a next value: two iterations of the suffix loop. -/
theorem mat_suf_end_next {g1 g2 : GroupName} {f : Nat} {ew nw rest : List Char}
    {cp : Captures} {k : MK} {r : Captures × List Char}
    (hew : ∀ c ∈ ew, c.isDigit = true) (hnee : ew ≠ [])
    (hnw : ∀ c ∈ nw, c.isDigit = true) (hnen : nw ≠ [])
    (hstop : SufStop rest) (hf : ew.length + nw.length + 2 ≤ f)
    (hk : k ((cp.set g1 ew).set g2 nw) rest = some r) :
    mat f (sufPattern g1 g2) ('-' :: (ew ++ (',' :: (nw ++ rest)))) cp k = some r := by
  match f, hf with
  | f' + 1, hf =>
    rw [sufPattern, mat_star_succ]
    simp only [ccD, ccS]
    have hmid : ∀ c t, ',' :: (nw ++ rest) = c :: t → CC.test CC.digit c = false := by
      intro c t hct
      cases hct
      decide
    have hbody : mat f' (.cat (.cls (.one '-')) (.grp g1 (REplus (.cls .digit))))
        ('-' :: (ew ++ (',' :: (nw ++ rest)))) cp
        (fun cp1 cs1 => mat f' (.star (.alt (.cat (.cls (.one '-')) (.grp g1 (REplus (.cls .digit))))
          (.cat (.cls (.one ',')) (.cat (.star (.cls .space)) (.grp g2 (REplus (.cls .digit))))))) cs1 cp1 k)
        = some r := by
      rw [mat_cat, mat_cls_of_test (by decide : CC.test (.one '-') '-' = true)]
      apply mat_grp_plus_exact hew hnee hmid (by omega)
      show mat f' (.star _) (',' :: (nw ++ rest)) (cp.set g1 ew) k = some r
      have hnext : mat f' (sufPattern g1 g2) (',' :: (nw ++ rest)) (cp.set g1 ew) k = some r :=
        mat_suf_next hnw hnen hstop (by omega) hk
      rw [sufPattern] at hnext
      simp only [ccD, ccS] at hnext
      exact hnext
    rw [mat_alt_some hbody]

/-! ## The renderer (modelled from the spec)

Modelled from the spec: "rendering each returned reference back to text
(book label, then chapters and verses joined with the same separators the
grammar uses)".  Runs are rendered with the grammar's range separator `-`,
a trailing appended value with the sequence separator `,`, verses after
`:`, locations joined by a space, and the book label separated by a
space. -/

/-- Render an optional end value (`-e`) and an optional next value (`,n`). -/
def renderSuf (e n : Option Nat) : List Char :=
  (match e with | some e' => '-' :: natToDigits e' | none => []) ++
  (match n with | some n' => ',' :: natToDigits n' | none => [])

/-- Render a start value with its optional next and end values. -/
def renderChN (s : Nat) (next end' : Option Nat) : List Char :=
  natToDigits s ++ renderSuf end' next

/-- Render an expanded number list back to range/sequence notation. -/
def renderNums (L : List Nat) : List Char :=
  match L with
  | [] => []
  | [a] => natToDigits a
  | [a, b] => natToDigits a ++ ',' :: natToDigits b
  | a :: b :: c :: t =>
      if a :: b :: c :: t = rangeIncl a (a + (a :: b :: c :: t).length - 1) then
        natToDigits a ++ '-' :: natToDigits (a + (a :: b :: c :: t).length - 1)
      else
        natToDigits a ++ '-' :: natToDigits (a + (a :: b :: c :: t).length - 2) ++
          ',' :: natToDigits ((a :: b :: c :: t).getLast (by simp))

/-- Render one location: chapters, then `:` and verses when present. -/
def renderLoc (l : VerseLocation) : List Char :=
  renderNums l.chapters ++
  (match l.verses with | none => [] | some vs => ':' :: renderNums vs)

/-- Render the locations of a reference joined by single spaces. -/
def renderLocs : List VerseLocation → List Char
  | [] => []
  | [l] => renderLoc l
  | l :: ls => renderLoc l ++ ' ' :: renderLocs ls

/-- Render a whole reference: book label, space, locations. -/
def renderRef (r : BibleReference) : List Char :=
  r.book ++ ' ' :: renderLocs r.locations

/-- Bound on an optional numeric value. -/
def OptLT256 (o : Option Nat) : Prop := ∀ x, o = some x → x < 256

/-- The run-plus-appended-value shape of every expanded list. -/
def RunShape (L : List Nat) : Prop :=
  3 ≤ L.length → ∀ a t, L = a :: t →
    (L = rangeIncl a (a + L.length - 1) ∨ L.dropLast = rangeIncl a (a + L.length - 2))

theorem self_mem_rangeIncl {a b : Nat} (h : a ≤ b) : b ∈ rangeIncl a b := by
  rw [rangeIncl, List.mem_range']
  exact ⟨b - a, by omega, by omega⟩

theorem renderNums_cons3 (a b c : Nat) (t : List Nat) :
    renderNums (a :: b :: c :: t) =
      if a :: b :: c :: t = rangeIncl a (a + (a :: b :: c :: t).length - 1) then
        natToDigits a ++ '-' :: natToDigits (a + (a :: b :: c :: t).length - 1)
      else
        natToDigits a ++ '-' :: natToDigits (a + (a :: b :: c :: t).length - 2) ++
          ',' :: natToDigits ((a :: b :: c :: t).getLast (by simp)) := rfl

/-- Decompose the rendering of a shaped list into start/next/end notation
whose expansion is the list itself. -/
theorem renderNums_notation {L : List Nat} (hne : L ≠ [])
    (hall : ∀ c ∈ L, c < 256) (hshape : RunShape L) :
    ∃ s next end', renderNums L = renderChN s next end' ∧
      (match s, next, end' with
        | ch, none, none => [ch]
        | ch, some n, none => [ch, n]
        | ch, none, some e => rangeIncl ch e
        | ch, some n, some e => rangeIncl ch e ++ [n]) = L ∧
      L.head? = some s ∧ s < 256 ∧ OptLT256 next ∧ OptLT256 end' := by
  match L, hne with
  | [a], _ =>
    refine ⟨a, none, none, ?_, rfl, rfl, hall a (by simp), ?_, ?_⟩
    · simp [renderNums, renderChN, renderSuf]
    · intro x hx; cases hx
    · intro x hx; cases hx
  | [a, b], _ =>
    refine ⟨a, some b, none, ?_, rfl, rfl, hall a (by simp), ?_, ?_⟩
    · simp [renderNums, renderChN, renderSuf]
    · intro x hx; cases hx; exact hall b (by simp)
    · intro x hx; cases hx
  | a :: b :: c :: t, _ =>
    have hlen : 3 ≤ (a :: b :: c :: t).length := by simp
    by_cases hrun : a :: b :: c :: t = rangeIncl a (a + (a :: b :: c :: t).length - 1)
    · refine ⟨a, none, some (a + (a :: b :: c :: t).length - 1), ?_, hrun.symm, rfl,
        hall a (by simp), ?_, ?_⟩
      · rw [renderNums_cons3, if_pos hrun]
        simp [renderChN, renderSuf]
      · intro x hx; cases hx
      · intro x hx
        cases hx
        apply hall
        have hmem : a + (a :: b :: c :: t).length - 1 ∈
            rangeIncl a (a + (a :: b :: c :: t).length - 1) :=
          self_mem_rangeIncl (by omega)
        rw [← hrun] at hmem
        exact hmem
    · have hdrop : (a :: b :: c :: t).dropLast =
          rangeIncl a (a + (a :: b :: c :: t).length - 2) := by
        rcases hshape hlen a (b :: c :: t) rfl with h | h
        · exact absurd h hrun
        · exact h
      refine ⟨a, some ((a :: b :: c :: t).getLast (by simp)),
        some (a + (a :: b :: c :: t).length - 2), ?_, ?_, rfl, hall a (by simp), ?_, ?_⟩
      · rw [renderNums_cons3, if_neg hrun]
        simp [renderChN, renderSuf]
      · show rangeIncl a (a + (a :: b :: c :: t).length - 2) ++
            [(a :: b :: c :: t).getLast (by simp)] = a :: b :: c :: t
        rw [← hdrop]
        exact List.dropLast_append_getLast (by simp)
      · intro x hx
        cases hx
        exact hall _ (List.getLast_mem (by simp))
      · intro x hx
        cases hx
        apply hall
        have hmem : a + (a :: b :: c :: t).length - 2 ∈
            rangeIncl a (a + (a :: b :: c :: t).length - 2) :=
          self_mem_rangeIncl (by omega)
        rw [← hdrop] at hmem
        exact List.dropLast_subset _ hmem

/-- Every expanded list produced by the per-match expansion has the
run-plus-appended-value shape. -/
theorem shape_of_cases {L : List Nat}
    (h : (∃ ch, L = [ch]) ∨ (∃ ch n, L = [ch, n]) ∨ (∃ ch e, L = rangeIncl ch e) ∨
      (∃ ch e n, L = rangeIncl ch e ++ [n])) : RunShape L := by
  intro hlen a t hL
  rcases h with ⟨ch, h⟩ | ⟨ch, n, h⟩ | ⟨ch, e, h⟩ | ⟨ch, e, n, h⟩
  · rw [h] at hlen; simp at hlen
  · rw [h] at hlen; simp at hlen
  · left
    have hlenr : L.length = e + 1 - ch := by rw [h, rangeIncl, List.length_range']
    have hpos : 0 < e + 1 - ch := by omega
    have hcons : rangeIncl ch e = ch :: List.range' (ch + 1) (e - ch) := by
      rw [rangeIncl]
      have he : e + 1 - ch = (e - ch) + 1 := by omega
      rw [he, List.range'_succ]
    have ha : a = ch := by
      rw [h, hcons] at hL
      injection hL with h1 _
      exact h1.symm
    rw [ha, h]
    have hl2 : (rangeIncl ch e).length = e + 1 - ch := by rw [rangeIncl, List.length_range']
    rw [hl2]
    congr 1
    omega
  · have hlr : (rangeIncl ch e).length = e + 1 - ch := by rw [rangeIncl, List.length_range']
    by_cases hz : e + 1 - ch = 0
    · rw [h] at hlen
      have hnil : rangeIncl ch e = [] := by
        rw [rangeIncl, hz]
        rfl
      rw [hnil] at hlen
      simp at hlen
    · right
      have hpos : 0 < e + 1 - ch := Nat.pos_of_ne_zero hz
      have hcons : rangeIncl ch e = ch :: List.range' (ch + 1) (e - ch) := by
        rw [rangeIncl]
        have he : e + 1 - ch = (e - ch) + 1 := by omega
        rw [he, List.range'_succ]
      have ha : a = ch := by
        rw [h, hcons, List.cons_append] at hL
        injection hL with h1 _
        exact h1.symm
      rw [ha, h, List.dropLast_concat]
      have hl2 : (rangeIncl ch e ++ [n]).length = (e + 1 - ch) + 1 := by simp [hlr]
      rw [hl2]
      congr 1
      omega

/-- Every verse value produced by the per-match expansion fits in `u8`. -/
theorem locationOfCaptures_verses_le {m : Captures} {l : VerseLocation}
    (h : locationOfCaptures m = some l) : ∀ vs, l.verses = some vs → ∀ c ∈ vs, c ≤ 255 := by
  unfold locationOfCaptures at h
  cases hg : m.get .gChapter with
  | none => simp only [hg] at h; exact Option.noConfusion h
  | some g =>
    simp only [hg] at h
    cases hp : parseU8 g with
    | none => simp only [hp] at h; exact Option.noConfusion h
    | some ch =>
      simp only [hp] at h
      intro vs hvs c hc
      cases hvx : (m.get .gVerse).bind parseU8 with
      | none =>
        simp only [hvx, Option.some_inj] at h
        rw [← h] at hvs
        simp at hvs
      | some v =>
        have hv := bind_parseU8_le hvx
        cases hnv : (m.get .gVerseNext).bind parseU8 with
        | none =>
          cases hev : (m.get .gVerseEnd).bind parseU8 with
          | none =>
            simp only [hvx, hnv, hev, Option.some_inj] at h
            rw [← h] at hvs
            have := Option.some.inj hvs
            rw [← this] at hc
            simp at hc
            omega
          | some e =>
            simp only [hvx, hnv, hev, Option.some_inj] at h
            rw [← h] at hvs
            have := Option.some.inj hvs
            rw [← this] at hc
            exact le_trans (rangeIncl_le c hc) (bind_parseU8_le hev)
        | some n =>
          have hn := bind_parseU8_le hnv
          cases hev : (m.get .gVerseEnd).bind parseU8 with
          | none =>
            simp only [hvx, hnv, hev, Option.some_inj] at h
            rw [← h] at hvs
            have := Option.some.inj hvs
            rw [← this] at hc
            simp at hc
            rcases hc with hc | hc <;> omega
          | some e =>
            simp only [hvx, hnv, hev, Option.some_inj] at h
            rw [← h] at hvs
            have := Option.some.inj hvs
            rw [← this] at hc
            rcases List.mem_append.1 hc with hc | hc
            · exact le_trans (rangeIncl_le c hc) (bind_parseU8_le hev)
            · simp at hc
              omega

/-- Render an optional verse clause. -/
def renderV : Option (Nat × Option Nat × Option Nat) → List Char
  | none => []
  | some (v, next, end') => ':' :: (natToDigits v ++ renderSuf end' next)

/-- Capture slots produced by consuming a rendered chapter clause. -/
def setChCaps (cp : Captures) (s : Nat) (next end' : Option Nat) : Captures :=
  let cp1 := cp.set .gChapter (natToDigits s)
  let cp2 := match end' with | some e => cp1.set .gChapterEnd (natToDigits e) | none => cp1
  match next with | some n => cp2.set .gChapterNext (natToDigits n) | none => cp2

/-- Capture slots produced by consuming a rendered verse clause. -/
def setVCaps (cp : Captures) : Option (Nat × Option Nat × Option Nat) → Captures
  | none => cp
  | some (v, next, end') =>
    let cp1 := cp.set .gVerse (natToDigits v)
    let cp2 := match end' with | some e => cp1.set .gVerseEnd (natToDigits e) | none => cp1
    match next with | some n => cp2.set .gVerseNext (natToDigits n) | none => cp2

/-- Boundary at which a whole location stops: the suffix boundary plus `:`. -/
def LocStop (cs : List Char) : Prop :=
  SufStop cs ∧ ∀ c t, cs = c :: t → CC.test (.one ':') c = false

theorem mat_grp_chapterToken_exact {f : Nat} {w rest : List Char} {cp : Captures} {k : MK}
    {r : Captures × List Char}
    (hw : ∀ c ∈ w, c.isDigit = true) (hne : w ≠ []) (hlen : w.length ≤ 3)
    (h3 : w.length = 3 → w.head? = some '1')
    (hrest : ∀ c t, rest = c :: t → c.isDigit = false)
    (hk : k (cp.set .gChapter w) rest = some r) :
    mat f (.grp .gChapter chapterToken) (w ++ rest) cp k = some r := by
  rw [mat_grp]
  apply mat_chapterToken_exact hw hne hlen h3 hrest
  show k (cp.set .gChapter ((w ++ rest).take ((w ++ rest).length - rest.length))) rest = some r
  rw [take_append_length]
  exact hk

theorem mat_vGroup_consume {f : Nat} {vw rest : List Char} {cp : Captures} {k : MK}
    {r : Captures × List Char}
    (hvw : ∀ c ∈ vw, c.isDigit = true) (hne : vw ≠ [])
    (hrest : ∀ c t, rest = c :: t → c.isDigit = false)
    (hf : vw.length ≤ f + 1)
    (hk : k (cp.set .gVerse vw) rest = some r) :
    mat f vGroup (':' :: (vw ++ rest)) cp k = some r := by
  rw [vGroup]
  apply mat_opt_some
  rw [mat_cat, mat_cls_of_test (by decide : CC.test (.one ':') ':' = true), mat_cat]
  simp only [ccS, ccD]
  have hspace : ∀ c t, vw ++ rest = c :: t → CC.test .space c = false := by
    intro c t hct
    match vw, hne with
    | d :: vw', _ =>
      rw [List.cons_append] at hct
      cases hct
      exact test_space_of_digit (hvw c (List.mem_cons_self c vw'))
  show mat f (.star (.cls .space)) ([] ++ (vw ++ rest)) cp _ = some r
  apply mat_star_cls_exact [] f (by simp) hspace (by simp)
  show mat f (.grp .gVerse (REplus (.cls .digit))) (vw ++ rest) cp _ = some r
  apply mat_grp_plus_exact hvw hne
    (fun c t hct => show CC.test .digit c = false from hrest c t hct) (by omega)
  exact hk

/-- Consume a rendered chapter clause: the token, then zero, one or two
iterations of the suffix loop, leaving exactly the matching capture slots. -/
theorem mat_chPart {X : RE} {f : Nat} {s : Nat} {next end' : Option Nat}
    {tail : List Char} {cp : Captures} {k : MK} {r : Captures × List Char}
    (hs : s < 256) (hs199 : s ≤ 199) (hN : OptLT256 next) (hE : OptLT256 end')
    (hstop : SufStop tail)
    (hf : (renderChN s next end').length + 2 ≤ f)
    (hk : mat f X tail (setChCaps cp s next end') k = some r) :
    mat f (.cat (.grp .gChapter chapterToken) (.cat chSuffix X))
      (renderChN s next end' ++ tail) cp k = some r := by
  obtain ⟨hsne, hsdig, hslen⟩ := natToDigits_shape s hs
  have hs200 : s < 200 := by omega
  have hdig := natToDigits_all_digit hs
  have hh3 := natToDigits_head3 s hs200
  cases next with
  | none =>
    cases end' with
    | none =>
      have hre : renderChN s none none ++ tail = natToDigits s ++ tail := by
        simp [renderChN, renderSuf]
      rw [hre, mat_cat]
      apply mat_grp_chapterToken_exact hdig hsne hslen hh3
        (fun c t hct => (hstop c t hct).1)
      show mat f (.cat chSuffix X) tail (cp.set .gChapter (natToDigits s)) k = some r
      rw [mat_cat, chSuffix, mat_suf_zero hstop]
      exact hk
    | some e =>
      have he256 : e < 256 := hE e rfl
      obtain ⟨hene, hedig, helen⟩ := natToDigits_shape e he256
      have hre : renderChN s none (some e) ++ tail =
          natToDigits s ++ ('-' :: (natToDigits e ++ tail)) := by
        simp [renderChN, renderSuf]
      rw [hre, mat_cat]
      apply mat_grp_chapterToken_exact hdig hsne hslen hh3
        (fun c t hct => by cases hct; decide)
      show mat f (.cat chSuffix X) ('-' :: (natToDigits e ++ tail))
        (cp.set .gChapter (natToDigits s)) k = some r
      rw [mat_cat, chSuffix]
      apply mat_suf_end (natToDigits_all_digit he256) hene hstop
      · have : (renderChN s none (some e)).length =
            (natToDigits s).length + (natToDigits e).length + 1 := by
          simp [renderChN, renderSuf]
          omega
        omega
      · exact hk
  | some n =>
    have hn256 : n < 256 := hN n rfl
    obtain ⟨hnne, hndig, hnlen⟩ := natToDigits_shape n hn256
    cases end' with
    | none =>
      have hre : renderChN s (some n) none ++ tail =
          natToDigits s ++ (',' :: (natToDigits n ++ tail)) := by
        simp [renderChN, renderSuf]
      rw [hre, mat_cat]
      apply mat_grp_chapterToken_exact hdig hsne hslen hh3
        (fun c t hct => by cases hct; decide)
      show mat f (.cat chSuffix X) (',' :: (natToDigits n ++ tail))
        (cp.set .gChapter (natToDigits s)) k = some r
      rw [mat_cat, chSuffix]
      apply mat_suf_next (natToDigits_all_digit hn256) hnne hstop
      · have : (renderChN s (some n) none).length =
            (natToDigits s).length + (natToDigits n).length + 1 := by
          simp [renderChN, renderSuf]
          omega
        omega
      · exact hk
    | some e =>
      have he256 : e < 256 := hE e rfl
      obtain ⟨hene, hedig, helen⟩ := natToDigits_shape e he256
      have hre : renderChN s (some n) (some e) ++ tail =
          natToDigits s ++ ('-' :: (natToDigits e ++ (',' :: (natToDigits n ++ tail)))) := by
        simp [renderChN, renderSuf]
      rw [hre, mat_cat]
      apply mat_grp_chapterToken_exact hdig hsne hslen hh3
        (fun c t hct => by cases hct; decide)
      show mat f (.cat chSuffix X)
        ('-' :: (natToDigits e ++ (',' :: (natToDigits n ++ tail))))
        (cp.set .gChapter (natToDigits s)) k = some r
      rw [mat_cat, chSuffix]
      apply mat_suf_end_next (natToDigits_all_digit he256) hene
        (natToDigits_all_digit hn256) hnne hstop
      · have : (renderChN s (some n) (some e)).length =
            (natToDigits s).length + (natToDigits e).length + (natToDigits n).length + 2 := by
          simp [renderChN, renderSuf]
          omega
        omega
      · exact hk

/-- Consume a rendered verse clause (or nothing), leaving exactly the
matching capture slots. -/
theorem mat_vPart {f : Nat} {vOpt : Option (Nat × Option Nat × Option Nat)}
    {tail : List Char} {cp : Captures} {k : MK} {r : Captures × List Char}
    (hv : ∀ v nx e, vOpt = some (v, nx, e) → v < 256 ∧ OptLT256 nx ∧ OptLT256 e)
    (hstop : LocStop tail)
    (hf : (renderV vOpt).length + 2 ≤ f)
    (hk : k (setVCaps cp vOpt) tail = some r) :
    mat f (.cat vGroup vSuffix) (renderV vOpt ++ tail) cp k = some r := by
  cases vOpt with
  | none =>
    show mat f (.cat vGroup vSuffix) ([] ++ tail) cp k = some r
    rw [List.nil_append, mat_cat, vGroup, mat_opt_skip (mat_cat_cls_fail hstop.2),
      vSuffix, mat_suf_zero hstop.1]
    exact hk
  | some vd =>
    obtain ⟨v, nx, e⟩ := vd
    obtain ⟨hv256, hNx, hE⟩ := hv v nx e rfl
    obtain ⟨hvne, hvdig, hvlen⟩ := natToDigits_shape v hv256
    have hvd := natToDigits_all_digit hv256
    cases nx with
    | none =>
      cases e with
      | none =>
        have hre : renderV (some (v, none, none)) ++ tail =
            ':' :: (natToDigits v ++ tail) := by
          simp [renderV, renderSuf]
        rw [hre, mat_cat]
        apply mat_vGroup_consume hvd hvne (fun c t hct => (hstop.1 c t hct).1) (by omega)
        show mat f vSuffix tail (cp.set .gVerse (natToDigits v)) k = some r
        rw [vSuffix, mat_suf_zero hstop.1]
        exact hk
      | some e' =>
        have he256 : e' < 256 := hE e' rfl
        obtain ⟨hene, hedig, helen⟩ := natToDigits_shape e' he256
        have hre : renderV (some (v, none, some e')) ++ tail =
            ':' :: (natToDigits v ++ ('-' :: (natToDigits e' ++ tail))) := by
          simp [renderV, renderSuf]
        rw [hre, mat_cat]
        apply mat_vGroup_consume hvd hvne (fun c t hct => by cases hct; decide) (by omega)
        show mat f vSuffix ('-' :: (natToDigits e' ++ tail))
          (cp.set .gVerse (natToDigits v)) k = some r
        rw [vSuffix]
        apply mat_suf_end (natToDigits_all_digit he256) hene hstop.1
        · have : (renderV (some (v, none, some e'))).length =
              (natToDigits v).length + (natToDigits e').length + 2 := by
            simp [renderV, renderSuf]
            omega
          omega
        · exact hk
    | some n =>
      have hn256 : n < 256 := hNx n rfl
      obtain ⟨hnne, hndig, hnlen⟩ := natToDigits_shape n hn256
      cases e with
      | none =>
        have hre : renderV (some (v, some n, none)) ++ tail =
            ':' :: (natToDigits v ++ (',' :: (natToDigits n ++ tail))) := by
          simp [renderV, renderSuf]
        rw [hre, mat_cat]
        apply mat_vGroup_consume hvd hvne (fun c t hct => by cases hct; decide) (by omega)
        show mat f vSuffix (',' :: (natToDigits n ++ tail))
          (cp.set .gVerse (natToDigits v)) k = some r
        rw [vSuffix]
        apply mat_suf_next (natToDigits_all_digit hn256) hnne hstop.1
        · have : (renderV (some (v, some n, none))).length =
              (natToDigits v).length + (natToDigits n).length + 2 := by
            simp [renderV, renderSuf]
            omega
          omega
        · exact hk
      | some e' =>
        have he256 : e' < 256 := hE e' rfl
        obtain ⟨hene, hedig, helen⟩ := natToDigits_shape e' he256
        have hre : renderV (some (v, some n, some e')) ++ tail =
            ':' :: (natToDigits v ++
              ('-' :: (natToDigits e' ++ (',' :: (natToDigits n ++ tail))))) := by
          simp [renderV, renderSuf]
        rw [hre, mat_cat]
        apply mat_vGroup_consume hvd hvne (fun c t hct => by cases hct; decide) (by omega)
        show mat f vSuffix
          ('-' :: (natToDigits e' ++ (',' :: (natToDigits n ++ tail))))
          (cp.set .gVerse (natToDigits v)) k = some r
        rw [vSuffix]
        apply mat_suf_end_next (natToDigits_all_digit he256) hene
          (natToDigits_all_digit hn256) hnne hstop.1
        · have : (renderV (some (v, some n, some e'))).length =
              (natToDigits v).length + (natToDigits e').length +
                (natToDigits n).length + 3 := by
            simp [renderV, renderSuf]
            omega
          omega
        · exact hk

/-- The expansion shapes of the chapters and verses of any produced location. -/
theorem locationOfCaptures_runShape {m : Captures} {l : VerseLocation}
    (h : locationOfCaptures m = some l) :
    RunShape l.chapters ∧ ∀ vs, l.verses = some vs → RunShape vs := by
  unfold locationOfCaptures at h
  cases hg : m.get .gChapter with
  | none => simp only [hg] at h; exact Option.noConfusion h
  | some g =>
    simp only [hg] at h
    cases hp : parseU8 g with
    | none => simp only [hp] at h; exact Option.noConfusion h
    | some ch =>
      simp only [hp, Option.some_inj] at h
      constructor
      · apply shape_of_cases
        rw [← h]
        cases hnx : (m.get .gChapterNext).bind parseU8 <;>
          cases hed : (m.get .gChapterEnd).bind parseU8 <;>
          simp only [hnx, hed]
        · exact Or.inl ⟨ch, rfl⟩
        · exact Or.inr (Or.inr (Or.inl ⟨ch, _, rfl⟩))
        · exact Or.inr (Or.inl ⟨ch, _, rfl⟩)
        · exact Or.inr (Or.inr (Or.inr ⟨ch, _, _, rfl⟩))
      · intro vs hvs
        apply shape_of_cases
        rw [← h] at hvs
        cases hvx : (m.get .gVerse).bind parseU8 <;>
          cases hnv : (m.get .gVerseNext).bind parseU8 <;>
          cases hev : (m.get .gVerseEnd).bind parseU8 <;>
          simp only [hvx, hnv, hev] at hvs
        · exact Option.noConfusion hvs
        · exact Option.noConfusion hvs
        · exact Option.noConfusion hvs
        · exact Option.noConfusion hvs
        · exact Or.inl ⟨_, (Option.some.inj hvs).symm⟩
        · exact Or.inr (Or.inr (Or.inl ⟨_, _, (Option.some.inj hvs).symm⟩))
        · exact Or.inr (Or.inl ⟨_, _, (Option.some.inj hvs).symm⟩)
        · exact Or.inr (Or.inr (Or.inr ⟨_, _, _, (Option.some.inj hvs).symm⟩))

/-- The chapter-range expansion of the extracted notation values, exactly
the `match` of `parse_locations`. -/
def chExp (s : Nat) (next end' : Option Nat) : List Nat :=
  match s, next, end' with
  | ch, none, none => [ch]
  | ch, some n, none => [ch, n]
  | ch, none, some e => rangeIncl ch e
  | ch, some n, some e => rangeIncl ch e ++ [n]

/-- The verse-range expansion of the extracted notation values. -/
def vExp : Option (Nat × Option Nat × Option Nat) → Option (List Nat)
  | none => none
  | some (v, next, end') => some (chExp v next end')

theorem setChCaps_get_chapter (m : Captures) (s : Nat) (next end' : Option Nat) :
    (setChCaps m s next end').get .gChapter = some (natToDigits s) := by
  rcases next with _ | n <;> rcases end' with _ | e <;>
    simp [setChCaps, Captures.set, Captures.get]

theorem setChCaps_get_other (m : Captures) (s : Nat) (next end' : Option Nat)
    (g : GroupName)
    (hg : g = .gBook ∨ g = .gLocations ∨ g = .gVerse ∨ g = .gVerseEnd ∨ g = .gVerseNext) :
    (setChCaps m s next end').get g = m.get g := by
  rcases hg with h | h | h | h | h <;> subst h <;>
    rcases next with _ | n <;> rcases end' with _ | e <;>
    simp [setChCaps, Captures.set, Captures.get]

theorem setVCaps_get_other (m : Captures) (vOpt : Option (Nat × Option Nat × Option Nat))
    (g : GroupName)
    (hg : g = .gBook ∨ g = .gLocations ∨ g = .gChapter ∨ g = .gChapterEnd ∨ g = .gChapterNext) :
    (setVCaps m vOpt).get g = m.get g := by
  rcases vOpt with _ | ⟨v, nx, e⟩
  · rfl
  · rcases hg with h | h | h | h | h <;> subst h <;>
      rcases nx with _ | n2 <;> rcases e with _ | e2 <;>
      simp [setVCaps, Captures.set, Captures.get]

theorem setChCaps_chEnd_bind (m : Captures) (s : Nat) (next end' : Option Nat)
    (hE : OptLT256 end') (h0 : m.get .gChapterEnd = none) :
    ((setChCaps m s next end').get .gChapterEnd).bind parseU8 = end' := by
  rcases end' with _ | e
  · have hpass : (setChCaps m s next none).get .gChapterEnd = m.get .gChapterEnd := by
      rcases next with _ | n <;> simp [setChCaps, Captures.set, Captures.get]
    rw [hpass, h0]
    rfl
  · have hset : (setChCaps m s next (some e)).get .gChapterEnd = some (natToDigits e) := by
      rcases next with _ | n <;> simp [setChCaps, Captures.set, Captures.get]
    rw [hset]
    simp [natToDigits_parse e (hE e rfl)]

theorem setChCaps_chNext_bind (m : Captures) (s : Nat) (next end' : Option Nat)
    (hN : OptLT256 next) (h0 : m.get .gChapterNext = none) :
    ((setChCaps m s next end').get .gChapterNext).bind parseU8 = next := by
  rcases next with _ | n
  · have hpass : (setChCaps m s none end').get .gChapterNext = m.get .gChapterNext := by
      rcases end' with _ | e <;> simp [setChCaps, Captures.set, Captures.get]
    rw [hpass, h0]
    rfl
  · have hset : (setChCaps m s (some n) end').get .gChapterNext = some (natToDigits n) := by
      rcases end' with _ | e <;> simp [setChCaps, Captures.set, Captures.get]
    rw [hset]
    simp [natToDigits_parse n (hN n rfl)]

theorem setVCaps_verse_bind (m : Captures) (vOpt : Option (Nat × Option Nat × Option Nat))
    (hv : ∀ v nx e, vOpt = some (v, nx, e) → v < 256)
    (h0 : m.get .gVerse = none) :
    ((setVCaps m vOpt).get .gVerse).bind parseU8 = vOpt.map (fun t => t.1) := by
  rcases vOpt with _ | ⟨v, nx, e⟩
  · rw [show setVCaps m none = m from rfl, h0]
    rfl
  · have hset : (setVCaps m (some (v, nx, e))).get .gVerse = some (natToDigits v) := by
      rcases nx with _ | n2 <;> rcases e with _ | e2 <;>
        simp [setVCaps, Captures.set, Captures.get]
    rw [hset]
    simp [natToDigits_parse v (hv v nx e rfl)]

theorem setVCaps_vEnd_bind (m : Captures) (vOpt : Option (Nat × Option Nat × Option Nat))
    (hv : ∀ v nx e, vOpt = some (v, nx, e) → OptLT256 e)
    (h0 : m.get .gVerseEnd = none) :
    ((setVCaps m vOpt).get .gVerseEnd).bind parseU8 = vOpt.bind (fun t => t.2.2) := by
  rcases vOpt with _ | ⟨v, nx, e⟩
  · rw [show setVCaps m none = m from rfl, h0]
    rfl
  · rcases e with _ | e2
    · have hpass : (setVCaps m (some (v, nx, none))).get .gVerseEnd = m.get .gVerseEnd := by
        rcases nx with _ | n2 <;> simp [setVCaps, Captures.set, Captures.get]
      rw [hpass, h0]
      rfl
    · have hset : (setVCaps m (some (v, nx, some e2))).get .gVerseEnd =
          some (natToDigits e2) := by
        rcases nx with _ | n2 <;> simp [setVCaps, Captures.set, Captures.get]
      rw [hset]
      simp [natToDigits_parse e2 (hv v nx (some e2) rfl e2 rfl)]

theorem setVCaps_vNext_bind (m : Captures) (vOpt : Option (Nat × Option Nat × Option Nat))
    (hv : ∀ v nx e, vOpt = some (v, nx, e) → OptLT256 nx)
    (h0 : m.get .gVerseNext = none) :
    ((setVCaps m vOpt).get .gVerseNext).bind parseU8 = vOpt.bind (fun t => t.2.1) := by
  rcases vOpt with _ | ⟨v, nx, e⟩
  · rw [show setVCaps m none = m from rfl, h0]
    rfl
  · rcases nx with _ | n2
    · have hpass : (setVCaps m (some (v, none, e))).get .gVerseNext = m.get .gVerseNext := by
        rcases e with _ | e2 <;> simp [setVCaps, Captures.set, Captures.get]
      rw [hpass, h0]
      rfl
    · have hset : (setVCaps m (some (v, some n2, e))).get .gVerseNext =
          some (natToDigits n2) := by
        rcases e with _ | e2 <;> simp [setVCaps, Captures.set, Captures.get]
      rw [hset]
      simp [natToDigits_parse n2 (hv v (some n2) e rfl n2 rfl)]

/-- Evaluating the per-match expansion on the capture slots produced by
consuming a rendered location. -/
theorem locationOfCaptures_setCaps {m : Captures} {s : Nat} {next end' : Option Nat}
    {vOpt : Option (Nat × Option Nat × Option Nat)}
    (hs : s < 256) (hN : OptLT256 next) (hE : OptLT256 end')
    (hv : ∀ v nx e, vOpt = some (v, nx, e) → v < 256 ∧ OptLT256 nx ∧ OptLT256 e)
    (hmE : m.get .gChapterEnd = none) (hmN : m.get .gChapterNext = none)
    (hmV : m.get .gVerse = none) (hmVE : m.get .gVerseEnd = none)
    (hmVN : m.get .gVerseNext = none) :
    locationOfCaptures (setVCaps (setChCaps m s next end') vOpt) =
      some { chapters := chExp s next end', verses := vExp vOpt } := by
  have h1 : (setVCaps (setChCaps m s next end') vOpt).get .gChapter =
      some (natToDigits s) := by
    rw [setVCaps_get_other _ _ _ (Or.inr (Or.inr (Or.inl rfl))), setChCaps_get_chapter]
  have h2 : ((setVCaps (setChCaps m s next end') vOpt).get .gChapterEnd).bind parseU8 =
      end' := by
    rw [setVCaps_get_other _ _ _ (Or.inr (Or.inr (Or.inr (Or.inl rfl))))]
    exact setChCaps_chEnd_bind m s next end' hE hmE
  have h3 : ((setVCaps (setChCaps m s next end') vOpt).get .gChapterNext).bind parseU8 =
      next := by
    rw [setVCaps_get_other _ _ _ (Or.inr (Or.inr (Or.inr (Or.inr rfl))))]
    exact setChCaps_chNext_bind m s next end' hN hmN
  have h4 : ((setVCaps (setChCaps m s next end') vOpt).get .gVerse).bind parseU8 =
      vOpt.map (fun t => t.1) := by
    apply setVCaps_verse_bind _ _ (fun v nx e h => (hv v nx e h).1)
    rw [setChCaps_get_other _ _ _ _ _ (Or.inr (Or.inr (Or.inl rfl)))]
    exact hmV
  have h5 : ((setVCaps (setChCaps m s next end') vOpt).get .gVerseEnd).bind parseU8 =
      vOpt.bind (fun t => t.2.2) := by
    apply setVCaps_vEnd_bind _ _ (fun v nx e h => (hv v nx e h).2.2)
    rw [setChCaps_get_other _ _ _ _ _ (Or.inr (Or.inr (Or.inr (Or.inl rfl))))]
    exact hmVE
  have h6 : ((setVCaps (setChCaps m s next end') vOpt).get .gVerseNext).bind parseU8 =
      vOpt.bind (fun t => t.2.1) := by
    apply setVCaps_vNext_bind _ _ (fun v nx e h => (hv v nx e h).2.1)
    rw [setChCaps_get_other _ _ _ _ _ (Or.inr (Or.inr (Or.inr (Or.inr rfl))))]
    exact hmVN
  unfold locationOfCaptures
  simp only [h1, h2, h3, h4, h5, h6, natToDigits_parse s hs]
  rcases vOpt with _ | ⟨v, nx, e⟩
  · cases next <;> cases end' <;> rfl
  · rcases nx with _ | n2 <;> rcases e with _ | e2 <;> cases next <;> cases end' <;> rfl

/-- Consuming a whole rendered location: the notation values extracted from
the location expand back to it, and the matcher consumes exactly the
rendered text, filling exactly the matching capture slots. -/
theorem mat_render_loc {loc : VerseLocation} {tail : List Char}
    (hcne : loc.chapters ≠ [])
    (hcall : ∀ c ∈ loc.chapters, c < 256)
    (hhead : ∀ a t, loc.chapters = a :: t → a ≤ 199)
    (hcshape : RunShape loc.chapters)
    (hvne : loc.verses ≠ some [])
    (hvall : ∀ vs, loc.verses = some vs → ∀ c ∈ vs, c < 256)
    (hvshape : ∀ vs, loc.verses = some vs → RunShape vs)
    (hstop : LocStop tail) :
    ∃ s next end' vOpt, chExp s next end' = loc.chapters ∧ vExp vOpt = loc.verses ∧
      s < 256 ∧ OptLT256 next ∧ OptLT256 end' ∧
      (∀ v nx e, vOpt = some (v, nx, e) → v < 256 ∧ OptLT256 nx ∧ OptLT256 e) ∧
      ∀ (f : Nat) (cp : Captures) (k : MK) (r : Captures × List Char),
        (renderLoc loc).length + 2 ≤ f →
        k (setVCaps (setChCaps cp s next end') vOpt) tail = some r →
        mat f locCore (renderLoc loc ++ tail) cp k = some r := by
  obtain ⟨s, next, end', hrend, hexp, hhd, hs256, hN, hE⟩ :=
    renderNums_notation hcne hcall hcshape
  have hexp' : chExp s next end' = loc.chapters := by
    cases next <;> cases end' <;> exact hexp
  have hs199 : s ≤ 199 := by
    cases hcp : loc.chapters with
    | nil => exact absurd hcp hcne
    | cons a t =>
      rw [hcp] at hhd
      simp at hhd
      rw [← hhd]
      exact hhead a t hcp
  cases hv : loc.verses with
  | none =>
    refine ⟨s, next, end', none, hexp', rfl, hs256, hN, hE,
      fun v nx e h => Option.noConfusion h, ?_⟩
    intro f cp k r hf hk
    have hre : renderLoc loc ++ tail = renderChN s next end' ++ tail := by
      simp [renderLoc, hv, hrend]
    have hlen : (renderLoc loc).length = (renderChN s next end').length := by
      simp [renderLoc, hv, hrend]
    rw [hre]
    show mat f (.cat (.grp .gChapter chapterToken) (.cat chSuffix (.cat vGroup vSuffix)))
      (renderChN s next end' ++ tail) cp k = some r
    apply mat_chPart hs256 hs199 hN hE hstop.1 (by omega)
    show mat f (.cat vGroup vSuffix) (renderV none ++ tail)
      (setChCaps cp s next end') k = some r
    apply mat_vPart (fun v nx e h => Option.noConfusion h) hstop (by simp [renderV]; omega)
    exact hk
  | some vs =>
    have hvsne : vs ≠ [] := by
      intro h
      rw [h] at hv
      exact hvne hv
    obtain ⟨v, vnx, ve, hvrend, hvexp, hvhd, hv256, hvN, hvE⟩ :=
      renderNums_notation hvsne (hvall vs hv) (hvshape vs hv)
    have hvexp' : chExp v vnx ve = vs := by
      cases vnx <;> cases ve <;> exact hvexp
    refine ⟨s, next, end', some (v, vnx, ve), hexp', ?_, hs256, hN, hE, ?_, ?_⟩
    · show some (chExp v vnx ve) = some vs
      rw [hvexp']
    · intro v' nx' e' h
      cases h
      exact ⟨hv256, hvN, hvE⟩
    intro f cp k r hf hk
    have hre : renderLoc loc ++ tail =
        renderChN s next end' ++ (renderV (some (v, vnx, ve)) ++ tail) := by
      simp [renderLoc, hv, hrend, hvrend, renderV, renderChN]
    have hlen := congrArg List.length hre
    simp only [List.length_append] at hlen
    have hstop' : SufStop (renderV (some (v, vnx, ve)) ++ tail) := by
      intro c t hct
      rw [renderV, List.cons_append] at hct
      cases hct
      refine ⟨by decide, by decide, by decide⟩
    rw [hre]
    show mat f (.cat (.grp .gChapter chapterToken) (.cat chSuffix (.cat vGroup vSuffix)))
      (renderChN s next end' ++ (renderV (some (v, vnx, ve)) ++ tail)) cp k = some r
    apply mat_chPart hs256 hs199 hN hE hstop' (by omega)
    show mat f (.cat vGroup vSuffix) (renderV (some (v, vnx, ve)) ++ tail)
      (setChCaps cp s next end') k = some r
    apply mat_vPart ?_ hstop (by omega)
    · exact hk
    · intro v' nx' e' h
      cases h
      exact ⟨hv256, hvN, hvE⟩

/-- One successful `tryMatch` at a rendered location consumes exactly the
rendered text and yields capture slots whose expansion is the location. -/
theorem tryMatch_render_loc {loc : VerseLocation} {tail : List Char}
    (hcne : loc.chapters ≠ [])
    (hcall : ∀ c ∈ loc.chapters, c < 256)
    (hhead : ∀ a t, loc.chapters = a :: t → a ≤ 199)
    (hcshape : RunShape loc.chapters)
    (hvne : loc.verses ≠ some [])
    (hvall : ∀ vs, loc.verses = some vs → ∀ c ∈ vs, c < 256)
    (hvshape : ∀ vs, loc.verses = some vs → RunShape vs)
    (hstop : LocStop tail) :
    ∃ cp, tryMatch VERSES_LOCATION_PATTERN (renderLoc loc ++ tail) = some (cp, tail) ∧
      locationOfCaptures cp = some loc := by
  obtain ⟨s, next, end', vOpt, hexp, hvexp, hs256, hN, hE, hvb, hmat⟩ :=
    mat_render_loc hcne hcall hhead hcshape hvne hvall hvshape hstop
  refine ⟨setVCaps (setChCaps Captures.empty s next end') vOpt, ?_, ?_⟩
  · show mat (fuelFor (renderLoc loc ++ tail)) locCore (renderLoc loc ++ tail)
      Captures.empty (fun cp rest => some (cp, rest)) =
      some (setVCaps (setChCaps Captures.empty s next end') vOpt, tail)
    apply hmat
    · have : (renderLoc loc ++ tail).length = (renderLoc loc).length + tail.length :=
        List.length_append _ _
      rw [fuelFor]
      omega
    · rfl
  · have hset := @locationOfCaptures_setCaps Captures.empty s next end' vOpt
      hs256 hN hE hvb rfl rfl rfl rfl rfl
    rw [hset, hexp, hvexp]

theorem mat_chapterToken_fail {f : Nat} {cs : List Char} {cp : Captures} {k : MK}
    (h : ∀ c t, cs = c :: t → c.isDigit = false) :
    mat f chapterToken cs cp k = none := by
  have h1 : ∀ c t, cs = c :: t → CC.test (.one '1') c = false := by
    intro c t hct
    have hc := h c t hct
    show (c == '1') = false
    cases hq : (c == '1') with
    | false => rfl
    | true =>
      have : c = '1' := eq_of_beq hq
      rw [this] at hc
      exact absurd hc (by decide)
  have hd : ∀ c t, cs = c :: t → CC.test .digit c = false := fun c t hct => h c t hct
  rw [chapterToken, mat_cat, mat_opt_skip (mat_cls_fail h1)]
  show mat f (.cat (REopt ccD) ccD) cs cp k = none
  rw [mat_cat]
  simp only [ccD]
  rw [mat_opt_skip (mat_cls_fail hd)]
  show mat f (.cls CC.digit) cs cp k = none
  exact mat_cls_fail hd

theorem mat_locCore_fail {f : Nat} {cs : List Char} {cp : Captures} {k : MK}
    (h : ∀ c t, cs = c :: t → c.isDigit = false) :
    mat f locCore cs cp k = none := by
  show mat f (.cat (.grp .gChapter chapterToken) (.cat chSuffix (.cat vGroup vSuffix)))
    cs cp k = none
  rw [mat_cat, mat_grp]
  exact mat_chapterToken_fail h

/-- The location scan fails outright at any position not starting with a
digit. -/
theorem tryMatch_loc_fail {cs : List Char} (h : ∀ c t, cs = c :: t → c.isDigit = false) :
    tryMatch VERSES_LOCATION_PATTERN cs = none := by
  show mat (fuelFor cs) locCore cs Captures.empty (fun cp rest => some (cp, rest)) = none
  exact mat_locCore_fail h

theorem scanFrom_loc_nil (f pos : Nat) :
    scanFrom VERSES_LOCATION_PATTERN f pos [] = [] := by
  cases f with
  | zero => rfl
  | succ f' =>
    have h0 : tryMatch VERSES_LOCATION_PATTERN [] = none :=
      tryMatch_loc_fail (fun c t hct => by simp at hct)
    simp only [scanFrom, h0]

theorem renderNums_ne_nil {L : List Nat} (hne : L ≠ []) (hall : ∀ c ∈ L, c < 256) :
    renderNums L ≠ [] := by
  match L, hne with
  | [a], _ =>
    have := (natToDigits_shape a (hall a (by simp))).1
    simpa [renderNums] using this
  | [a, b], _ => simp [renderNums]
  | a :: b :: c :: t, _ =>
    rw [renderNums_cons3]
    by_cases hrun : a :: b :: c :: t =
        rangeIncl a (a + (a :: b :: c :: t).length - 1)
    · rw [if_pos hrun]
      simp
    · rw [if_neg hrun]
      simp

theorem renderLoc_ne_nil {loc : VerseLocation} (hcne : loc.chapters ≠ [])
    (hcall : ∀ c ∈ loc.chapters, c < 256) : renderLoc loc ≠ [] := by
  rw [renderLoc]
  intro h
  rcases List.append_eq_nil.1 h with ⟨h1, _⟩
  exact renderNums_ne_nil hcne hcall h1

/-- The hypotheses under which a location renders and re-parses exactly:
produced by the expander, with no empty chapter list (no inverted chapter
range), a leading chapter at most 199, `u8` values and no empty verse
list. -/
def GoodLoc (loc : VerseLocation) : Prop :=
  loc.chapters ≠ [] ∧ (∀ c ∈ loc.chapters, c < 256) ∧
  (∀ a t, loc.chapters = a :: t → a ≤ 199) ∧ RunShape loc.chapters ∧
  loc.verses ≠ some [] ∧ (∀ vs, loc.verses = some vs → ∀ c ∈ vs, c < 256) ∧
  (∀ vs, loc.verses = some vs → RunShape vs)

/-- Scanning a rendered list of good locations recovers exactly that list. -/
theorem scan_render_locs :
    ∀ (locs : List VerseLocation), (∀ loc ∈ locs, GoodLoc loc) →
      ∀ (f pos : Nat), (renderLocs locs).length + 1 ≤ f →
      (scanFrom VERSES_LOCATION_PATTERN f pos (renderLocs locs)).filterMap
        (fun t => locationOfCaptures t.2.2) = locs := by
  intro locs
  induction locs with
  | nil =>
    intro _ f pos _
    show (scanFrom VERSES_LOCATION_PATTERN f pos []).filterMap _ = []
    rw [scanFrom_loc_nil]
    rfl
  | cons loc rest ih =>
    intro hgood f pos hf
    obtain ⟨hcne, hcall, hhead, hcshape, hvne, hvall, hvshape⟩ :=
      hgood loc (List.mem_cons_self _ _)
    have hlp : 0 < (renderLoc loc).length :=
      List.length_pos.2 (renderLoc_ne_nil hcne hcall)
    cases rest with
    | nil =>
      have hstop : LocStop ([] : List Char) :=
        ⟨fun c t hct => List.noConfusion hct, fun c t hct => List.noConfusion hct⟩
      obtain ⟨cp, htm, hloc⟩ :=
        tryMatch_render_loc hcne hcall hhead hcshape hvne hvall hvshape hstop
      rw [List.append_nil] at htm
      cases f with
      | zero => exact (Nat.not_succ_le_zero _ hf).elim
      | succ f' =>
        have hrl : renderLocs [loc] = renderLoc loc := rfl
        rw [hrl]
        simp only [scanFrom, htm, List.length_nil, Nat.sub_zero]
        rw [if_neg (by omega : ¬(renderLoc loc).length = 0)]
        rw [scanFrom_loc_nil]
        simp only [List.filterMap_cons, hloc, List.filterMap_nil]
    | cons l2 rest' =>
      have hrl : renderLocs (loc :: l2 :: rest') =
          renderLoc loc ++ ' ' :: renderLocs (l2 :: rest') := rfl
      have hstop : LocStop (' ' :: renderLocs (l2 :: rest')) := by
        refine ⟨?_, ?_⟩
        · intro c t hct
          cases hct
          exact ⟨by decide, by decide, by decide⟩
        · intro c t hct
          cases hct
          decide
      obtain ⟨cp, htm, hloc⟩ :=
        tryMatch_render_loc hcne hcall hhead hcshape hvne hvall hvshape hstop
      cases f with
      | zero => exact (Nat.not_succ_le_zero _ hf).elim
      | succ f' =>
        rw [hrl]
        rw [hrl] at hf
        simp only [scanFrom, htm]
        have hlen : (renderLoc loc ++ ' ' :: renderLocs (l2 :: rest')).length -
            (' ' :: renderLocs (l2 :: rest')).length = (renderLoc loc).length := by
          simp
        rw [hlen, if_neg (by omega : ¬(renderLoc loc).length = 0)]
        cases f' with
        | zero =>
          exfalso
          have := congrArg List.length hrl
          simp only [List.length_append, List.length_cons] at hf
          omega
        | succ f'' =>
          have hsp : tryMatch VERSES_LOCATION_PATTERN
              (' ' :: renderLocs (l2 :: rest')) = none :=
            tryMatch_loc_fail (fun c t hct => by
              injection hct with h1 _
              rw [← h1]
              decide)
          simp only [scanFrom, hsp]
          simp only [List.filterMap_cons, hloc]
          have hfuel : (renderLocs (l2 :: rest')).length + 1 ≤ f'' := by
            simp only [List.length_append, List.length_cons] at hf
            omega
          rw [ih (fun l hl => hgood l (List.mem_cons_of_mem _ hl)) f''
            (pos + (renderLoc loc).length + 1) hfuel]

/-- Expanding a rendered list of good locations recovers exactly that
list. -/
theorem parse_locations_render (locs : List VerseLocation)
    (h : ∀ loc ∈ locs, GoodLoc loc) :
    parse_locations (renderLocs locs) = locs := by
  unfold parse_locations scanAll
  exact scan_render_locs locs h _ 0 (by omega)

/-- The locations body of the reference pattern consumes a whole rendered
location list: the star part and the mandatory-first-unit part, proved
together. -/
theorem mat_star_locUnit :
    ∀ (locs : List VerseLocation), (∀ loc ∈ locs, GoodLoc loc) →
      ∀ (f : Nat) (cp : Captures) (k : MK) (r : Captures × List Char),
      (∀ cp', cp'.get .gBook = cp.get .gBook → cp'.get .gLocations = cp.get .gLocations →
        k cp' [] = some r) →
      (((renderLocs locs).length + 3 ≤ f →
        mat f (.star (.cat locCore (REopt ccS))) (renderLocs locs) cp k = some r) ∧
       (locs ≠ [] → (renderLocs locs).length + 2 ≤ f →
        mat f (.cat (.cat locCore (REopt ccS)) (.star (.cat locCore (REopt ccS))))
          (renderLocs locs) cp k = some r)) := by
  intro locs
  induction locs with
  | nil =>
    intro _ f cp k r hk
    refine ⟨fun _ => ?_, fun hne => absurd rfl hne⟩
    show mat f (.star (.cat locCore (REopt ccS))) [] cp k = some r
    cases f with
    | zero =>
      rw [mat_star_zero]
      exact hk cp rfl rfl
    | succ f' =>
      rw [mat_star_succ]
      have hb : mat f' (.cat locCore (REopt ccS)) [] cp
          (fun cp1 cs1 => mat f' (.star (.cat locCore (REopt ccS))) cs1 cp1 k) = none := by
        rw [mat_cat]
        exact mat_locCore_fail (fun c t h => by simp at h)
      rw [hb]
      exact hk cp rfl rfl
  | cons loc rest ih =>
    intro hgood
    have ihr := ih (fun l hl => hgood l (List.mem_cons_of_mem _ hl))
    obtain ⟨hcne, hcall, hhead, hcshape, hvne, hvall, hvshape⟩ :=
      hgood loc (List.mem_cons_self _ _)
    have hlp : 0 < (renderLoc loc).length :=
      List.length_pos.2 (renderLoc_ne_nil hcne hcall)
    have catP : ∀ (f : Nat) (cp : Captures) (k : MK) (r : Captures × List Char),
        (∀ cp', cp'.get .gBook = cp.get .gBook →
          cp'.get .gLocations = cp.get .gLocations → k cp' [] = some r) →
        (renderLocs (loc :: rest)).length + 2 ≤ f →
        mat f (.cat (.cat locCore (REopt ccS)) (.star (.cat locCore (REopt ccS))))
          (renderLocs (loc :: rest)) cp k = some r := by
      intro f cp k r hk hf
      rw [mat_cat, mat_cat]
      cases rest with
      | nil =>
        have hstop : LocStop ([] : List Char) :=
          ⟨fun c t hct => List.noConfusion hct, fun c t hct => List.noConfusion hct⟩
        obtain ⟨s, next, end', vOpt, _, _, _, _, _, _, hmat⟩ :=
          mat_render_loc hcne hcall hhead hcshape hvne hvall hvshape hstop
        have hMb : (setVCaps (setChCaps cp s next end') vOpt).get .gBook =
            cp.get .gBook := by
          rw [setVCaps_get_other _ _ _ (Or.inl rfl),
            setChCaps_get_other _ _ _ _ _ (Or.inl rfl)]
        have hMl : (setVCaps (setChCaps cp s next end') vOpt).get .gLocations =
            cp.get .gLocations := by
          rw [setVCaps_get_other _ _ _ (Or.inr (Or.inl rfl)),
            setChCaps_get_other _ _ _ _ _ (Or.inr (Or.inl rfl))]
        rw [show renderLocs [loc] = renderLoc loc ++ [] from (List.append_nil _).symm]
        refine hmat f cp _ r ?_ ?_
        · have : (renderLocs [loc]).length = (renderLoc loc).length := rfl
          omega
        · show mat f (REopt ccS) [] (setVCaps (setChCaps cp s next end') vOpt) _ = some r
          simp only [ccS]
          rw [mat_opt_skip (mat_cls_fail (fun c t h => List.noConfusion h))]
          show mat f (.star (.cat locCore (REopt ccS))) []
            (setVCaps (setChCaps cp s next end') vOpt) k = some r
          have hk' : ∀ cp', cp'.get .gBook =
                (setVCaps (setChCaps cp s next end') vOpt).get .gBook →
              cp'.get .gLocations =
                (setVCaps (setChCaps cp s next end') vOpt).get .gLocations →
              k cp' [] = some r :=
            fun cp' h1 h2 => hk cp' (h1.trans hMb) (h2.trans hMl)
          have hcc : (renderLocs [loc]).length = (renderLoc loc).length := rfl
          have := (ihr f (setVCaps (setChCaps cp s next end') vOpt) k r hk').1
            (by show (0 : Nat) + 3 ≤ f; omega)
          exact this
      | cons l2 t =>
        have hstop : LocStop (' ' :: renderLocs (l2 :: t)) := by
          refine ⟨?_, ?_⟩
          · intro c t' hct
            injection hct with h1 _
            rw [← h1]
            exact ⟨by decide, by decide, by decide⟩
          · intro c t' hct
            injection hct with h1 _
            rw [← h1]
            decide
        obtain ⟨s, next, end', vOpt, _, _, _, _, _, _, hmat⟩ :=
          mat_render_loc hcne hcall hhead hcshape hvne hvall hvshape hstop
        have hMb : (setVCaps (setChCaps cp s next end') vOpt).get .gBook =
            cp.get .gBook := by
          rw [setVCaps_get_other _ _ _ (Or.inl rfl),
            setChCaps_get_other _ _ _ _ _ (Or.inl rfl)]
        have hMl : (setVCaps (setChCaps cp s next end') vOpt).get .gLocations =
            cp.get .gLocations := by
          rw [setVCaps_get_other _ _ _ (Or.inr (Or.inl rfl)),
            setChCaps_get_other _ _ _ _ _ (Or.inr (Or.inl rfl))]
        have hlen : (renderLocs (loc :: l2 :: t)).length =
            (renderLoc loc).length + 1 + (renderLocs (l2 :: t)).length := by
          show (renderLoc loc ++ ' ' :: renderLocs (l2 :: t)).length = _
          simp
          omega
        rw [show renderLocs (loc :: l2 :: t) =
          renderLoc loc ++ ' ' :: renderLocs (l2 :: t) from rfl]
        refine hmat f cp _ r ?_ ?_
        · omega
        · show mat f (REopt ccS) (' ' :: renderLocs (l2 :: t))
            (setVCaps (setChCaps cp s next end') vOpt) _ = some r
          have hk' : ∀ cp', cp'.get .gBook =
                (setVCaps (setChCaps cp s next end') vOpt).get .gBook →
              cp'.get .gLocations =
                (setVCaps (setChCaps cp s next end') vOpt).get .gLocations →
              k cp' [] = some r :=
            fun cp' h1 h2 => hk cp' (h1.trans hMb) (h2.trans hMl)
          have hK2 := (ihr f (setVCaps (setChCaps cp s next end') vOpt) k r hk').1
            (by omega)
          apply mat_opt_some
          simp only [ccS]
          rw [mat_cls_of_test (by decide : CC.test CC.space ' ' = true)]
          exact hK2
    have starP : ∀ (f : Nat) (cp : Captures) (k : MK) (r : Captures × List Char),
        (∀ cp', cp'.get .gBook = cp.get .gBook →
          cp'.get .gLocations = cp.get .gLocations → k cp' [] = some r) →
        (renderLocs (loc :: rest)).length + 3 ≤ f →
        mat f (.star (.cat locCore (REopt ccS))) (renderLocs (loc :: rest)) cp k =
          some r := by
      intro f cp k r hk hf
      match f, hf with
      | f' + 1, hf =>
        rw [mat_star_succ]
        have hb := catP f' cp k r hk (by omega)
        rw [mat_cat] at hb
        rw [hb]
    exact fun f cp k r hk =>
      ⟨fun hf => starP f cp k r hk hf, fun _ hf => catP f cp k r hk hf⟩

/-- The locations body consumes a whole rendered location list. -/
theorem mat_locBody_render {locs : List VerseLocation} (hne : locs ≠ [])
    (hgood : ∀ loc ∈ locs, GoodLoc loc) {f : Nat} {cp : Captures} {k : MK}
    {r : Captures × List Char}
    (hf : (renderLocs locs).length + 2 ≤ f)
    (hk : ∀ cp', cp'.get .gBook = cp.get .gBook →
      cp'.get .gLocations = cp.get .gLocations → k cp' [] = some r) :
    mat f locBody (renderLocs locs) cp k = some r := by
  show mat f (.cat (.cat locCore (REopt ccS)) (.star (.cat locCore (REopt ccS))))
    (renderLocs locs) cp k = some r
  exact (mat_star_locUnit locs hgood f cp k r hk).2 hne hf

/-! ## Re-matching the book label -/

theorem test_space_of_letter {c : Char} (h : isPL c = true) :
    CC.test .space c = false := by
  have h1 := isPL_ge h
  show isWS c = false
  simp only [isWS, Bool.or_eq_false_iff]
  refine ⟨⟨⟨?_, ?_⟩, ?_⟩, ?_⟩ <;>
  · rw [beq_eq_false_iff_ne]
    intro he
    rw [he] at h1
    revert h1
    decide

theorem isPL_not_digit {c : Char} (h : isPL c = true) : c.isDigit = false := by
  cases hd : c.isDigit
  · rfl
  · have h1 := isPL_ge h
    have h2 := (digit_bounds hd).2
    exact ((by omega : False)).elim

theorem test_among1234_of_letter {c : Char} (h : isPL c = true) :
    CC.test (.among ['1', '2', '3', '4']) c = false := by
  show (['1', '2', '3', '4'].contains c) = false
  cases hq : (['1', '2', '3', '4'].contains c)
  · rfl
  · have hm : c = '1' ∨ c = '2' ∨ c = '3' ∨ c = '4' := by
      simpa using hq
    have h1 := isPL_ge h
    rcases hm with hm | hm | hm | hm <;> rw [hm] at h1 <;> revert h1 <;> decide

theorem test_I_of_space {c : Char} (h : isWS c = true) :
    CC.test (.one 'I') c = false := by
  show (c == 'I') = false
  cases hq : (c == 'I')
  · rfl
  · rw [eq_of_beq hq] at h
    exact absurd h (by decide)

theorem test_dot_of_letter {c : Char} (h : isPL c = true) :
    CC.test (.one '.') c = false := by
  show (c == '.') = false
  cases hq : (c == '.')
  · rfl
  · rw [eq_of_beq hq] at h
    exact absurd h (by decide)

theorem test_I_of_letter_ne {c : Char} (h : (c == 'I') = false) :
    CC.test (.one 'I') c = false := h

/-- Consume the mandatory letters and optional dot of the book body. -/
theorem mat_letters_dot {f : Nat} {l d rest : List Char} {cp : Captures} {k : MK}
    {r : Captures × List Char}
    (hl : ∀ c ∈ l, isPL c = true) (hlne : l ≠ [])
    (hd : d = [] ∨ d = ['.'])
    (hrest : ∀ c t, rest = c :: t → isPL c = false ∧ (c == '.') = false)
    (hf : l.length ≤ f + 1)
    (hk : k cp rest = some r) :
    mat f (.cat (REplus ccL) (REopt (.cls (.one '.')))) (l ++ (d ++ rest)) cp k =
      some r := by
  rw [mat_cat]
  simp only [ccL]
  have hbound : ∀ c t, d ++ rest = c :: t → CC.test .letter c = false := by
    intro c t hct
    rcases hd with hd | hd
    · rw [hd, List.nil_append] at hct
      exact (hrest c t hct).1
    · rw [hd] at hct
      injection hct with h1 _
      rw [← h1]
      decide
  apply mat_plus_cls_exact (fun c hc => show CC.test .letter c = true from hl c hc)
    hlne hbound hf
  show mat f (REopt (.cls (.one '.'))) (d ++ rest) cp k = some r
  rcases hd with hd | hd
  · rw [hd, List.nil_append,
      mat_opt_skip (mat_cls_fail (fun c t hct =>
        show CC.test (.one '.') c = false from (hrest c t hct).2))]
    exact hk
  · rw [hd]
    apply mat_opt_some
    rw [List.cons_append, mat_cls_of_test (by decide : CC.test (.one '.') '.' = true)]
    exact hk

theorem mat_letters_dot_fail {f : Nat} {cs : List Char} {cp : Captures} {k : MK}
    (h : ∀ c t, cs = c :: t → isPL c = false) :
    mat f (.cat (REplus ccL) (REopt (.cls (.one '.')))) cs cp k = none := by
  rw [mat_cat]
  simp only [ccL]
  exact mat_plus_cls_fail (fun c t hct => h c t hct)

/-- `I{1,4}` consumes exactly a maximal run of at most four `I`s when the
next character is not an `I`. -/
theorem mat_i14_exact {f : Nat} {j : Nat} {rest : List Char} {cp : Captures} {k : MK}
    {r : Captures × List Char}
    (h1 : 1 ≤ j) (h4 : j ≤ 4)
    (hrest : ∀ c t, rest = c :: t → (c == 'I') = false)
    (hk : k cp rest = some r) :
    mat f i14 (List.replicate j 'I' ++ rest) cp k = some r := by
  have hI : CC.test (.one 'I') 'I' = true := by decide
  have hfail : ∀ (b : RE), mat f (.cat (.cls (.one 'I')) b) rest cp k = none :=
    fun b => mat_cat_cls_fail (fun c t hct => hrest c t hct)
  have hfail1 : mat f (.cls (.one 'I')) rest cp k = none :=
    mat_cls_fail (fun c t hct => hrest c t hct)
  match j, h1, h4 with
  | 1, _, _ =>
    rw [show List.replicate 1 'I' ++ rest = 'I' :: rest from rfl, i14, mat_cat,
      mat_cls_of_test hI]
    show mat f (REopt _) rest cp k = some r
    rw [mat_opt_skip (hfail _)]
    exact hk
  | 2, _, _ =>
    rw [show List.replicate 2 'I' ++ rest = 'I' :: 'I' :: rest from rfl, i14, mat_cat,
      mat_cls_of_test hI]
    show mat f (REopt (.cat (.cls (.one 'I')) _)) ('I' :: rest) cp k = some r
    apply mat_opt_some
    rw [mat_cat, mat_cls_of_test hI]
    show mat f (REopt _) rest cp k = some r
    rw [mat_opt_skip (hfail _)]
    exact hk
  | 3, _, _ =>
    rw [show List.replicate 3 'I' ++ rest = 'I' :: 'I' :: 'I' :: rest from rfl, i14,
      mat_cat, mat_cls_of_test hI]
    show mat f (REopt (.cat (.cls (.one 'I')) _)) ('I' :: 'I' :: rest) cp k = some r
    apply mat_opt_some
    rw [mat_cat, mat_cls_of_test hI]
    show mat f (REopt (.cat (.cls (.one 'I')) _)) ('I' :: rest) cp k = some r
    apply mat_opt_some
    rw [mat_cat, mat_cls_of_test hI]
    show mat f (REopt (.cls (.one 'I'))) rest cp k = some r
    rw [mat_opt_skip hfail1]
    exact hk
  | 4, _, _ =>
    rw [show List.replicate 4 'I' ++ rest = 'I' :: 'I' :: 'I' :: 'I' :: rest from rfl,
      i14, mat_cat, mat_cls_of_test hI]
    show mat f (REopt (.cat (.cls (.one 'I')) _)) ('I' :: 'I' :: 'I' :: rest) cp k =
      some r
    apply mat_opt_some
    rw [mat_cat, mat_cls_of_test hI]
    show mat f (REopt (.cat (.cls (.one 'I')) _)) ('I' :: 'I' :: rest) cp k = some r
    apply mat_opt_some
    rw [mat_cat, mat_cls_of_test hI]
    show mat f (REopt (.cls (.one 'I'))) ('I' :: rest) cp k = some r
    apply mat_opt_some
    rw [mat_cls_of_test hI]
    exact hk

/-- `I{1,4}` takes four `I`s greedily whatever follows, provided the
continuation then succeeds. -/
theorem mat_i14_four {f : Nat} {rest : List Char} {cp : Captures} {k : MK}
    {r : Captures × List Char} (hk : k cp rest = some r) :
    mat f i14 ('I' :: 'I' :: 'I' :: 'I' :: rest) cp k = some r := by
  have hI : CC.test (.one 'I') 'I' = true := by decide
  rw [i14, mat_cat, mat_cls_of_test hI]
  show mat f (REopt (.cat (.cls (.one 'I')) _)) ('I' :: 'I' :: 'I' :: rest) cp k = some r
  apply mat_opt_some
  rw [mat_cat, mat_cls_of_test hI]
  show mat f (REopt (.cat (.cls (.one 'I')) _)) ('I' :: 'I' :: rest) cp k = some r
  apply mat_opt_some
  rw [mat_cat, mat_cls_of_test hI]
  show mat f (REopt (.cls (.one 'I'))) ('I' :: rest) cp k = some r
  apply mat_opt_some
  rw [mat_cls_of_test hI]
  exact hk

/-- Words matched by `I{1,4}`: a run of one to four `I`s. -/
theorem matches_i14 {u : List Char} (h : Matches i14 u) :
    ∃ j, 1 ≤ j ∧ j ≤ 4 ∧ u = List.replicate j 'I' := by
  have hone : ∀ {w : List Char}, Matches (.cls (.one 'I')) w → w = ['I'] := by
    intro w hw
    obtain ⟨c, hc, hcd⟩ := hw.cls_inv
    have : c = 'I' := eq_of_beq hcd
    rw [hc, this]
  rw [i14] at h
  obtain ⟨u1, v1, he1, h1, hv1⟩ := h.cat_inv
  rw [hone h1] at he1
  rcases hv1.alt_inv with hv1' | hv1'
  · obtain ⟨u2, v2, he2, h2, hv2⟩ := hv1'.cat_inv
    rw [hone h2] at he2
    rcases hv2.alt_inv with hv2' | hv2'
    · obtain ⟨u3, v3, he3, h3, hv3⟩ := hv2'.cat_inv
      rw [hone h3] at he3
      rcases hv3.alt_inv with hv3' | hv3'
      · rw [hone hv3'] at he3
        exact ⟨4, by omega, by omega, by rw [he1, he2, he3]; rfl⟩
      · rw [hv3'.eps_inv] at he3
        exact ⟨3, by omega, by omega, by rw [he1, he2, he3]; rfl⟩
    · rw [hv2'.eps_inv] at he2
      exact ⟨2, by omega, by omega, by rw [he1, he2]; rfl⟩
  · rw [hv1'.eps_inv] at he1
    exact ⟨1, by omega, by omega, by rw [he1]; rfl⟩

/-- Canonical decomposition of a matched book label: optional numeral or
roman prefix with trailing spaces, a non-empty letter run, an optional
dot. -/
theorem matches_bookBody {b : List Char} (h : Matches bookBody b) :
    ∃ p w l d, b = p ++ (w ++ (l ++ d)) ∧
      ((p = [] ∧ w = []) ∨
        ((∃ c, p = [c] ∧ (c = '1' ∨ c = '2' ∨ c = '3' ∨ c = '4')) ∨
         (∃ j, 1 ≤ j ∧ j ≤ 4 ∧ p = List.replicate j 'I')) ∧ (∀ c ∈ w, isWS c = true)) ∧
      l ≠ [] ∧ (∀ c ∈ l, isPL c = true) ∧ (d = [] ∨ d = ['.']) := by
  rw [bookBody] at h
  obtain ⟨u1, u2, he, h1, h2⟩ := h.cat_inv
  obtain ⟨l0, d0, he2, hl0, hd0⟩ := h2.cat_inv
  have hld : ∃ l, l0 = l ∧ l ≠ [] ∧ ∀ c ∈ l, isPL c = true := by
    rw [REplus] at hl0
    obtain ⟨c0, lrun, hle, hc0, hrun⟩ := hl0.cat_inv
    obtain ⟨c, hc, hcd⟩ := hc0.cls_inv
    refine ⟨l0, rfl, ?_, ?_⟩
    · rw [hle, hc]
      simp
    · intro x hx
      rw [hle, hc] at hx
      rcases List.mem_cons.1 hx with hx | hx
      · rw [hx]; exact hcd
      · exact hrun.star_inv_aux _ rfl x hx
  obtain ⟨l, hl0e, hlne, hlall⟩ := hld
  have hdd : d0 = [] ∨ d0 = ['.'] := by
    rcases hd0.alt_inv with hd | hd
    · obtain ⟨c, hc, hcd⟩ := hd.cls_inv
      right
      rw [hc, eq_of_beq hcd]
    · exact Or.inl hd.eps_inv
  rcases h1.alt_inv with h1' | h1'
  · obtain ⟨p, w, he1, hp, hw⟩ := h1'.cat_inv
    have hwall := hw.star_inv_aux CC.space rfl
    refine ⟨p, w, l, d0, ?_, ?_, hlne, hlall, hdd⟩
    · rw [he, he1, he2, hl0e]
      simp
    · refine Or.inr ⟨?_, hwall⟩
      rcases hp.alt_inv with hp' | hp'
      · obtain ⟨c, hc, hcd⟩ := hp'.cls_inv
        refine Or.inl ⟨c, hc, ?_⟩
        have h' : c ∈ ['1', '2', '3', '4'] := List.mem_of_elem_eq_true hcd
        simpa using h'
      · exact Or.inr (matches_i14 hp')
  · refine ⟨[], [], l, d0, ?_, Or.inl ⟨rfl, rfl⟩, hlne, hlall, hdd⟩
    rw [he, h1'.eps_inv, he2, hl0e]
    simp

/-- Split a list at its maximal leading run of `I`s. -/
theorem leading_I_split (l : List Char) :
    ∃ m l2, l = List.replicate m 'I' ++ l2 ∧
      (∀ c t, l2 = c :: t → (c == 'I') = false) := by
  induction l with
  | nil => exact ⟨0, [], rfl, fun c t hct => List.noConfusion hct⟩
  | cons c t ih =>
    by_cases hc : c = 'I'
    · obtain ⟨m, l2, he, hh⟩ := ih
      refine ⟨m + 1, l2, ?_, hh⟩
      rw [hc, List.replicate_succ, List.cons_append, ← he]
    · refine ⟨0, c :: t, rfl, ?_⟩
      intro c' t' hct
      injection hct with h1 _
      rw [← h1]
      cases hq : (c == 'I')
      · rfl
      · exact absurd (eq_of_beq hq) hc

/-- Backtracking of `I{1,4}` on a pure `I`-run of two to four characters whose
continuation fails right after the run: the engine falls back to leaving the
last `I` unconsumed. -/
theorem mat_i14_back {f : Nat} {M : Nat} {tail : List Char} {cp : Captures} {k : MK}
    {r : Captures × List Char}
    (h2 : 2 ≤ M) (h4 : M ≤ 4)
    (htail : ∀ c t, tail = c :: t → (c == 'I') = false)
    (hfail : k cp tail = none)
    (hk : k cp ('I' :: tail) = some r) :
    mat f i14 (List.replicate M 'I' ++ tail) cp k = some r := by
  have hI : CC.test (.one 'I') 'I' = true := by decide
  have hcf : ∀ (b : RE), mat f (.cat (.cls (.one 'I')) b) tail cp k = none :=
    fun b => mat_cat_cls_fail (fun c t hct => htail c t hct)
  have hclsf : mat f (.cls (.one 'I')) tail cp k = none :=
    mat_cls_fail (fun c t hct => htail c t hct)
  match M, h2, h4 with
  | 2, _, _ =>
    rw [show List.replicate 2 'I' ++ tail = 'I' :: 'I' :: tail from rfl, i14, mat_cat,
      mat_cls_of_test hI]
    show mat f (REopt (.cat (.cls (.one 'I')) _)) ('I' :: tail) cp k = some r
    have hbody : mat f (.cat (.cls (.one 'I'))
        (REopt (.cat (.cls (.one 'I')) (REopt (.cls (.one 'I')))))) ('I' :: tail) cp k =
        none := by
      rw [mat_cat, mat_cls_of_test hI]
      show mat f (REopt (.cat (.cls (.one 'I')) _)) tail cp k = none
      rw [mat_opt_skip (hcf _)]
      exact hfail
    rw [mat_opt_skip hbody]
    exact hk
  | 3, _, _ =>
    rw [show List.replicate 3 'I' ++ tail = 'I' :: 'I' :: 'I' :: tail from rfl, i14,
      mat_cat, mat_cls_of_test hI]
    show mat f (REopt (.cat (.cls (.one 'I')) _)) ('I' :: 'I' :: tail) cp k = some r
    apply mat_opt_some
    rw [mat_cat, mat_cls_of_test hI]
    show mat f (REopt (.cat (.cls (.one 'I')) (REopt (.cls (.one 'I')))))
      ('I' :: tail) cp k = some r
    have hbody : mat f (.cat (.cls (.one 'I')) (REopt (.cls (.one 'I'))))
        ('I' :: tail) cp k = none := by
      rw [mat_cat, mat_cls_of_test hI]
      show mat f (REopt (.cls (.one 'I'))) tail cp k = none
      rw [mat_opt_skip hclsf]
      exact hfail
    rw [mat_opt_skip hbody]
    exact hk
  | 4, _, _ =>
    rw [show List.replicate 4 'I' ++ tail = 'I' :: 'I' :: 'I' :: 'I' :: tail from rfl,
      i14, mat_cat, mat_cls_of_test hI]
    show mat f (REopt (.cat (.cls (.one 'I')) _)) ('I' :: 'I' :: 'I' :: tail) cp k =
      some r
    apply mat_opt_some
    rw [mat_cat, mat_cls_of_test hI]
    show mat f (REopt (.cat (.cls (.one 'I')) (REopt (.cls (.one 'I')))))
      ('I' :: 'I' :: tail) cp k = some r
    apply mat_opt_some
    rw [mat_cat, mat_cls_of_test hI]
    show mat f (REopt (.cls (.one 'I'))) ('I' :: tail) cp k = some r
    have hbody : mat f (.cls (.one 'I')) ('I' :: tail) cp k = none := by
      rw [mat_cls_of_test hI]
      exact hfail
    rw [mat_opt_skip hbody]
    exact hk

/-- Re-matching a book label: on any word matched by the book body followed
by a space and a digit-initial remainder, the matcher consumes exactly the
word. -/
theorem mat_bookBody_render {b ds : List Char} (hb : Matches bookBody b)
    (hds : ∀ c t, ds = c :: t → c.isDigit = true)
    {f : Nat} {cp : Captures} {k : MK} {r : Captures × List Char}
    (hf : b.length + 2 ≤ f)
    (hk : k cp (' ' :: ds) = some r) :
    mat f bookBody (b ++ ' ' :: ds) cp k = some r := by
  obtain ⟨p, w, l, d, hsplit, hpw, hlne, hlall, hd⟩ := matches_bookBody hb
  have hrest : ∀ c t, ' ' :: ds = c :: t → isPL c = false ∧ (c == '.') = false := by
    intro c t hct
    injection hct with h1 _
    rw [← h1]
    exact ⟨by decide, by decide⟩
  have hdsl : ∀ c t, ds = c :: t → isPL c = false :=
    fun c t hct => test_letter_of_digit (hds c t hct)
  have hTail : ∀ (l' : List Char), l' ≠ [] → (∀ c ∈ l', isPL c = true) →
      l'.length ≤ f + 1 →
      mat f (.cat (REplus ccL) (REopt (.cls (.one '.')))) (l' ++ (d ++ (' ' :: ds)))
        cp k = some r :=
    fun l' hne hall hlen => mat_letters_dot hall hne hd hrest hlen hk
  have hLDfail : ∀ (x : List Char), (∀ c t, x = c :: t → isPL c = false) →
      mat f (.cat (REplus ccL) (REopt (.cls (.one '.')))) x cp k = none :=
    fun x hx => mat_letters_dot_fail hx
  have hK1fail : mat f (.star (.cls .space)) (d ++ ' ' :: ds) cp
      (fun cp1 cs1 =>
        mat f (.cat (REplus ccL) (REopt (.cls (.one '.')))) cs1 cp1 k) = none := by
    apply mat_star_cls_none
    intro u v huv hu
    rcases hd with hd0 | hd0
    · rw [hd0, List.nil_append] at huv
      cases u with
      | nil =>
        rw [List.nil_append] at huv
        rw [← huv]
        exact hLDfail _ (fun c t hct => (hrest c t hct).1)
      | cons a u' =>
        rw [List.cons_append] at huv
        injection huv with h1 h2
        cases u' with
        | nil =>
          rw [List.nil_append] at h2
          rw [← h2]
          exact hLDfail _ hdsl
        | cons a2 u'' =>
          rw [List.cons_append] at h2
          have hdig := hds a2 _ h2
          have hns : isWS a2 = false := test_space_of_digit hdig
          have hsp : isWS a2 = true := hu a2 (by simp)
          rw [hns] at hsp
          exact absurd hsp (by decide)
    · rw [hd0] at huv
      cases u with
      | nil =>
        rw [List.nil_append] at huv
        rw [← huv]
        refine hLDfail _ ?_
        intro c t hct
        rw [List.cons_append] at hct
        injection hct with h1 _
        rw [← h1]
        decide
      | cons a u' =>
        rw [List.cons_append, List.cons_append] at huv
        injection huv with h1 _
        have hsp : isWS a = true := hu a (by simp)
        rw [← h1] at hsp
        exact absurd hsp (by decide)
  have hIcase : ∀ (M : Nat) (l2 : List Char), 1 ≤ M →
      (∀ c t, l2 = c :: t → (c == 'I') = false) →
      (∀ x ∈ l2, isPL x = true) →
      b = List.replicate M 'I' ++ (l2 ++ d) →
      mat f bookBody (b ++ ' ' :: ds) cp k = some r := by
    intro M l2 hM hl2h hl2all hbe
    have hlenb : b.length = M + (l2.length + d.length) := by
      rw [hbe]
      simp
    have hre : b ++ ' ' :: ds = List.replicate M 'I' ++ (l2 ++ (d ++ ' ' :: ds)) := by
      rw [hbe]
      simp
    rw [hre, bookBody, mat_cat]
    have hamong : ∀ c t, List.replicate M 'I' ++ (l2 ++ (d ++ ' ' :: ds)) = c :: t →
        CC.test (.among ['1', '2', '3', '4']) c = false := by
      intro c t hct
      match M, hM with
      | m' + 1, _ =>
        rw [List.replicate_succ, List.cons_append] at hct
        injection hct with h1 _
        rw [← h1]
        decide
    have hdstop : ∀ c t, d ++ ' ' :: ds = c :: t → (c == 'I') = false := by
      intro c t hct
      rcases hd with hd0 | hd0
      · rw [hd0, List.nil_append] at hct
        injection hct with h1 _
        rw [← h1]
        decide
      · rw [hd0, List.cons_append] at hct
        injection hct with h1 _
        rw [← h1]
        decide
    by_cases hM5 : 5 ≤ M
    · -- at least five `I`s: four for the prefix, the rest are letters
      obtain ⟨M2, rfl⟩ : ∃ M2, M = M2 + 5 := ⟨M - 5, by omega⟩
      have hre2 : List.replicate (M2 + 5) 'I' ++ (l2 ++ (d ++ ' ' :: ds)) =
          'I' :: 'I' :: 'I' :: 'I' ::
            ('I' :: (List.replicate M2 'I' ++ (l2 ++ (d ++ ' ' :: ds)))) := rfl
      have hlX : ('I' :: (List.replicate M2 'I' ++ l2)) ++ (d ++ ' ' :: ds) =
          'I' :: (List.replicate M2 'I' ++ (l2 ++ (d ++ ' ' :: ds))) := by
        simp
      rw [hre2]
      apply mat_opt_some
      rw [mat_cat, mat_alt_none (mat_cls_fail (fun c t hct => by
        injection hct with h1 _
        rw [← h1]
        decide))]
      apply mat_i14_four
      show mat f (.star ccS)
        ('I' :: (List.replicate M2 'I' ++ (l2 ++ (d ++ ' ' :: ds)))) cp _ = some r
      simp only [ccS]
      show mat f (.star (.cls .space))
        ([] ++ ('I' :: (List.replicate M2 'I' ++ (l2 ++ (d ++ ' ' :: ds))))) cp _ =
        some r
      apply mat_star_cls_exact [] f (by simp) (fun c t hct => by
        injection hct with h1 _
        rw [← h1]
        decide) (by simp)
      show mat f (.cat (REplus ccL) (REopt (.cls (.one '.'))))
        ([] ++ ('I' :: (List.replicate M2 'I' ++ (l2 ++ (d ++ ' ' :: ds))))) cp k =
        some r
      rw [List.nil_append, ← hlX]
      apply hTail ('I' :: (List.replicate M2 'I' ++ l2))
        (fun h => List.noConfusion h)
        (fun x hx => by
          rcases List.mem_cons.1 hx with hx | hx
          · rw [hx]
            decide
          · rcases List.mem_append.1 hx with hx | hx
            · rw [List.eq_of_mem_replicate hx]
              decide
            · exact hl2all x hx)
      show ('I' :: (List.replicate M2 'I' ++ l2)).length ≤ f + 1
      simp only [List.length_cons, List.length_append, List.length_replicate]
      omega
    · -- a run of at most four `I`s
      by_cases hl2 : l2 = []
      · -- no letters after the run: the engine backtracks by one `I`
        subst hl2
        show mat f (REopt (.cat (.alt (.cls (.among ['1', '2', '3', '4'])) i14)
          (.star ccS))) (List.replicate M 'I' ++ (d ++ ' ' :: ds)) cp
          (fun cp1 cs1 =>
            mat f (.cat (REplus ccL) (REopt (.cls (.one '.')))) cs1 cp1 k) = some r
        by_cases hM1 : M = 1
        · subst hM1
          have hpfail : mat f (.cat (.alt (.cls (.among ['1', '2', '3', '4'])) i14)
              (.star ccS)) (List.replicate 1 'I' ++ (d ++ ' ' :: ds)) cp
              (fun cp1 cs1 =>
                mat f (.cat (REplus ccL) (REopt (.cls (.one '.')))) cs1 cp1 k) =
              none := by
            rw [mat_cat, mat_alt_none (mat_cls_fail (fun c t hct => by
              injection hct with h1 _
              rw [← h1]
              decide))]
            rw [show List.replicate 1 'I' ++ (d ++ ' ' :: ds) =
              'I' :: (d ++ ' ' :: ds) from rfl]
            rw [i14, mat_cat,
              mat_cls_of_test (by decide : CC.test (.one 'I') 'I' = true)]
            show mat f (REopt _) (d ++ ' ' :: ds) cp _ = none
            rw [mat_opt_skip (mat_cat_cls_fail (fun c t hct =>
              show CC.test (.one 'I') c = false from hdstop c t hct))]
            show mat f (.star ccS) (d ++ ' ' :: ds) cp _ = none
            simp only [ccS]
            exact hK1fail
          rw [mat_opt_skip hpfail]
          show mat f (.cat (REplus ccL) (REopt (.cls (.one '.'))))
            (['I'] ++ (d ++ ' ' :: ds)) cp k = some r
          apply hTail ['I'] (fun h => List.noConfusion h)
            (fun x hx => by
              rw [show x = 'I' by simpa using hx]
              decide)
          show (['I'] : List Char).length ≤ f + 1
          show (1 : Nat) ≤ f + 1
          omega
        · -- two to four `I`s
          apply mat_opt_some
          rw [mat_cat, mat_alt_none (mat_cls_fail (fun c t hct => hamong c t (by
            simp only [List.nil_append]
            exact hct)))]
          apply mat_i14_back (by omega) (by omega) hdstop
          · show mat f (.star ccS) (d ++ ' ' :: ds) cp _ = none
            simp only [ccS]
            exact hK1fail
          · show mat f (.star ccS) ('I' :: (d ++ ' ' :: ds)) cp _ = some r
            simp only [ccS]
            show mat f (.star (.cls .space)) ([] ++ ('I' :: (d ++ ' ' :: ds))) cp _ =
              some r
            apply mat_star_cls_exact [] f (by simp) (fun c t hct => by
              injection hct with h1 _
              rw [← h1]
              decide) (by simp)
            show mat f (.cat (REplus ccL) (REopt (.cls (.one '.'))))
              (['I'] ++ (d ++ ' ' :: ds)) cp k = some r
            apply hTail ['I'] (fun h => List.noConfusion h)
              (fun x hx => by
                rw [show x = 'I' by simpa using hx]
                decide)
            show (1 : Nat) ≤ f + 1
            omega
      · -- a non-`I` letter follows the run
        apply mat_opt_some
        rw [mat_cat, mat_alt_none (mat_cls_fail hamong)]
        have hl2c : ∀ c t, l2 ++ (d ++ ' ' :: ds) = c :: t → (c == 'I') = false := by
          intro c t hct
          match l2, hl2 with
          | c2 :: t2, _ =>
            rw [List.cons_append] at hct
            injection hct with h1 _
            rw [← h1]
            exact hl2h c2 t2 rfl
        apply mat_i14_exact hM (by omega) hl2c
        show mat f (.star ccS) (l2 ++ (d ++ ' ' :: ds)) cp _ = some r
        simp only [ccS]
        show mat f (.star (.cls .space)) ([] ++ (l2 ++ (d ++ ' ' :: ds))) cp _ = some r
        apply mat_star_cls_exact [] f (by simp) (fun c t hct => by
          match l2, hl2 with
          | c2 :: t2, _ =>
            rw [List.cons_append] at hct
            injection hct with h1 _
            rw [← h1]
            exact test_space_of_letter (hl2all c2 (by simp))) (by simp)
        show mat f (.cat (REplus ccL) (REopt (.cls (.one '.'))))
          (l2 ++ ([] ++ (d ++ ' ' :: ds))) cp k = some r
        rw [List.nil_append]
        apply hTail l2 hl2 hl2all
        omega
  have hlb : b.length = p.length + (w.length + (l.length + d.length)) := by
    rw [hsplit]
    simp
  rcases hpw with ⟨hp0, hw0⟩ | ⟨hpf, hwall⟩
  · -- no prefix: letters and an optional dot
    subst hp0 hw0
    rw [List.nil_append, List.nil_append] at hsplit
    obtain ⟨m, l2, hle, hl2h⟩ := leading_I_split l
    by_cases hm : m = 0
    · subst hm
      rw [List.replicate_zero, List.nil_append] at hle
      have hre : b ++ ' ' :: ds = l ++ (d ++ ' ' :: ds) := by
        rw [hsplit]
        simp
      rw [hre, bookBody, mat_cat]
      have hheadI : ∀ c t, l ++ (d ++ ' ' :: ds) = c :: t →
          CC.test (.one 'I') c = false := by
        intro c t hct
        match l, hlne, hle with
        | c2 :: t2, _, hle =>
          rw [List.cons_append] at hct
          injection hct with h1 _
          rw [← h1]
          exact hl2h c2 t2 hle.symm
      have hheadAm : ∀ c t, l ++ (d ++ ' ' :: ds) = c :: t →
          CC.test (.among ['1', '2', '3', '4']) c = false := by
        intro c t hct
        match l, hlne with
        | c2 :: t2, _ =>
          rw [List.cons_append] at hct
          injection hct with h1 _
          rw [← h1]
          exact test_among1234_of_letter (hlall c2 (by simp))
      have hpfail : mat f (.cat (.alt (.cls (.among ['1', '2', '3', '4'])) i14)
          (.star ccS)) (l ++ (d ++ ' ' :: ds)) cp
          (fun cp1 cs1 =>
            mat f (.cat (REplus ccL) (REopt (.cls (.one '.')))) cs1 cp1 k) = none := by
        rw [mat_cat, mat_alt_none (mat_cls_fail hheadAm), i14]
        exact mat_cat_cls_fail hheadI
      rw [mat_opt_skip hpfail]
      show mat f (.cat (REplus ccL) (REopt (.cls (.one '.'))))
        (l ++ (d ++ ' ' :: ds)) cp k = some r
      apply hTail l hlne hlall
      simp only [List.length_nil] at hlb
      omega
    · exact hIcase m l2 (by omega) hl2h
        (fun x hx => hlall x (by rw [hle]; exact List.mem_append_right _ hx))
        (by rw [hsplit, hle]; simp)
  · rcases hpf with ⟨c, hpc, hc4⟩ | ⟨j, hj1, hj4, hpj⟩
    · -- numeral prefix
      subst hpc
      have hre : b ++ ' ' :: ds = c :: (w ++ (l ++ (d ++ ' ' :: ds))) := by
        rw [hsplit]
        simp
      rw [hre, bookBody, mat_cat]
      apply mat_opt_some
      rw [mat_cat]
      apply mat_alt_some
      have htest : CC.test (.among ['1', '2', '3', '4']) c = true := by
        rcases hc4 with h | h | h | h <;> rw [h] <;> decide
      rw [mat_cls_of_test htest]
      show mat f (.star ccS) (w ++ (l ++ (d ++ ' ' :: ds))) cp _ = some r
      simp only [ccS]
      apply mat_star_cls_exact w f
        (fun x hx => show CC.test CC.space x = true from hwall x hx) (fun c' t hct => by
        match l, hlne with
        | c2 :: t2, _ =>
          rw [List.cons_append] at hct
          injection hct with h1 _
          rw [← h1]
          exact test_space_of_letter (hlall c2 (by simp))) (by
            simp only [List.length_cons, List.length_nil] at hlb
            omega)
      show mat f (.cat (REplus ccL) (REopt (.cls (.one '.'))))
        (l ++ (d ++ ' ' :: ds)) cp k = some r
      apply hTail l hlne hlall
      simp only [List.length_cons, List.length_nil] at hlb
      omega
    · -- roman prefix
      subst hpj
      by_cases hw : w = []
      · subst hw
        rw [List.nil_append] at hsplit
        obtain ⟨m, l2, hle, hl2h⟩ := leading_I_split l
        exact hIcase (j + m) l2 (by omega) hl2h
          (fun x hx => hlall x (by rw [hle]; exact List.mem_append_right _ hx))
          (by rw [hsplit, hle, List.replicate_add]; simp only [List.append_assoc])
      · have hre : b ++ ' ' :: ds =
            List.replicate j 'I' ++ (w ++ (l ++ (d ++ ' ' :: ds))) := by
          rw [hsplit]
          simp
        rw [hre, bookBody, mat_cat]
        apply mat_opt_some
        rw [mat_cat]
        rw [mat_alt_none (mat_cls_fail (fun c t hct => by
          match j, hj1 with
          | j' + 1, _ =>
            rw [List.replicate_succ, List.cons_append] at hct
            injection hct with h1 _
            rw [← h1]
            decide))]
        apply mat_i14_exact hj1 hj4 (fun c t hct => by
          match w, hw with
          | c2 :: t2, _ =>
            rw [List.cons_append] at hct
            injection hct with h1 _
            rw [← h1]
            exact test_I_of_space (hwall c2 (by simp)))
        show mat f (.star ccS) (w ++ (l ++ (d ++ ' ' :: ds))) cp _ = some r
        simp only [ccS]
        apply mat_star_cls_exact w f
          (fun x hx => show CC.test CC.space x = true from hwall x hx)
          (fun c' t hct => by
          match l, hlne with
          | c2 :: t2, _ =>
            rw [List.cons_append] at hct
            injection hct with h1 _
            rw [← h1]
            exact test_space_of_letter (hlall c2 (by simp))) (by
            simp only [List.length_replicate] at hlb
            omega)
        show mat f (.cat (REplus ccL) (REopt (.cls (.one '.'))))
          (l ++ (d ++ ' ' :: ds)) cp k = some r
        apply hTail l hlne hlall
        simp only [List.length_replicate] at hlb
        omega

/-! ## Explicit capture states for a rendered reference -/

/-- The notation values `(start, next, end)` whose rendering and expansion
reproduce a shaped list. -/
def notationOf : List Nat → Nat × Option Nat × Option Nat
  | [] => (0, none, none)
  | [a] => (a, none, none)
  | [a, b] => (a, some b, none)
  | a :: b :: c :: t =>
      if a :: b :: c :: t = rangeIncl a (a + (a :: b :: c :: t).length - 1) then
        (a, none, some (a + (a :: b :: c :: t).length - 1))
      else
        (a, some ((a :: b :: c :: t).getLast (by simp)),
          some (a + (a :: b :: c :: t).length - 2))

theorem notationOf_cons3 (a b c : Nat) (t : List Nat) :
    notationOf (a :: b :: c :: t) =
      if a :: b :: c :: t = rangeIncl a (a + (a :: b :: c :: t).length - 1) then
        (a, none, some (a + (a :: b :: c :: t).length - 1))
      else
        (a, some ((a :: b :: c :: t).getLast (by simp)),
          some (a + (a :: b :: c :: t).length - 2)) := rfl

/-- `notationOf` satisfies the decomposition property of a shaped list. -/
theorem notationOf_spec {L : List Nat} (hne : L ≠ [])
    (hall : ∀ c ∈ L, c < 256) (hshape : RunShape L) :
    renderNums L = renderChN (notationOf L).1 (notationOf L).2.1 (notationOf L).2.2 ∧
    chExp (notationOf L).1 (notationOf L).2.1 (notationOf L).2.2 = L ∧
    L.head? = some (notationOf L).1 ∧ (notationOf L).1 < 256 ∧
    OptLT256 (notationOf L).2.1 ∧ OptLT256 (notationOf L).2.2 := by
  match L, hne with
  | [a], _ =>
    refine ⟨?_, rfl, rfl, hall a (by simp), ?_, ?_⟩
    · simp [renderNums, notationOf, renderChN, renderSuf]
    · intro x hx; cases hx
    · intro x hx; cases hx
  | [a, b], _ =>
    refine ⟨?_, rfl, rfl, hall a (by simp), ?_, ?_⟩
    · simp [renderNums, notationOf, renderChN, renderSuf]
    · intro x hx
      have : b = x := congrArg (fun o => o.getD 0) hx
      rw [← this]
      exact hall b (by simp)
    · intro x hx; cases hx
  | a :: b :: c :: t, _ =>
    have hlen : 3 ≤ (a :: b :: c :: t).length := by simp
    by_cases hrun : a :: b :: c :: t = rangeIncl a (a + (a :: b :: c :: t).length - 1)
    · rw [notationOf_cons3, if_pos hrun]
      refine ⟨?_, hrun.symm, rfl, hall a (by simp), ?_, ?_⟩
      · rw [renderNums_cons3, if_pos hrun]
        simp [renderChN, renderSuf]
      · intro x hx; cases hx
      · intro x hx
        cases hx
        apply hall
        have hmem : a + (a :: b :: c :: t).length - 1 ∈
            rangeIncl a (a + (a :: b :: c :: t).length - 1) :=
          self_mem_rangeIncl (by omega)
        rw [← hrun] at hmem
        exact hmem
    · have hdrop : (a :: b :: c :: t).dropLast =
          rangeIncl a (a + (a :: b :: c :: t).length - 2) := by
        rcases hshape hlen a (b :: c :: t) rfl with h | h
        · exact absurd h hrun
        · exact h
      rw [notationOf_cons3, if_neg hrun]
      refine ⟨?_, ?_, rfl, hall a (by simp), ?_, ?_⟩
      · rw [renderNums_cons3, if_neg hrun]
        simp [renderChN, renderSuf]
      · show rangeIncl a (a + (a :: b :: c :: t).length - 2) ++
            [(a :: b :: c :: t).getLast (by simp)] = a :: b :: c :: t
        rw [← hdrop]
        exact List.dropLast_append_getLast (by simp)
      · intro x hx
        cases hx
        exact hall _ (List.getLast_mem (by simp))
      · intro x hx
        cases hx
        apply hall
        have hmem : a + (a :: b :: c :: t).length - 2 ∈
            rangeIncl a (a + (a :: b :: c :: t).length - 2) :=
          self_mem_rangeIncl (by omega)
        rw [← hdrop] at hmem
        exact List.dropLast_subset _ hmem

/-- `notationOf_spec` with the components named. -/
theorem notationOf_spec2 {L : List Nat} (hne : L ≠ [])
    (hall : ∀ c ∈ L, c < 256) (hshape : RunShape L)
    {s : Nat} {next end' : Option Nat} (h : notationOf L = (s, next, end')) :
    renderNums L = renderChN s next end' ∧ chExp s next end' = L ∧
    L.head? = some s ∧ s < 256 ∧ OptLT256 next ∧ OptLT256 end' := by
  have spec := notationOf_spec hne hall hshape
  rw [h] at spec
  exact spec

/-- The verse notation of a location. -/
def vNotOf (loc : VerseLocation) : Option (Nat × Option Nat × Option Nat) :=
  match loc.verses with
  | none => none
  | some vs => some (notationOf vs)

/-- The capture slots left after consuming one rendered location. -/
def locCaps (cp : Captures) (loc : VerseLocation) : Captures :=
  setVCaps
    (setChCaps cp (notationOf loc.chapters).1 (notationOf loc.chapters).2.1
      (notationOf loc.chapters).2.2)
    (vNotOf loc)

/-- The capture slots left after consuming a whole rendered location list. -/
def locsCaps : Captures → List VerseLocation → Captures
  | cp, [] => cp
  | cp, l :: ls => locsCaps (locCaps cp l) ls

theorem locCaps_get_other (cp : Captures) (loc : VerseLocation) (g : GroupName)
    (hg : g = .gBook ∨ g = .gLocations) :
    (locCaps cp loc).get g = cp.get g := by
  rw [locCaps, setVCaps_get_other _ _ _ (hg.imp id Or.inl),
    setChCaps_get_other _ _ _ _ _ (hg.imp id Or.inl)]

theorem locsCaps_get_other :
    ∀ (locs : List VerseLocation) (cp : Captures) (g : GroupName),
      (g = .gBook ∨ g = .gLocations) → (locsCaps cp locs).get g = cp.get g := by
  intro locs
  induction locs with
  | nil => intro cp g _; rfl
  | cons l ls ih =>
    intro cp g hg
    show (locsCaps (locCaps cp l) ls).get g = cp.get g
    rw [ih (locCaps cp l) g hg, locCaps_get_other cp l g hg]

/-- As `mat_render_loc`, with the final capture slots made explicit. -/
theorem mat_render_loc_caps {loc : VerseLocation} {tail : List Char}
    (hcne : loc.chapters ≠ [])
    (hcall : ∀ c ∈ loc.chapters, c < 256)
    (hhead : ∀ a t, loc.chapters = a :: t → a ≤ 199)
    (hcshape : RunShape loc.chapters)
    (hvne : loc.verses ≠ some [])
    (hvall : ∀ vs, loc.verses = some vs → ∀ c ∈ vs, c < 256)
    (hvshape : ∀ vs, loc.verses = some vs → RunShape vs)
    (hstop : LocStop tail)
    {f : Nat} {cp : Captures} {k : MK} {r : Captures × List Char}
    (hf : (renderLoc loc).length + 2 ≤ f)
    (hk : k (locCaps cp loc) tail = some r) :
    mat f locCore (renderLoc loc ++ tail) cp k = some r := by
  rcases hno : notationOf loc.chapters with ⟨s, next, end'⟩
  obtain ⟨hrend, hexp, hhd, hs256, hN, hE⟩ := notationOf_spec2 hcne hcall hcshape hno
  have hs199 : s ≤ 199 := by
    cases hcp : loc.chapters with
    | nil => exact absurd hcp hcne
    | cons a t =>
      rw [hcp] at hhd
      simp at hhd
      rw [← hhd]
      exact hhead a t hcp
  have hlc : locCaps cp loc = setVCaps (setChCaps cp s next end') (vNotOf loc) := by
    rw [locCaps, hno]
  rw [hlc] at hk
  cases hv : loc.verses with
  | none =>
    have hvn : vNotOf loc = none := by rw [vNotOf, hv]
    rw [hvn] at hk
    have hre : renderLoc loc ++ tail = renderChN s next end' ++ tail := by
      simp [renderLoc, hv, hrend]
    have hlen : (renderLoc loc).length = (renderChN s next end').length := by
      simp [renderLoc, hv, hrend]
    rw [hre]
    show mat f (.cat (.grp .gChapter chapterToken) (.cat chSuffix (.cat vGroup vSuffix)))
      (renderChN s next end' ++ tail) cp k = some r
    apply mat_chPart hs256 hs199 hN hE hstop.1 (by omega)
    show mat f (.cat vGroup vSuffix) (renderV none ++ tail)
      (setChCaps cp s next end') k = some r
    apply mat_vPart (fun v nx e h => Option.noConfusion h) hstop (by simp [renderV]; omega)
    exact hk
  | some vs =>
    have hvsne : vs ≠ [] := by
      intro h
      rw [h] at hv
      exact hvne hv
    rcases hvno : notationOf vs with ⟨v, vnx, ve⟩
    obtain ⟨hvrend, hvexp, hvhd, hv256, hvN, hvE⟩ :=
      notationOf_spec2 hvsne (hvall vs hv) (hvshape vs hv) hvno
    have hvn : vNotOf loc = some (v, vnx, ve) := by
      simp only [vNotOf, hv, hvno]
    rw [hvn] at hk
    have hre : renderLoc loc ++ tail =
        renderChN s next end' ++ (renderV (some (v, vnx, ve)) ++ tail) := by
      simp [renderLoc, hv, hrend, hvrend, renderV, renderChN]
    have hlen := congrArg List.length hre
    simp only [List.length_append] at hlen
    have hstop' : SufStop (renderV (some (v, vnx, ve)) ++ tail) := by
      intro c t hct
      rw [renderV, List.cons_append] at hct
      cases hct
      refine ⟨by decide, by decide, by decide⟩
    rw [hre]
    show mat f (.cat (.grp .gChapter chapterToken) (.cat chSuffix (.cat vGroup vSuffix)))
      (renderChN s next end' ++ (renderV (some (v, vnx, ve)) ++ tail)) cp k = some r
    apply mat_chPart hs256 hs199 hN hE hstop' (by omega)
    show mat f (.cat vGroup vSuffix) (renderV (some (v, vnx, ve)) ++ tail)
      (setChCaps cp s next end') k = some r
    apply mat_vPart ?_ hstop (by omega)
    · exact hk
    · intro v' nx' e' h
      cases h
      exact ⟨hv256, hvN, hvE⟩

/-- The locations body with explicit final capture slots. -/
theorem mat_star_locUnit_caps :
    ∀ (locs : List VerseLocation), (∀ loc ∈ locs, GoodLoc loc) →
      ∀ (f : Nat) (cp : Captures) (k : MK) (r : Captures × List Char),
      k (locsCaps cp locs) [] = some r →
      (((renderLocs locs).length + 3 ≤ f →
        mat f (.star (.cat locCore (REopt ccS))) (renderLocs locs) cp k = some r) ∧
       (locs ≠ [] → (renderLocs locs).length + 2 ≤ f →
        mat f (.cat (.cat locCore (REopt ccS)) (.star (.cat locCore (REopt ccS))))
          (renderLocs locs) cp k = some r)) := by
  intro locs
  induction locs with
  | nil =>
    intro _ f cp k r hk
    refine ⟨fun _ => ?_, fun hne => absurd rfl hne⟩
    show mat f (.star (.cat locCore (REopt ccS))) [] cp k = some r
    cases f with
    | zero =>
      rw [mat_star_zero]
      exact hk
    | succ f' =>
      rw [mat_star_succ]
      have hb : mat f' (.cat locCore (REopt ccS)) [] cp
          (fun cp1 cs1 => mat f' (.star (.cat locCore (REopt ccS))) cs1 cp1 k) = none := by
        rw [mat_cat]
        exact mat_locCore_fail (fun c t h => by simp at h)
      rw [hb]
      exact hk
  | cons loc rest ih =>
    intro hgood
    have ihr := ih (fun l hl => hgood l (List.mem_cons_of_mem _ hl))
    obtain ⟨hcne, hcall, hhead, hcshape, hvne, hvall, hvshape⟩ :=
      hgood loc (List.mem_cons_self _ _)
    have hlp : 0 < (renderLoc loc).length :=
      List.length_pos.2 (renderLoc_ne_nil hcne hcall)
    have catP : ∀ (f : Nat) (cp : Captures) (k : MK) (r : Captures × List Char),
        k (locsCaps cp (loc :: rest)) [] = some r →
        (renderLocs (loc :: rest)).length + 2 ≤ f →
        mat f (.cat (.cat locCore (REopt ccS)) (.star (.cat locCore (REopt ccS))))
          (renderLocs (loc :: rest)) cp k = some r := by
      intro f cp k r hk hf
      rw [mat_cat, mat_cat]
      cases rest with
      | nil =>
        have hstop : LocStop ([] : List Char) :=
          ⟨fun c t hct => List.noConfusion hct, fun c t hct => List.noConfusion hct⟩
        rw [show renderLocs [loc] = renderLoc loc ++ [] from (List.append_nil _).symm]
        apply mat_render_loc_caps hcne hcall hhead hcshape hvne hvall hvshape hstop ?_ ?_
        · have : (renderLocs [loc]).length = (renderLoc loc).length := rfl
          omega
        · show mat f (REopt ccS) [] (locCaps cp loc) _ = some r
          simp only [ccS]
          rw [mat_opt_skip (mat_cls_fail (fun c t h => List.noConfusion h))]
          show mat f (.star (.cat locCore (REopt ccS))) [] (locCaps cp loc) k = some r
          have hcc : (renderLocs [loc]).length = (renderLoc loc).length := rfl
          exact (ihr f (locCaps cp loc) k r hk).1 (by show (0 : Nat) + 3 ≤ f; omega)
      | cons l2 t =>
        have hstop : LocStop (' ' :: renderLocs (l2 :: t)) := by
          refine ⟨?_, ?_⟩
          · intro c t' hct
            injection hct with h1 _
            rw [← h1]
            exact ⟨by decide, by decide, by decide⟩
          · intro c t' hct
            injection hct with h1 _
            rw [← h1]
            decide
        have hlen : (renderLocs (loc :: l2 :: t)).length =
            (renderLoc loc).length + 1 + (renderLocs (l2 :: t)).length := by
          show (renderLoc loc ++ ' ' :: renderLocs (l2 :: t)).length = _
          simp
          omega
        rw [show renderLocs (loc :: l2 :: t) =
          renderLoc loc ++ ' ' :: renderLocs (l2 :: t) from rfl]
        apply mat_render_loc_caps hcne hcall hhead hcshape hvne hvall hvshape hstop ?_ ?_
        · omega
        · show mat f (REopt ccS) (' ' :: renderLocs (l2 :: t)) (locCaps cp loc) _ =
            some r
          have hK2 := (ihr f (locCaps cp loc) k r hk).1 (by omega)
          apply mat_opt_some
          simp only [ccS]
          rw [mat_cls_of_test (by decide : CC.test CC.space ' ' = true)]
          exact hK2
    have starP : ∀ (f : Nat) (cp : Captures) (k : MK) (r : Captures × List Char),
        k (locsCaps cp (loc :: rest)) [] = some r →
        (renderLocs (loc :: rest)).length + 3 ≤ f →
        mat f (.star (.cat locCore (REopt ccS))) (renderLocs (loc :: rest)) cp k =
          some r := by
      intro f cp k r hk hf
      match f, hf with
      | f' + 1, hf =>
        rw [mat_star_succ]
        have hb := catP f' cp k r hk (by omega)
        rw [mat_cat] at hb
        rw [hb]
    exact fun f cp k r hk =>
      ⟨fun hf => starP f cp k r hk hf, fun _ hf => catP f cp k r hk hf⟩

/-- The locations body consumes a whole rendered location list, leaving the
explicit capture slots. -/
theorem mat_locBody_caps {locs : List VerseLocation} (hne : locs ≠ [])
    (hgood : ∀ loc ∈ locs, GoodLoc loc) {f : Nat} {cp : Captures} {k : MK}
    {r : Captures × List Char}
    (hf : (renderLocs locs).length + 2 ≤ f)
    (hk : k (locsCaps cp locs) [] = some r) :
    mat f locBody (renderLocs locs) cp k = some r := by
  show mat f (.cat (.cat locCore (REopt ccS)) (.star (.cat locCore (REopt ccS))))
    (renderLocs locs) cp k = some r
  exact (mat_star_locUnit_caps locs hgood f cp k r hk).2 hne hf

theorem natToDigits_head_digit {n : Nat} (h : n < 256) :
    ∀ c t, natToDigits n = c :: t → c.isDigit = true := by
  intro c t hct
  have hall := (natToDigits_shape n h).2.1
  have hc : c ∈ natToDigits n := by
    rw [hct]
    simp
  exact List.all_eq_true.1 hall c hc

theorem renderNums_cons_eq (a : Nat) (t : List Nat) :
    ∃ w, renderNums (a :: t) = natToDigits a ++ w := by
  match t with
  | [] => exact ⟨[], by simp [renderNums]⟩
  | [b] => exact ⟨',' :: natToDigits b, rfl⟩
  | b :: c :: t' =>
    rw [renderNums_cons3]
    by_cases h : a :: b :: c :: t' = rangeIncl a (a + (a :: b :: c :: t').length - 1)
    · rw [if_pos h]
      exact ⟨_, rfl⟩
    · rw [if_neg h]
      exact ⟨_, by rw [List.append_assoc]⟩

/-- A rendered location list starts with a digit. -/
theorem renderLocs_head_digit {locs : List VerseLocation} (hne : locs ≠ [])
    (hgood : ∀ loc ∈ locs, GoodLoc loc) :
    ∀ c t, renderLocs locs = c :: t → c.isDigit = true := by
  intro c t hct
  match locs, hne with
  | loc :: rest, _ =>
    obtain ⟨hcne, hcall, _, _, _, _, _⟩ := hgood loc (by simp)
    have hstart : ∃ w, renderLocs (loc :: rest) = renderLoc loc ++ w := by
      cases rest with
      | nil => exact ⟨[], (List.append_nil _).symm⟩
      | cons l2 t2 => exact ⟨' ' :: renderLocs (l2 :: t2), rfl⟩
    obtain ⟨w, hw⟩ := hstart
    match hch : loc.chapters, hcne with
    | a :: t', _ =>
      obtain ⟨w2, hw2⟩ := renderNums_cons_eq a t'
      have ha : a < 256 := hcall a (by rw [hch]; simp)
      obtain ⟨hne2, _, _⟩ := natToDigits_shape a ha
      match hdg : natToDigits a, hne2 with
      | d0 :: dt, _ =>
        have he : renderLocs (loc :: rest) =
            d0 :: (dt ++ w2 ++
              ((match loc.verses with
                | none => []
                | some vs => ':' :: renderNums vs) ++ w)) := by
          rw [hw, renderLoc, hch, hw2, hdg]
          simp
        rw [he] at hct
        injection hct with h1 _
        rw [← h1]
        exact natToDigits_head_digit ha d0 dt hdg

/-- The final capture slots of a successfully re-matched rendered
reference. -/
def refCaps (b : List Char) (locs : List VerseLocation) : Captures :=
  (locsCaps (Captures.empty.set .gBook b) locs).set .gLocations (renderLocs locs)

/-- Re-matching a rendered reference consumes the whole text. -/
theorem tryMatch_render_ref {b : List Char} {locs : List VerseLocation}
    (hb : Matches bookBody b)
    (hlocsne : locs ≠ []) (hgood : ∀ loc ∈ locs, GoodLoc loc) :
    tryMatch BIBLE_REFERENCE_PATTERN (b ++ ' ' :: renderLocs locs) =
      some (refCaps b locs, []) := by
  have hSlen : (b ++ ' ' :: renderLocs locs).length =
      b.length + 1 + (renderLocs locs).length := by
    simp
    omega
  show mat (fuelFor (b ++ ' ' :: renderLocs locs))
    (.cat (.grp .gBook bookBody) (.cat (.star ccS) (.grp .gLocations locBody)))
    (b ++ ' ' :: renderLocs locs) Captures.empty
    (fun cp rest => some (cp, rest)) = some (refCaps b locs, [])
  rw [mat_cat, mat_grp]
  apply mat_bookBody_render hb (renderLocs_head_digit hlocsne hgood)
    (by rw [fuelFor]; omega)
  show mat (fuelFor (b ++ ' ' :: renderLocs locs))
    (.cat (.star ccS) (.grp .gLocations locBody)) (' ' :: renderLocs locs)
    (Captures.empty.set .gBook
      ((b ++ ' ' :: renderLocs locs).take
        ((b ++ ' ' :: renderLocs locs).length - (' ' :: renderLocs locs).length)))
    (fun cp rest => some (cp, rest)) = some (refCaps b locs, [])
  rw [take_append_length, mat_cat]
  simp only [ccS]
  show mat (fuelFor (b ++ ' ' :: renderLocs locs)) (.star (.cls .space))
    ([' '] ++ renderLocs locs) (Captures.empty.set .gBook b) _ =
    some (refCaps b locs, [])
  apply mat_star_cls_exact [' '] (fuelFor (b ++ ' ' :: renderLocs locs))
    (by intro c hc; rw [show c = ' ' by simpa using hc]; decide)
    (fun c t hct => test_space_of_digit (renderLocs_head_digit hlocsne hgood c t hct))
    (by rw [fuelFor]; simp only [List.length_cons, List.length_nil]; omega)
  show mat (fuelFor (b ++ ' ' :: renderLocs locs)) (.grp .gLocations locBody)
    (renderLocs locs) (Captures.empty.set .gBook b)
    (fun cp rest => some (cp, rest)) = some (refCaps b locs, [])
  rw [mat_grp]
  apply mat_locBody_caps hlocsne hgood (by rw [fuelFor]; omega)
  show some ((locsCaps (Captures.empty.set .gBook b) locs).set .gLocations
    ((renderLocs locs).take ((renderLocs locs).length - ([] : List Char).length)), []) =
    some (refCaps b locs, [])
  rw [show (renderLocs locs).length - ([] : List Char).length =
    (renderLocs locs).length by simp, List.take_length]
  rfl

/-- Parsing a rendered reference yields exactly that reference when the
locations are well-shaped. -/
theorem parseL_render {b : List Char} {locs : List VerseLocation}
    (hb : Matches bookBody b) (hlocsne : locs ≠ []) (hgood : ∀ loc ∈ locs, GoodLoc loc) :
    parseL (b ++ ' ' :: renderLocs locs) = [⟨b, locs⟩] := by
  have htm := tryMatch_render_ref hb hlocsne hgood
  unfold parseL scanAll
  have hlen : (b ++ ' ' :: renderLocs locs).length =
      b.length + 1 + (renderLocs locs).length := by
    simp
    omega
  rw [show (b ++ ' ' :: renderLocs locs).length + 1 =
    ((b ++ ' ' :: renderLocs locs).length) + 1 from rfl]
  simp only [scanFrom, htm]
  rw [show (b ++ ' ' :: renderLocs locs).length - ([] : List Char).length =
    (b ++ ' ' :: renderLocs locs).length by simp]
  rw [if_neg (by omega : ¬(b ++ ' ' :: renderLocs locs).length = 0)]
  rw [scanFrom_eq_nil needsLetter_ref _ _ []
    (fun c hc => absurd hc (List.not_mem_nil c))]
  have hbook : (refCaps b locs).get .gBook = some b := by
    rw [refCaps, Captures.get_set_ne _ (by decide) _,
      locsCaps_get_other _ _ _ (Or.inl rfl), Captures.get_set_same]
  have hlocsget : (refCaps b locs).get .gLocations = some (renderLocs locs) := by
    rw [refCaps, Captures.get_set_same]
  have hmk : mkRef (refCaps b locs) = some ⟨b, locs⟩ := by
    rw [mkRef, hbook, hlocsget]
    simp only [parse_locations_render locs hgood]
  simp only [List.filterMap_cons, hmk, List.filterMap_nil]

/-- What the expander guarantees about every emitted location. -/
theorem mem_parse_locations_facts {cs : List Char} {loc : VerseLocation}
    (h : loc ∈ parse_locations cs) :
    (∀ c ∈ loc.chapters, c < 256) ∧ RunShape loc.chapters ∧
    (∀ vs, loc.verses = some vs → ∀ c ∈ vs, c < 256) ∧
    (∀ vs, loc.verses = some vs → RunShape vs) := by
  unfold parse_locations at h
  obtain ⟨t, ht, hloc⟩ := List.mem_filterMap.1 h
  refine ⟨fun c hc => ?_, (locationOfCaptures_runShape hloc).1,
    fun vs hvs c hc => ?_, (locationOfCaptures_runShape hloc).2⟩
  · have := locationOfCaptures_chapters_le hloc c hc
    omega
  · have := locationOfCaptures_verses_le hloc vs hvs c hc
    omega

/-- What the parse pipeline guarantees about every returned reference. -/
theorem mem_parseL_facts {cs : List Char} {r : BibleReference} (h : r ∈ parseL cs) :
    Matches bookBody r.book ∧
    ∀ loc ∈ r.locations,
      (∀ c ∈ loc.chapters, c < 256) ∧ RunShape loc.chapters ∧
      (∀ vs, loc.verses = some vs → ∀ c ∈ vs, c < 256) ∧
      (∀ vs, loc.verses = some vs → RunShape vs) := by
  unfold parseL at h
  obtain ⟨t, ht, hmk⟩ := List.mem_filterMap.1 h
  obtain ⟨cs', rest, htm⟩ := scanFrom_entry_match _ _ _ t ht
  obtain ⟨b, ws, lcs, hsplit, hbB, hws, hlocsM, hgb, hgl⟩ := tryMatch_ref_struct htm
  rw [mkRef] at hmk
  simp only [hgb, hgl] at hmk
  have hr : r = ⟨b, parse_locations lcs⟩ := (Option.some.inj hmk).symm
  subst hr
  exact ⟨hbB, fun loc hl => mem_parse_locations_facts hl⟩

/-- C7 (corrected), counterexample: `parse "Gen 5-2"` yields one reference
whose single location has empty `chapters`; rendering that reference back
to text gives `"Gen "`, which re-parses to the empty sequence, not to an
equal singleton — so the semantic round-trip fails on parse outputs with an
inverted chapter range. -/
theorem roundtrip_cex :
    ∃ r, parse "Gen 5-2" = [r] ∧ parse (String.mk (renderRef r)) = [] := by
  refine ⟨⟨"Gen".data, [⟨[], none⟩]⟩, by decide, by decide⟩

/-- C7 (corrected), amended: the round-trip holds for every returned
reference whose locations are non-empty and well-shaped: each location has
a non-empty `chapters` whose leading value is at most 199, and no
present-but-empty `verses`.  Rendering such a reference back to text with
the grammar's separators and parsing again yields exactly that reference. -/
theorem roundtrip_amended (s : String) (r : BibleReference) (hr : r ∈ parse s)
    (hlocne : r.locations ≠ [])
    (hgood : ∀ loc ∈ r.locations, loc.chapters ≠ [] ∧
      (∀ a t, loc.chapters = a :: t → a ≤ 199) ∧ loc.verses ≠ some []) :
    parse (String.mk (renderRef r)) = [r] := by
  obtain ⟨hbB, hfacts⟩ := mem_parseL_facts hr
  have hgood' : ∀ loc ∈ r.locations, GoodLoc loc := by
    intro loc hl
    obtain ⟨h1, h2, h3⟩ := hgood loc hl
    obtain ⟨f1, f2, f3, f4⟩ := hfacts loc hl
    exact ⟨h1, f1, h2, f2, h3, f3, f4⟩
  show parseL (String.mk (renderRef r)).data = [r]
  have hdata : (String.mk (renderRef r)).data = renderRef r := rfl
  rw [hdata, renderRef, parseL_render hbB hlocne hgood']

theorem roundtrip_amended_w :
    (⟨"Gen".data, [⟨[1], some [1]⟩]⟩ : BibleReference) ∈ parse "Gen 1:1" ∧
    parse (String.mk (renderRef (⟨"Gen".data, [⟨[1], some [1]⟩]⟩ : BibleReference))) =
      [⟨"Gen".data, [⟨[1], some [1]⟩]⟩] := by
  refine ⟨by decide, roundtrip_amended "Gen 1:1" _ (by decide) (by decide) ?_⟩
  intro loc hl
  have hloc : loc = ⟨[1], some [1]⟩ := by simpa using hl
  subst hloc
  refine ⟨by decide, ?_, by decide⟩
  intro a t h
  injection h with h1 _
  omega

end BibleRef
